import Mathlib

/-!
Digraph: a shallow embedding of `core/Digraph.hpp`, with the route
reconstruction of `app/main.cpp`.

The class template `Digraph<VertexInfo, EdgeInfo>` keeps two counters and a
`std::map<int, DigraphVertex>`; every vertex record owns the `std::list` of its
outgoing edges.  The embedding below follows the member functions of the header
one by one.

Modelling conventions.

* `std::map<int, T>` is an association list kept in ascending key order
  (`StdMap.set` inserts at the ordered position, or assigns in place).
  Iterating over the map is iterating over the list.
* `std::list<T>` and `std::vector<T>` are `List T`.
* `int` vertex numbers and the two `int` counters are mathematical integers.
* A mutating member function maps the object state to the exception it throws
  (if any) together with the object state it leaves behind.
* The type `double` is a parameter (`DoubleOps`): its values `0.0` and
  `infinity`, its sum and its comparison `>`.  Theorems that depend on the
  arithmetic assume the laws `DoubleLaws`, which rounding and overflow of a
  sum respect; the code is evaluated on the exact values `Dist W`.
* `std::priority_queue<int, std::vector<int>, Compare>` is the binary heap of
  the standard library as libstdc++ implements it (`bits/stl_heap.h`): `push`
  is `push_back` followed by `std::push_heap`, `pop` is `std::pop_heap`
  followed by `pop_back`, `top` is `front`.  The comparator is called with the
  distance map as it is at the time of the call.
* A loop or recursion that is not structurally bounded takes a bound as its
  first argument and returns `none` when the bound is used up; the theorems
  show that the bounds chosen by `findShortestPaths`, `isStronglyConnected` and
  the reconstruction of a route are never used up on a graph built by the
  mutators.
-/

set_option autoImplicit false

namespace Core

/-- What a member function can throw: a `DigraphException` carrying its reason,
or the `std::out_of_range` of `std::map::at`. -/
inductive Thrown where
  | DigraphException (reason : String)
  | out_of_range
  deriving DecidableEq, Repr

/-- The struct template `DigraphEdge<EdgeInfo>`. -/
structure DigraphEdge (EdgeInfo : Type) where
  fromVertex : Int
  toVertex : Int
  einfo : EdgeInfo
  deriving DecidableEq, Repr

/-- The struct template `DigraphVertex<VertexInfo, EdgeInfo>`. -/
structure DigraphVertex (VertexInfo EdgeInfo : Type) where
  vinfo : VertexInfo
  edges : List (DigraphEdge EdgeInfo)
  deriving DecidableEq, Repr

/-- The private members of `Digraph<VertexInfo, EdgeInfo>`. -/
structure Digraph (VertexInfo EdgeInfo : Type) where
  vertexCount_ : Int
  edgeCount_ : Int
  adjList : List (Int × DigraphVertex VertexInfo EdgeInfo)
  deriving DecidableEq, Repr

namespace StdMap

variable {α : Type}

/-- Lookup `m.find(k)`: the mapped value, or `none` for `m.end()`. -/
def find : List (Int × α) → Int → Option α
  | [], _ => none
  | (k', v) :: t, k => if k' = k then some v else find t k

/-- Assignment `m[k] = v`: assigns in place when `k` is a key, otherwise
inserts the new entry at its position in ascending key order. -/
def set : List (Int × α) → Int → α → List (Int × α)
  | [], k, v => [(k, v)]
  | (k', v') :: t, k, v =>
    if k < k' then (k, v) :: (k', v') :: t
    else if k = k' then (k, v) :: t
    else (k', v') :: set t k v

/-- Removal `m.erase(k)`. -/
def erase : List (Int × α) → Int → List (Int × α)
  | [], _ => []
  | (k', v') :: t, k => if k' = k then t else (k', v') :: erase t k

/-- In-place mutation of the value mapped to an existing key, as done through
the reference returned by `m[k]`; a map without the key is left as it is. -/
def modify : List (Int × α) → Int → (α → α) → List (Int × α)
  | [], _, _ => []
  | (k', v') :: t, k, f =>
    if k' = k then (k', f v') :: t else (k', v') :: modify t k f

/-- Read `m[k]` of a map whose mapped type is value-initialised to `dflt`.
(The entry that `operator[]` creates for a missing key holds `dflt`, so later
reads see the same value.) -/
def get (dflt : α) (m : List (Int × α)) (k : Int) : α :=
  (find m k).getD dflt

/-- The keys in iteration order. -/
def keys (m : List (Int × α)) : List Int := m.map Prod.fst

end StdMap

namespace Digraph

variable {VertexInfo EdgeInfo : Type}

/-- The default constructor `Digraph()`. -/
def empty : Digraph VertexInfo EdgeInfo :=
  { vertexCount_ := 0, edgeCount_ := 0, adjList := [] }

/-- Member `vertices()`. -/
def vertices (g : Digraph VertexInfo EdgeInfo) : List Int :=
  g.adjList.map (fun p => p.1)

/-- Member `edges()`: the pairs `{edge.fromVertex, edge.toVertex}` of every
edge of every vertex, in map order. -/
def edges (g : Digraph VertexInfo EdgeInfo) : List (Int × Int) :=
  g.adjList.flatMap (fun p => p.2.edges.map (fun e => (e.fromVertex, e.toVertex)))

/-- Member `edges(int vertex)`. -/
def edgesOf (g : Digraph VertexInfo EdgeInfo) (vertex : Int) :
    Except Thrown (List (Int × Int)) :=
  match StdMap.find g.adjList vertex with
  | none => .error (.DigraphException "Digraph edges(): the given vertex does not exist.")
  | some v => .ok (v.edges.map (fun e => (e.fromVertex, e.toVertex)))

/-- Member `vertexInfo(int vertex)`. -/
def vertexInfo (g : Digraph VertexInfo EdgeInfo) (vertex : Int) : Except Thrown VertexInfo :=
  match StdMap.find g.adjList vertex with
  | none => .error (.DigraphException "Digraph vertexInfo(): the given vertex does not exist.")
  | some v => .ok v.vinfo

/-- The search loop of `edgeInfo`: the payload of the first edge whose
`toVertex` is the wanted one. -/
def edgeInfoLoop : List (DigraphEdge EdgeInfo) → Int → Option EdgeInfo
  | [], _ => none
  | e :: t, toVertex => if e.toVertex = toVertex then some e.einfo else edgeInfoLoop t toVertex

/-- Member `edgeInfo(int fromVertex, int toVertex)`. -/
def edgeInfo (g : Digraph VertexInfo EdgeInfo) (fromVertex toVertex : Int) :
    Except Thrown EdgeInfo :=
  match StdMap.find g.adjList fromVertex, StdMap.find g.adjList toVertex with
  | some v, some _ =>
    match edgeInfoLoop v.edges toVertex with
    | some x => .ok x
    | none => .error (.DigraphException "Digraph edgeInfo(): the edge does not exist.")
  | _, _ => .error (.DigraphException "Digraph edgeInfo(): either of vertices does not exist.")

/-- Member `addVertex(int vertex, const VertexInfo& vinfo)`. -/
def addVertex (g : Digraph VertexInfo EdgeInfo) (vertex : Int) (vinfo : VertexInfo) :
    Option Thrown × Digraph VertexInfo EdgeInfo :=
  match StdMap.find g.adjList vertex with
  | some _ =>
    (some (.DigraphException
      ("Digraph addVertex(): vertex number " ++ toString vertex
        ++ " has already existed in the graph.")), g)
  | none =>
    (none, { g with
      adjList := StdMap.set g.adjList vertex { vinfo := vinfo, edges := [] }
      vertexCount_ := g.vertexCount_ + 1 })

/-- The duplicate test of `addEdge`: does some edge of the list have the given
`fromVertex` and `toVertex`? -/
def hasEdge (es : List (DigraphEdge EdgeInfo)) (fromVertex toVertex : Int) : Bool :=
  es.any (fun e => decide (e.fromVertex = fromVertex) && decide (e.toVertex = toVertex))

/-- Member `addEdge(int fromVertex, int toVertex, const EdgeInfo& einfo)`. -/
def addEdge (g : Digraph VertexInfo EdgeInfo) (fromVertex toVertex : Int) (einfo : EdgeInfo) :
    Option Thrown × Digraph VertexInfo EdgeInfo :=
  match StdMap.find g.adjList fromVertex, StdMap.find g.adjList toVertex with
  | some v, some _ =>
    if hasEdge v.edges fromVertex toVertex then
      (some (.DigraphException
        "Digraph addEdge(): the same edge is already present in the graph."), g)
    else
      (none, { g with
        adjList := StdMap.modify g.adjList fromVertex
          (fun dv => { dv with edges := dv.edges ++ [⟨fromVertex, toVertex, einfo⟩] })
        edgeCount_ := g.edgeCount_ + 1 })
  | _, _ =>
    (some (.DigraphException "Digraph addEdge(): one of the vertices does not exist."), g)

/-- The inner loop of `removeVertex` on one edge list: erase the first edge
whose `toVertex` is `vertex` and stop (`none` when the loop runs to the end
without erasing). -/
def eraseFirstTo : List (DigraphEdge EdgeInfo) → Int → Option (List (DigraphEdge EdgeInfo))
  | [], _ => none
  | e :: t, vertex =>
    if e.toVertex = vertex then some t
    else (eraseFirstTo t vertex).map (fun t' => e :: t')

/-- The outer loop of `removeVertex` over the remaining map entries, carrying
`edgeCount_`. -/
def removeIncoming :
    List (Int × DigraphVertex VertexInfo EdgeInfo) → Int → Int →
      List (Int × DigraphVertex VertexInfo EdgeInfo) × Int
  | [], _, count => ([], count)
  | (num, dVertex) :: rest, vertex, count =>
    match eraseFirstTo dVertex.edges vertex with
    | some es =>
      let r := removeIncoming rest vertex (count - 1)
      ((num, { dVertex with edges := es }) :: r.1, r.2)
    | none =>
      let r := removeIncoming rest vertex count
      ((num, dVertex) :: r.1, r.2)

/-- Member `removeVertex(int vertex)`. -/
def removeVertex (g : Digraph VertexInfo EdgeInfo) (vertex : Int) :
    Option Thrown × Digraph VertexInfo EdgeInfo :=
  match StdMap.find g.adjList vertex with
  | none =>
    (some (.DigraphException "Digraph removeVertex(): the vertex does not exist already."), g)
  | some v =>
    let count := g.edgeCount_ - (v.edges.length : Int)
    let r := removeIncoming (StdMap.erase g.adjList vertex) vertex count
    (none, { vertexCount_ := g.vertexCount_ - 1, edgeCount_ := r.2, adjList := r.1 })

/-- Member `removeEdge(int fromVertex, int toVertex)`.  The `remove_if` has
already run on the list when the size test decides between the decrement and
the exception. -/
def removeEdge (g : Digraph VertexInfo EdgeInfo) (fromVertex toVertex : Int) :
    Option Thrown × Digraph VertexInfo EdgeInfo :=
  match StdMap.find g.adjList fromVertex, StdMap.find g.adjList toVertex with
  | some v, some _ =>
    let oldSz := v.edges.length
    let dEdges := v.edges.filter (fun e => !decide (e.toVertex = toVertex))
    let newSz := dEdges.length
    let adj := StdMap.modify g.adjList fromVertex (fun dv => { dv with edges := dEdges })
    if newSz < oldSz then
      (none, { g with adjList := adj, edgeCount_ := g.edgeCount_ - 1 })
    else
      (some (.DigraphException
        "Digraph removeEdge(): the edge is not already present in the graph."),
        { g with adjList := adj })
  | _, _ =>
    (some (.DigraphException "Digraph removeEdge(): one of the vertices does not exist."), g)

/-- Member `vertexCount()`. -/
def vertexCount (g : Digraph VertexInfo EdgeInfo) : Int := g.vertexCount_

/-- Member `edgeCount()`. -/
def edgeCount (g : Digraph VertexInfo EdgeInfo) : Int := g.edgeCount_

/-- Member `edgeCount(int vertex)`. -/
def edgeCountOf (g : Digraph VertexInfo EdgeInfo) (vertex : Int) : Except Thrown Int :=
  match StdMap.find g.adjList vertex with
  | none => .error (.DigraphException "Digraph edgeCount(): the vertex does not exist.")
  | some v => .ok (v.edges.length : Int)

end Digraph

/-- One call of a mutating member function. -/
inductive Mutation (VertexInfo EdgeInfo : Type) where
  | addVertex (vertex : Int) (vinfo : VertexInfo)
  | addEdge (fromVertex toVertex : Int) (einfo : EdgeInfo)
  | removeVertex (vertex : Int)
  | removeEdge (fromVertex toVertex : Int)

namespace Digraph

variable {VertexInfo EdgeInfo : Type}

/-- The object state after one mutator call, whether it threw or not. -/
def applyMutation (g : Digraph VertexInfo EdgeInfo) :
    Mutation VertexInfo EdgeInfo → Digraph VertexInfo EdgeInfo
  | .addVertex vertex vinfo => (g.addVertex vertex vinfo).2
  | .addEdge fromVertex toVertex einfo => (g.addEdge fromVertex toVertex einfo).2
  | .removeVertex vertex => (g.removeVertex vertex).2
  | .removeEdge fromVertex toVertex => (g.removeEdge fromVertex toVertex).2

/-- The object state after a sequence of mutator calls, first call first. -/
def applyMutations (g : Digraph VertexInfo EdgeInfo) (ms : List (Mutation VertexInfo EdgeInfo)) :
    Digraph VertexInfo EdgeInfo :=
  ms.foldl applyMutation g

/-- A graph built by the mutators: the state reached from the empty graph by
some sequence of `addVertex`, `addEdge`, `removeVertex`, `removeEdge` calls. -/
def Built (g : Digraph VertexInfo EdgeInfo) : Prop :=
  ∃ ms : List (Mutation VertexInfo EdgeInfo), g = applyMutations empty ms

end Digraph

/-- A `double` holding a finite value, kept as an exact number of `W`, or
`+infinity`. -/
inductive Dist (W : Type) where
  | fin (x : W)
  | inf
  deriving DecidableEq, Repr

namespace Dist

variable {W : Type} [LinearOrderedAddCommGroup W]

/-- Comparison `a > b` of two distances. -/
def gt : Dist W → Dist W → Bool
  | fin a, fin b => decide (b < a)
  | inf, fin _ => true
  | _, inf => false

/-- Sum `a + b` of two such values without rounding: `+infinity` when one of
them is. -/
def add : Dist W → Dist W → Dist W
  | fin a, fin b => fin (a + b)
  | _, _ => inf

end Dist

/-- The type `double` as `findShortestPaths` uses it, taken as a parameter:
the values `0.0` and `std::numeric_limits<double>::infinity()`, the sum
`a + b` and the comparison `a > b`.  Nothing is fixed about them: rounding,
overflow of a sum to infinity, infinite operands and NaN are left to the
instance. -/
class DoubleOps (D : Type) where
  zero : D
  infinity : D
  add : D → D → D
  gt : D → D → Bool

/-- The values `Dist W` with exact sums: `double` on inputs whose weights and
sums are exactly representable (integers of magnitude below `2^53`, for
one), or `+infinity`.  The code is evaluated on such inputs with it. -/
instance instDoubleOpsDist {W : Type} [LinearOrderedAddCommGroup W] : DoubleOps (Dist W) where
  zero := Dist.fin 0
  infinity := Dist.inf
  add := Dist.add
  gt := Dist.gt

namespace StdHeap

/-- Loop of `std::__push_heap(first, holeIndex, topIndex, value, comp)`: while
the hole is below `topIndex` and `comp(first[parent], value)`, the parent moves
into the hole; then the value is stored in the hole.  The first argument bounds
the number of iterations; the hole index is a sufficient bound, since every
iteration replaces it by the smaller `(holeIndex - 1) / 2`. -/
def pushHeap (comp : Int → Int → Bool) : Nat → List Int → Nat → Nat → Int → List Int
  | 0, c, holeIndex, _, value => c.set holeIndex value
  | fuel + 1, c, holeIndex, topIndex, value =>
    let parent := (holeIndex - 1) / 2
    if decide (holeIndex > topIndex) && comp (c.getD parent 0) value then
      pushHeap comp fuel (c.set holeIndex (c.getD parent 0)) parent topIndex value
    else c.set holeIndex value

/-- First loop of `std::__adjust_heap`: while `secondChild < (len - 1) / 2`, the
child preferred by `comp` moves into the hole.  `secondChild` equals
`holeIndex` at every loop test, so one index is carried.  The first argument
bounds the number of iterations (`len` is enough, the index grows each time). -/
def siftDown (comp : Int → Int → Bool) : Nat → List Int → Nat → Nat → List Int × Nat
  | 0, c, holeIndex, _ => (c, holeIndex)
  | fuel + 1, c, holeIndex, len =>
    if holeIndex < (len - 1) / 2 then
      let secondChild := 2 * (holeIndex + 1)
      let secondChild :=
        if comp (c.getD secondChild 0) (c.getD (secondChild - 1) 0) then secondChild - 1
        else secondChild
      siftDown comp fuel (c.set holeIndex (c.getD secondChild 0)) secondChild len
    else (c, holeIndex)

/-- Function `std::__adjust_heap(first, holeIndex, len, value, comp)` on the
range `c` of length `len`. -/
def adjustHeap (comp : Int → Int → Bool) (c : List Int) (holeIndex len : Nat) (value : Int) :
    List Int :=
  let r := siftDown comp len c holeIndex len
  let r :=
    if len % 2 = 0 ∧ r.2 = (len - 2) / 2 then
      (r.1.set r.2 (r.1.getD (2 * (r.2 + 1) - 1) 0), 2 * (r.2 + 1) - 1)
    else r
  pushHeap comp r.2 r.1 r.2 holeIndex value

/-- Member `priority_queue::push(x)`: `c.push_back(x)`, then
`std::push_heap(c.begin(), c.end(), comp)`, which sifts the new last element
up from index `size - 1`. -/
def push (comp : Int → Int → Bool) (c : List Int) (x : Int) : List Int :=
  pushHeap comp c.length (c ++ [x]) c.length 0 x

/-- Member `priority_queue::top()`: `c.front()`. -/
def top (c : List Int) : Int := c.headD 0

/-- Member `priority_queue::pop()`: `std::pop_heap(c.begin(), c.end(), comp)`,
then `c.pop_back()`.  For more than one element `std::pop_heap` saves the last
element as `value`, stores the first element in the last slot and runs
`std::__adjust_heap` on the range without that slot; `pop_back` then drops the
slot. -/
def pop (comp : Int → Int → Bool) (c : List Int) : List Int :=
  if c.length > 1 then
    adjustHeap comp c.dropLast 0 (c.length - 1) (c.getD (c.length - 1) 0)
  else c.dropLast

end StdHeap

/-- The local variables of `findShortestPaths`: the three maps and the
container of the priority queue. -/
structure ShortestPathsState (W : Type) where
  result : List (Int × Int)
  k : List (Int × Bool)
  d : List (Int × W)
  pq : List Int
  deriving DecidableEq, Repr

namespace Digraph

variable {VertexInfo EdgeInfo W : Type} [DoubleOps W]

/-- The lambda `compare` of `findShortestPaths`, reading the distance map as it
is at the time of the call: `d[num1] > d[num2]`. -/
def compare (d : List (Int × W)) (num1 num2 : Int) : Bool :=
  DoubleOps.gt (StdMap.get DoubleOps.zero d num1) (StdMap.get DoubleOps.zero d num2)

/-- The initialisation loop of `findShortestPaths` over the map entries. -/
def initShortestPaths (startVertex : Int) :
    List (Int × DigraphVertex VertexInfo EdgeInfo) → ShortestPathsState W → ShortestPathsState W
  | [], st => st
  | (num, _) :: rest, st =>
    initShortestPaths startVertex rest
      { st with
        k := StdMap.set st.k num false
        result := StdMap.set st.result num num
        d := StdMap.set st.d num
          (if num = startVertex then DoubleOps.zero else DoubleOps.infinity) }

/-- The body of the edge loop of `findShortestPaths` for one edge of the
vertex `vNum`. -/
def relaxEdge (edgeWeightFunc : EdgeInfo → W) (vNum : Int) (st : ShortestPathsState W)
    (edge : DigraphEdge EdgeInfo) : ShortestPathsState W :=
  let candidate :=
    DoubleOps.add (StdMap.get DoubleOps.zero st.d vNum) (edgeWeightFunc edge.einfo)
  if DoubleOps.gt (StdMap.get DoubleOps.zero st.d edge.toVertex) candidate then
    let d := StdMap.set st.d edge.toVertex candidate
    { st with
      d := d
      result := StdMap.set st.result edge.toVertex vNum
      pq := StdHeap.push (compare d) st.pq edge.toVertex }
  else st

/-- One iteration of the `while (!pq.empty())` loop. -/
def shortestPathsStep (g : Digraph VertexInfo EdgeInfo) (edgeWeightFunc : EdgeInfo → W)
    (st : ShortestPathsState W) : Except Thrown (ShortestPathsState W) :=
  let vNum := StdHeap.top st.pq
  let st := { st with pq := StdHeap.pop (compare st.d) st.pq }
  if StdMap.get false st.k vNum = false then
    let st := { st with k := StdMap.set st.k vNum true }
    match StdMap.find g.adjList vNum with
    | none => .error .out_of_range
    | some v => .ok (v.edges.foldl (relaxEdge edgeWeightFunc vNum) st)
  else .ok st

/-- The `while (!pq.empty())` loop, run for at most the given number of
iterations; `none` when the queue is still not empty after that many. -/
def shortestPathsLoop (g : Digraph VertexInfo EdgeInfo) (edgeWeightFunc : EdgeInfo → W) :
    Nat → ShortestPathsState W → Option (Except Thrown (ShortestPathsState W))
  | 0, st => if st.pq = [] then some (.ok st) else none
  | fuel + 1, st =>
    if st.pq = [] then some (.ok st)
    else
      match shortestPathsStep g edgeWeightFunc st with
      | .error e => some (.error e)
      | .ok st => shortestPathsLoop g edgeWeightFunc fuel st

/-- Member `findShortestPaths(startVertex, edgeWeightFunc)`, with the loop
bounded by `fuel` iterations. -/
def findShortestPathsWithin (fuel : Nat) (g : Digraph VertexInfo EdgeInfo) (startVertex : Int)
    (edgeWeightFunc : EdgeInfo → W) : Option (Except Thrown (List (Int × Int))) :=
  match StdMap.find g.adjList startVertex with
  | none =>
    some (.error (.DigraphException "Digraph findShortestPaths(): the startVertex is not valid."))
  | some _ =>
    let st : ShortestPathsState W :=
      initShortestPaths startVertex g.adjList { result := [], k := [], d := [], pq := [] }
    let st := { st with pq := StdHeap.push (compare st.d) st.pq startVertex }
    match shortestPathsLoop g edgeWeightFunc fuel st with
    | none => none
    | some (.error e) => some (.error e)
    | some (.ok st) => some (.ok st.result)

/-- Member `findShortestPaths(startVertex, edgeWeightFunc)`.  Every loop
iteration pops one queue entry, and entries are pushed once for the start
vertex and at most once per edge record, so `1 + edges().size()` iterations
empty the queue. -/
def findShortestPaths (g : Digraph VertexInfo EdgeInfo) (startVertex : Int)
    (edgeWeightFunc : EdgeInfo → W) : Option (Except Thrown (List (Int × Int))) :=
  findShortestPathsWithin (1 + g.edges.length) g startVertex edgeWeightFunc

end Digraph

/-- The local variables `visited` and `find` that `DFTr` receives by reference. -/
abbrev TraversalState := List Int × Int

namespace Digraph

variable {VertexInfo EdgeInfo : Type}

/-- The edge loop of `DFTr` over the rest of the edge list of the current
vertex; `recurse` is the recursive call.  The argument `g.at(edge.toVertex)`
of the recursive call is evaluated first and throws for an absent vertex. -/
def DFTrEdges (recurse : Int → TraversalState → Option (Except Thrown TraversalState))
    (g : List (Int × DigraphVertex VertexInfo EdgeInfo)) :
    List (DigraphEdge EdgeInfo) → TraversalState → Option (Except Thrown TraversalState)
  | [], st => some (.ok st)
  | edge :: rest, st =>
    if st.1.any (fun i => decide (i = edge.toVertex)) then DFTrEdges recurse g rest st
    else
      match StdMap.find g edge.toVertex with
      | none => some (.error .out_of_range)
      | some _ =>
        match recurse edge.toVertex st with
        | some (.ok st') => DFTrEdges recurse g rest st'
        | other => other

/-- Member `DFTr(g, v, num, visited, find)`, with the recursion depth bounded
by the first argument (`none` when the bound is reached).  The parameter `v`
is not used by the body and is left out. -/
def DFTr (g : List (Int × DigraphVertex VertexInfo EdgeInfo)) :
    Nat → Int → TraversalState → Option (Except Thrown TraversalState)
  | 0, _, _ => none
  | depth + 1, num, st =>
    match StdMap.find g num with
    | none => some (.error .out_of_range)
    | some v => DFTrEdges (DFTr g depth) g v.edges (st.1 ++ [num], st.2 + 1)

/-- The loop of `isStronglyConnected` over the map entries. -/
def isStronglyConnectedLoop (g : Digraph VertexInfo EdgeInfo) :
    List (Int × DigraphVertex VertexInfo EdgeInfo) → Option (Except Thrown Bool)
  | [] => some (.ok true)
  | (num, _) :: rest =>
    match DFTr g.adjList g.adjList.length num ([], 0) with
    | none => none
    | some (.error e) => some (.error e)
    | some (.ok st) =>
      if g.vertexCount_ ≠ st.2 then some (.ok false) else isStronglyConnectedLoop g rest

/-- Member `isStronglyConnected()`.  A chain of nested `DFTr` calls visits a
new vertex at every level, so the number of map entries bounds its depth. -/
def isStronglyConnected (g : Digraph VertexInfo EdgeInfo) : Option (Except Thrown Bool) :=
  isStronglyConnectedLoop g g.adjList

end Digraph

/-- The enum class `TripMetric`. -/
inductive TripMetric where
  | Distance
  | Time
  deriving DecidableEq, Repr

/-- Modelled from the spec: the struct `Trip`, whose header is not among the
sources.  `main.cpp` reads its fields `startVertex`, `endVertex` and `metric`;
the spec calls them the source and target of a route query. -/
structure Trip where
  startVertex : Int
  endVertex : Int
  metric : TripMetric
  deriving DecidableEq, Repr

/-- The `while (current != pred)` loop of `sortPredocessors` on the predecessor
map `map[trip.startVertex]`, run for at most the given number of iterations
(`none` when the loop has not ended by then).  A read `m[current]` of a
missing key yields the value-initialised `0`. -/
def sortPredocessorsLoop (m : List (Int × Int)) : Nat → List Int → Int → Int → Option (List Int)
  | 0, order, current, pred => if current = pred then some order else none
  | fuel + 1, order, current, pred =>
    if current = pred then some order
    else sortPredocessorsLoop m fuel (order ++ [pred]) pred (StdMap.get 0 m pred)

/-- Function `sortPredocessors(trip, map)` of `main.cpp`, with the loop bounded
by `fuel` iterations. -/
def sortPredocessors (fuel : Nat) (trip : Trip) (map : List (Int × List (Int × Int))) :
    Option (List Int) :=
  sortPredocessorsLoop (StdMap.get [] map trip.startVertex) fuel [trip.endVertex]
    trip.endVertex (StdMap.get 0 (StdMap.get [] map trip.startVertex) trip.endVertex)

namespace Digraph

variable {VertexInfo EdgeInfo : Type}

/-- The exception thrown by one mutator call, if any. -/
def mutationThrown (g : Digraph VertexInfo EdgeInfo) :
    Mutation VertexInfo EdgeInfo → Option Thrown
  | .addVertex vertex vinfo => (g.addVertex vertex vinfo).1
  | .addEdge fromVertex toVertex einfo => (g.addEdge fromVertex toVertex einfo).1
  | .removeVertex vertex => (g.removeVertex vertex).1
  | .removeEdge fromVertex toVertex => (g.removeEdge fromVertex toVertex).1

/-- The loop `tempList[num] = vertex` of the copy constructor and of the copy
assignment operator over the entries of `d.adjList`. -/
def copyEntries :
    List (Int × DigraphVertex VertexInfo EdgeInfo) →
      List (Int × DigraphVertex VertexInfo EdgeInfo) →
      List (Int × DigraphVertex VertexInfo EdgeInfo)
  | [], tempList => tempList
  | (num, vertex) :: rest, tempList => copyEntries rest (StdMap.set tempList num vertex)

/-- The copy constructor `Digraph(const Digraph& d)`: the constructed object,
paired with the argument `d` after the call (a const reference, returned as it
is). -/
def copyConstruct (d : Digraph VertexInfo EdgeInfo) :
    Digraph VertexInfo EdgeInfo × Digraph VertexInfo EdgeInfo :=
  ({ vertexCount_ := d.vertexCount_
     edgeCount_ := d.edgeCount_
     adjList := copyEntries d.adjList [] }, d)

/-- The copy assignment `operator=(const Digraph& d)` called on an object
`self` other than `d` (`this != &d`): `self` after the call, paired with `d`
after the call. -/
def copyAssign (self d : Digraph VertexInfo EdgeInfo) :
    Digraph VertexInfo EdgeInfo × Digraph VertexInfo EdgeInfo :=
  ({ self with
     adjList := copyEntries d.adjList []
     vertexCount_ := d.vertexCount_
     edgeCount_ := d.edgeCount_ }, d)

/-- The copy assignment `operator=(const Digraph& d)` called on `d` itself
(`this == &d`): the body is skipped. -/
def copyAssignSelf (self : Digraph VertexInfo EdgeInfo) : Digraph VertexInfo EdgeInfo := self

/-- The move constructor `Digraph(Digraph&& d)`: the members are initialised to
`0`, `0` and the empty map and then swapped with those of `d`.  Returns the
constructed object paired with `d` after the call. -/
def moveConstruct (d : Digraph VertexInfo EdgeInfo) :
    Digraph VertexInfo EdgeInfo × Digraph VertexInfo EdgeInfo :=
  let self : Digraph VertexInfo EdgeInfo := { vertexCount_ := 0, edgeCount_ := 0, adjList := [] }
  ({ vertexCount_ := d.vertexCount_, edgeCount_ := d.edgeCount_, adjList := d.adjList },
    { vertexCount_ := self.vertexCount_, edgeCount_ := self.edgeCount_,
      adjList := self.adjList })

/-- The move assignment `operator=(Digraph&& d)` called on an object `self`
other than `d` (`this != &d`): the three members of `self` are swapped with
those of `d`.  Returns `self` after the call paired with `d` after the call. -/
def moveAssign (self d : Digraph VertexInfo EdgeInfo) :
    Digraph VertexInfo EdgeInfo × Digraph VertexInfo EdgeInfo :=
  ({ vertexCount_ := d.vertexCount_, edgeCount_ := d.edgeCount_, adjList := d.adjList },
    { vertexCount_ := self.vertexCount_, edgeCount_ := self.edgeCount_,
      adjList := self.adjList })

/-- The move assignment `operator=(Digraph&& d)` called on `d` itself
(`this == &d`): the body is skipped. -/
def moveAssignSelf (self : Digraph VertexInfo EdgeInfo) : Digraph VertexInfo EdgeInfo := self

end Digraph

/-- One of the two graph objects a caller holds after a copy or a move: the
object that was constructed or assigned to, or the argument of that call. -/
inductive Obj where
  | target
  | source
  deriving DecidableEq, Repr

namespace Digraph

variable {VertexInfo EdgeInfo : Type}

/-- One mutator call of the caller on one of its two objects; the pair holds
the target object first and the source object second. -/
def applyCall (p : Digraph VertexInfo EdgeInfo × Digraph VertexInfo EdgeInfo)
    (c : Obj × Mutation VertexInfo EdgeInfo) :
    Digraph VertexInfo EdgeInfo × Digraph VertexInfo EdgeInfo :=
  match c.1 with
  | .target => (applyMutation p.1 c.2, p.2)
  | .source => (p.1, applyMutation p.2 c.2)

/-- A sequence of mutator calls of the caller on its two objects. -/
def applyCalls (p : Digraph VertexInfo EdgeInfo × Digraph VertexInfo EdgeInfo)
    (cs : List (Obj × Mutation VertexInfo EdgeInfo)) :
    Digraph VertexInfo EdgeInfo × Digraph VertexInfo EdgeInfo :=
  cs.foldl applyCall p

/-- The calls of a sequence that are made on the given object, in order. -/
def callsOn (o : Obj) (cs : List (Obj × Mutation VertexInfo EdgeInfo)) :
    List (Mutation VertexInfo EdgeInfo) :=
  (cs.filter (fun c => decide (c.1 = o))).map (fun c => c.2)

end Digraph

namespace Digraph

variable {VertexInfo EdgeInfo : Type}

/-- In the words of the spec: the vertex id `x` is currently present after the
call sequence `ms` on an empty graph, i.e. it has been added and not removed
since.  (`addVertex` of a present id and `removeVertex` of an absent id are
rejected and change nothing.) -/
def specPresent (x : Int) : List (Mutation VertexInfo EdgeInfo) → Bool → Bool
  | [], present => present
  | .addVertex vertex _ :: ms, present => specPresent x ms (present || decide (x = vertex))
  | .removeVertex vertex :: ms, present => specPresent x ms (present && !decide (x = vertex))
  | _ :: ms, present => specPresent x ms present

/-- One step of the insertion log: an `addEdge` call that does not throw
appends its pair, `removeEdge(u, v)` deletes the pair `(u, v)`, and
`removeVertex(v)` deletes the pairs with `v` as source or target. -/
def insertionLogStep (g : Digraph VertexInfo EdgeInfo) (log : List (Int × Int)) :
    Mutation VertexInfo EdgeInfo → List (Int × Int)
  | .addVertex _ _ => log
  | .addEdge fromVertex toVertex einfo =>
    if (g.addEdge fromVertex toVertex einfo).1 = none then log ++ [(fromVertex, toVertex)]
    else log
  | .removeVertex vertex =>
    log.filter (fun ab => !decide (ab.1 = vertex) && !decide (ab.2 = vertex))
  | .removeEdge fromVertex toVertex =>
    log.filter (fun ab => decide (ab ≠ (fromVertex, toVertex)))

/-- In the words of the spec: the edges in insertion order.  The log of the
pairs inserted by the calls `ms`, made one after the other on the graph `g`,
oldest first, without the pairs removed since. -/
def insertionLog (g : Digraph VertexInfo EdgeInfo) (log : List (Int × Int)) :
    List (Mutation VertexInfo EdgeInfo) → List (Int × Int)
  | [] => log
  | m :: ms => insertionLog (g.applyMutation m) (insertionLogStep g log m) ms

end Digraph

namespace Digraph

variable {VertexInfo EdgeInfo : Type}

/-- The representation invariant of the class: the map is in strictly
ascending key order, every edge record sits in the list of its `fromVertex`,
points to a key of the map, no list holds two edges to the same vertex, and
the two counters agree with the map. -/
structure WellFormed (g : Digraph VertexInfo EdgeInfo) : Prop where
  keys_sorted : (StdMap.keys g.adjList).Pairwise (fun a b => a < b)
  from_eq : ∀ p ∈ g.adjList, ∀ e ∈ p.2.edges, e.fromVertex = p.1
  to_mem : ∀ p ∈ g.adjList, ∀ e ∈ p.2.edges, e.toVertex ∈ StdMap.keys g.adjList
  to_nodup : ∀ p ∈ g.adjList, (p.2.edges.map (fun e => e.toVertex)).Nodup
  vertexCount_eq : g.vertexCount_ = (g.adjList.length : Int)
  edgeCount_eq :
    g.edgeCount_ = (((g.adjList.map (fun p => p.2.edges.length)).sum : Nat) : Int)

/-- The insertion log agrees with the graph: the outgoing list of every vertex
holds, in the same order, the logged pairs with that vertex as source, and
every logged pair joins two vertices of the graph. -/
structure LogInv (g : Digraph VertexInfo EdgeInfo) (log : List (Int × Int)) : Prop where
  list_eq : ∀ p ∈ g.adjList,
    p.2.edges.map (fun e => (e.fromVertex, e.toVertex)) =
      log.filter (fun ab => decide (ab.1 = p.1))
  ends_mem : ∀ ab ∈ log, ab.1 ∈ g.vertices ∧ ab.2 ∈ g.vertices

/-- Two graphs answer every query of the class alike: `vertices()`, `edges()`,
`edges(v)`, `vertexInfo(v)`, `edgeInfo(u, v)`, `vertexCount()`, `edgeCount()`
and `edgeCount(v)`, thrown exceptions included. -/
structure SameQueries (g h : Digraph VertexInfo EdgeInfo) : Prop where
  vertices_eq : g.vertices = h.vertices
  edges_eq : g.edges = h.edges
  edgesOf_eq : ∀ v, g.edgesOf v = h.edgesOf v
  vertexInfo_eq : ∀ v, g.vertexInfo v = h.vertexInfo v
  edgeInfo_eq : ∀ u v, g.edgeInfo u v = h.edgeInfo u v
  vertexCount_eq : g.vertexCount = h.vertexCount
  edgeCount_eq : g.edgeCount = h.edgeCount
  edgeCountOf_eq : ∀ v, g.edgeCountOf v = h.edgeCountOf v

end Digraph

namespace Digraph

variable {VertexInfo EdgeInfo W : Type} [LinearOrderedAddCommGroup W]

/-- There is an edge from `u` to `v`: the pair is listed by `edges()`. -/
def Adj (g : Digraph VertexInfo EdgeInfo) (u v : Int) : Prop := (u, v) ∈ g.edges

/-- There is a directed path from `s` to `t` (of any length, zero included). -/
def Reachable (g : Digraph VertexInfo EdgeInfo) (s t : Int) : Prop :=
  Relation.ReflTransGen (Adj g) s t

/-- A directed walk from `s` to `t` whose edge weights, read through
`edgeInfo` and the weight function, add up to `c`. -/
inductive WalkCost (g : Digraph VertexInfo EdgeInfo) (edgeWeightFunc : EdgeInfo → W) :
    Int → Int → W → Prop where
  | nil (s : Int) : WalkCost g edgeWeightFunc s s 0
  | step {s u t : Int} {c : W} {x : EdgeInfo} :
    WalkCost g edgeWeightFunc s u c → g.edgeInfo u t = .ok x →
      WalkCost g edgeWeightFunc s t (c + edgeWeightFunc x)

end Digraph

namespace Dist

variable {W : Type}

/-- The distance is not negative. -/
def Nonneg [LinearOrderedAddCommGroup W] : Dist W → Prop
  | fin x => 0 ≤ x
  | inf => True

end Dist

/-- The value is below `+infinity`: `infinity > x`. -/
def DoubleOps.isFin {D : Type} [DoubleOps D] (x : D) : Bool :=
  DoubleOps.gt (DoubleOps.infinity : D) x

/-- Facts about `double` on the values `Nonneg`, meant as the numbers that are
not below zero together with `+infinity` (a NaN or a negative number is not
among them): `>` is irreflexive and transitive, on these values its negation
`<=` is transitive too, zero is the least and `+infinity` the greatest of
them, and the sum of two of them is again one and is not below the first.
Rounding a sum and overflow of a sum to `+infinity` are compatible with all of
these. -/
class DoubleLaws (D : Type) extends DoubleOps D where
  Nonneg : D → Prop
  nonneg_zero : Nonneg zero
  nonneg_infinity : Nonneg infinity
  nonneg_add : ∀ a w, Nonneg a → Nonneg w → Nonneg (add a w)
  gt_irrefl : ∀ a, gt a a = false
  gt_trans : ∀ a b c, gt a b = true → gt b c = true → gt a c = true
  not_gt_trans : ∀ a b c, Nonneg a → Nonneg b → Nonneg c →
    gt a b = false → gt b c = false → gt a c = false
  zero_le : ∀ a, Nonneg a → gt zero a = false
  le_infinity : ∀ a, gt a infinity = false
  zero_lt_infinity : gt infinity zero = true
  le_add : ∀ a w, Nonneg a → Nonneg w → gt a (add a w) = false

/-- The exact values `Dist W` satisfy the laws, with `Dist.Nonneg`. -/
instance instDoubleLawsDist {W : Type} [LinearOrderedAddCommGroup W] : DoubleLaws (Dist W) where
  Nonneg := Dist.Nonneg
  nonneg_zero := le_refl (0 : W)
  nonneg_infinity := trivial
  nonneg_add := by
    intro a w ha hw
    cases a <;> cases w <;> first | exact add_nonneg ha hw | trivial
  gt_irrefl := by
    intro a
    cases a <;> simp [DoubleOps.gt, Dist.gt]
  gt_trans := by
    intro a b c h1 h2
    cases a <;> cases b <;> cases c <;> simp_all [DoubleOps.gt, Dist.gt]
    exact lt_trans h2 h1
  not_gt_trans := by
    intro a b c _ _ _ h1 h2
    cases a <;> cases b <;> cases c <;> simp_all [DoubleOps.gt, Dist.gt]
    exact le_trans h1 h2
  zero_le := by
    intro a ha
    cases a with
    | fin x => simpa [DoubleOps.gt, DoubleOps.zero, Dist.gt] using ha
    | inf => rfl
  le_infinity := by
    intro a
    cases a <;> rfl
  zero_lt_infinity := rfl
  le_add := by
    intro a w ha hw
    cases a <;> cases w <;> simp_all [DoubleOps.gt, DoubleOps.add, Dist.gt, Dist.add, Dist.Nonneg]

namespace ShortestPathsState

variable {W : Type} [DoubleOps W]

/-- The entry `d[v]` of the distance map. -/
def dist (st : ShortestPathsState W) (v : Int) : W := StdMap.get DoubleOps.zero st.d v

/-- The entry `k[v]` of the map of settled vertices. -/
def settled (st : ShortestPathsState W) (v : Int) : Bool := StdMap.get false st.k v

end ShortestPathsState

namespace Digraph

variable {VertexInfo EdgeInfo W : Type} [DoubleOps W]

/-- The number of edge records of vertices not yet settled: a bound on the
queue entries that can still be pushed. -/
def pendingPushes (g : Digraph VertexInfo EdgeInfo) (st : ShortestPathsState W) : Nat :=
  (g.adjList.map (fun p => if st.settled p.1 then 0 else p.2.edges.length)).sum

/-- The state of `findShortestPaths` when the `while` loop is entered: the
maps after the initialisation loop, and the queue after `pq.push(startVertex)`. -/
def entryState (g : Digraph VertexInfo EdgeInfo) (startVertex : Int) : ShortestPathsState W :=
  let st : ShortestPathsState W :=
    initShortestPaths startVertex g.adjList { result := [], k := [], d := [], pq := [] }
  { st with pq := StdHeap.push (compare st.d) st.pq startVertex }

/-- Facts about the state of `findShortestPaths` that hold at every loop test,
whatever the weights: the result map has the vertices as keys and as values,
the queue holds vertices reachable from the start vertex, and every entry
`result[v] = u` with `u != v` is an edge from a vertex reachable from the
start vertex. -/
structure PathsInv (g : Digraph VertexInfo EdgeInfo) (s : Int) (st : ShortestPathsState W) :
    Prop where
  keys_result : StdMap.keys st.result = StdMap.keys g.adjList
  pq_mem : ∀ x ∈ st.pq, x ∈ StdMap.keys g.adjList
  val_mem : ∀ p ∈ st.result, p.2 ∈ StdMap.keys g.adjList
  pq_reach : ∀ x ∈ st.pq, Reachable g s x
  pred_edge : ∀ v u, StdMap.find st.result v = some u → u ≠ v → Adj g u v ∧ Reachable g s u

end Digraph

namespace Digraph

variable {VertexInfo EdgeInfo W : Type} [DoubleLaws W]

/-- Every edge of the graph has a weight that is not negative (a number not
below zero, or `+infinity`). -/
def NonnegWeights (g : Digraph VertexInfo EdgeInfo) (edgeWeightFunc : EdgeInfo → W) : Prop :=
  ∀ p ∈ g.adjList, ∀ e ∈ p.2.edges, DoubleLaws.Nonneg (edgeWeightFunc e.einfo)

/-- Adding the weight of an edge of the graph to a distance below `+infinity`
never gives `+infinity`: the weights are finite and small enough for no sum to
overflow. -/
def FiniteSums (g : Digraph VertexInfo EdgeInfo) (edgeWeightFunc : EdgeInfo → W) : Prop :=
  ∀ p ∈ g.adjList, ∀ e ∈ p.2.edges, ∀ a : W, DoubleLaws.Nonneg a →
    DoubleOps.isFin a = true → DoubleOps.isFin (DoubleOps.add a (edgeWeightFunc e.einfo)) = true

/-- Facts about the state of `findShortestPaths` that hold at every loop test
when no weight is negative: no distance is negative, and the start vertex
keeps distance 0 and itself as predecessor. -/
structure StartInv (s : Int) (st : ShortestPathsState W) : Prop where
  dist_nonneg : ∀ v, DoubleLaws.Nonneg (st.dist v)
  dist_start : st.dist s = DoubleOps.zero
  result_start : StdMap.find st.result s = some s

/-- A fact about the state of `findShortestPaths` that holds at every loop test
and inside the edge loop when no weight is negative: along every entry
`result[v] = u` with `u != v`, the pair (distance, time of the last update)
decreases, i.e. `d[u] <= d[v]`, and `d[u] < d[v]` or `u` was last updated
before `v`. -/
structure RankInv (st : ShortestPathsState W) : Prop where
  rank : ∃ l : Int → Nat, ∀ v u, StdMap.find st.result v = some u → u ≠ v →
    DoubleOps.gt (st.dist u) (st.dist v) = false ∧
      (DoubleOps.gt (st.dist v) (st.dist u) = true ∨ l u < l v)

/-- Facts about the state of `findShortestPaths` that hold when no weight is
negative and no sum of a finite distance and a weight is infinite, at every
loop test (`pending = []`) and inside the edge loop of the vertex `cur`,
whose edges `pending` are still to be relaxed.  `fin_pred`: a vertex other
than the start vertex with a finite distance has a predecessor other than
itself.  `fin_seen`: a vertex with a finite distance is queued or settled.
`settled_closed`: a settled vertex has a finite distance, and so has every
target of its edges, the pending ones apart.  `pq_fin`: queued vertices have
finite distances. -/
structure ChainInv (g : Digraph VertexInfo EdgeInfo) (s cur : Int)
    (pending : List (DigraphEdge EdgeInfo)) (st : ShortestPathsState W) : Prop where
  fin_pred : ∀ v ∈ StdMap.keys g.adjList, v ≠ s → DoubleOps.isFin (st.dist v) = true →
    ∃ u, StdMap.find st.result v = some u ∧ u ≠ v
  fin_seen : ∀ v ∈ StdMap.keys g.adjList, DoubleOps.isFin (st.dist v) = true →
    v ∈ st.pq ∨ st.settled v = true
  settled_closed : ∀ u dv, st.settled u = true → StdMap.find g.adjList u = some dv →
    DoubleOps.isFin (st.dist u) = true ∧
      ∀ e ∈ dv.edges, DoubleOps.isFin (st.dist e.toVertex) = true ∨ (u = cur ∧ e ∈ pending)
  pq_fin : ∀ x ∈ st.pq, DoubleOps.isFin (st.dist x) = true

end Digraph

namespace Digraph

/-- A call sequence used as a concrete instance: three vertices, three edges,
then the removal of the middle vertex. -/
def sampleMutations : List (Mutation Unit Int) :=
  [.addVertex 0 (), .addVertex 1 (), .addVertex 2 (), .addEdge 0 1 5, .addEdge 1 2 6,
    .addEdge 0 2 7, .removeVertex 1]

/-- A graph used as a concrete instance: vertices 0, 1, 2 with the edges
0->1, 1->2, 0->2 and the self-loop 1->1. -/
def sampleGraph : Digraph Unit Int :=
  applyMutations empty
    [.addVertex 0 (), .addVertex 1 (), .addVertex 2 (), .addEdge 0 1 5, .addEdge 1 2 6,
      .addEdge 0 2 7, .addEdge 1 1 8]

/-- Six vertices and eight weighted edges on which the queue of
`findShortestPaths` loses its heap order: `0->1 (10)`, `0->2 (20)`, `0->3 (12)`,
`0->4 (4)`, `4->2 (2)`, `2->1 (2)`, `1->5 (2)`, `2->5 (5)`, inserted in this
order. -/
def staleKeyGraph : Digraph Unit Int :=
  applyMutations empty
    [.addVertex 0 (), .addVertex 1 (), .addVertex 2 (), .addVertex 3 (), .addVertex 4 (),
      .addVertex 5 (), .addEdge 0 1 10, .addEdge 0 2 20, .addEdge 0 3 12, .addEdge 0 4 4,
      .addEdge 4 2 2, .addEdge 2 1 2, .addEdge 1 5 2, .addEdge 2 5 5]

/-- Lower bounds on the weight of a walk from vertex 0 of `staleKeyGraph`. -/
def staleKeyPotential (v : Int) : Int :=
  if v = 1 then 8 else if v = 2 then 6 else if v = 3 then 12 else if v = 4 then 4
  else if v = 5 then 10 else 0

end Digraph

/-- One iteration of the `while (!pq.empty())` loop of `findShortestPaths`, as
seen from outside: the vertex `pq.top()` that was popped, whether it was
already settled (`k[vNum] == true`, the iteration then does nothing else), and
the number of `pq.push` calls of the iteration. -/
structure PopEvent where
  vertex : Int
  skipped : Bool
  pushed : Nat
  deriving DecidableEq, Repr

namespace Digraph

variable {VertexInfo EdgeInfo W : Type} [DoubleOps W]

/-- The state of `findShortestPaths` after at most `n` iterations of the
`while (!pq.empty())` loop from the state `st` (fewer when the queue is empty
before). -/
def shortestPathsAfter (g : Digraph VertexInfo EdgeInfo) (edgeWeightFunc : EdgeInfo → W) :
    Nat → ShortestPathsState W → Except Thrown (ShortestPathsState W)
  | 0, st => .ok st
  | n + 1, st =>
    if st.pq = [] then .ok st
    else
      match shortestPathsStep g edgeWeightFunc st with
      | .error e => .error e
      | .ok st => shortestPathsAfter g edgeWeightFunc n st

/-- The iterations of the `while (!pq.empty())` loop from the state `st`, at
most `fuel` of them, in order.  An iteration pops one entry and every
`pq.push` adds one, so the number of pushes of an iteration is the growth of
the queue plus one. -/
def shortestPathsEvents (g : Digraph VertexInfo EdgeInfo) (edgeWeightFunc : EdgeInfo → W) :
    Nat → ShortestPathsState W → List PopEvent
  | 0, _ => []
  | fuel + 1, st =>
    if st.pq = [] then []
    else
      match shortestPathsStep g edgeWeightFunc st with
      | .error _ => []
      | .ok st' =>
        { vertex := StdHeap.top st.pq
          skipped := StdMap.get false st.k (StdHeap.top st.pq)
          pushed := st'.pq.length + 1 - st.pq.length } ::
          shortestPathsEvents g edgeWeightFunc fuel st'

/-- In the words of the spec: "for each outgoing edge to an unsettled neighbor,
relax".  The body of the edge loop, run only when the target of the edge is
not settled. -/
def specRelaxEdge (edgeWeightFunc : EdgeInfo → W) (vNum : Int) (st : ShortestPathsState W)
    (edge : DigraphEdge EdgeInfo) : ShortestPathsState W :=
  if StdMap.get false st.k edge.toVertex = true then st
  else relaxEdge edgeWeightFunc vNum st edge

/-- In the words of the spec: one iteration of the specified loop, which
differs from `shortestPathsStep` only in relaxing with `specRelaxEdge`. -/
def specShortestPathsStep (g : Digraph VertexInfo EdgeInfo) (edgeWeightFunc : EdgeInfo → W)
    (st : ShortestPathsState W) : Except Thrown (ShortestPathsState W) :=
  let vNum := StdHeap.top st.pq
  let st := { st with pq := StdHeap.pop (compare st.d) st.pq }
  if StdMap.get false st.k vNum = false then
    let st := { st with k := StdMap.set st.k vNum true }
    match StdMap.find g.adjList vNum with
    | none => .error .out_of_range
    | some v => .ok (v.edges.foldl (specRelaxEdge edgeWeightFunc vNum) st)
  else .ok st

/-- In the words of the spec: the specified loop, bounded like
`shortestPathsLoop`. -/
def specShortestPathsLoop (g : Digraph VertexInfo EdgeInfo) (edgeWeightFunc : EdgeInfo → W) :
    Nat → ShortestPathsState W → Option (Except Thrown (ShortestPathsState W))
  | 0, st => if st.pq = [] then some (.ok st) else none
  | fuel + 1, st =>
    if st.pq = [] then some (.ok st)
    else
      match specShortestPathsStep g edgeWeightFunc st with
      | .error e => some (.error e)
      | .ok st => specShortestPathsLoop g edgeWeightFunc fuel st

/-- In the words of the spec: the predecessor map of the specified loop, run
from the same entry state and with the same bound as `findShortestPaths`. -/
def specFindShortestPaths (g : Digraph VertexInfo EdgeInfo) (startVertex : Int)
    (edgeWeightFunc : EdgeInfo → W) : Option (Except Thrown (List (Int × Int))) :=
  match StdMap.find g.adjList startVertex with
  | none =>
    some (.error (.DigraphException "Digraph findShortestPaths(): the startVertex is not valid."))
  | some _ =>
    match specShortestPathsLoop g edgeWeightFunc (1 + g.edges.length)
        (entryState g startVertex) with
    | none => none
    | some (.error e) => some (.error e)
    | some (.ok st) => some (.ok st.result)

/-- The graph `d` of the test `moveAssignmentOperator` (and of
`moveConstructor`): four vertices and four edges. -/
def moveTestSource : Digraph String Int :=
  applyMutations empty
    [.addVertex 0 "a", .addVertex 1 "b", .addVertex 2 "c", .addEdge 0 1 8, .addEdge 0 2 6,
      .addEdge 1 2 10, .addVertex 3 "d", .addEdge 2 3 3]

/-- The graph `d2` of the test `moveAssignmentOperator` before the assignment:
two vertices and two edges. -/
def moveTestTarget : Digraph String Int :=
  applyMutations empty
    [.addVertex 10 "x", .addVertex 20 "c", .addEdge 10 20 15, .addEdge 20 10 20]

/-- The graph of the test `findShortestPathsInDAG`: vertices 0..6 and ten
weighted edges, inserted in the order of the test. -/
def dagGraph : Digraph String Int :=
  applyMutations empty
    [.addVertex 0 "a", .addVertex 1 "b", .addVertex 2 "c", .addVertex 3 "d", .addVertex 4 "e",
      .addVertex 5 "f", .addVertex 6 "g", .addEdge 0 1 8, .addEdge 0 2 6, .addEdge 1 3 10,
      .addEdge 2 3 15, .addEdge 2 4 9, .addEdge 3 4 14, .addEdge 3 5 4, .addEdge 4 5 13,
      .addEdge 4 6 17, .addEdge 5 6 7]

/-- The `edgeInfo(fromVertex, toVertex)` lookups of the route printing loop of
`main.cpp`: `fromVertex` starts as `trip.startVertex`, the loop takes
`toVertex = order[i]` for `i` from `order.size() - 2` down to `0` (the list
given here, in that order) and ends each round with `fromVertex = toVertex`. -/
def routeLookups (g : Digraph VertexInfo EdgeInfo) :
    Int → List Int → List (Except Thrown EdgeInfo)
  | _, [] => []
  | fromVertex, toVertex :: rest =>
    g.edgeInfo fromVertex toVertex :: routeLookups g toVertex rest

end Digraph

/-! ## Facts about the map model -/

namespace StdMap
variable {α : Type}

theorem find_isSome_iff (m : List (Int × α)) (k : Int) :
    (find m k).isSome = true ↔ k ∈ keys m := by
  induction m with
  | nil => simp [find, keys]
  | cons p t ih =>
    obtain ⟨k', v⟩ := p
    by_cases h : k' = k
    · simp [find, keys, h]
    · have h' : ¬ k = k' := fun e => h e.symm
      simp only [find, h, if_false, ih]
      simp [keys, h']

theorem find_eq_none_iff (m : List (Int × α)) (k : Int) :
    find m k = none ↔ k ∉ keys m := by
  rw [← find_isSome_iff]
  cases find m k <;> simp

theorem mem_of_find_eq_some {m : List (Int × α)} {k : Int} {v : α}
    (h : find m k = some v) : (k, v) ∈ m := by
  induction m with
  | nil => simp [find] at h
  | cons p t ih =>
    obtain ⟨k', v'⟩ := p
    by_cases hk : k' = k
    · simp [find, hk] at h
      simp [hk, h]
    · simp [find, hk] at h
      exact List.mem_cons_of_mem _ (ih h)

theorem find_eq_some_of_mem {m : List (Int × α)} {k : Int} {v : α}
    (hs : (keys m).Pairwise (· < ·)) (h : (k, v) ∈ m) : find m k = some v := by
  induction m with
  | nil => simp at h
  | cons p t ih =>
    obtain ⟨k', v'⟩ := p
    simp only [keys, List.map_cons, List.pairwise_cons] at hs
    rcases List.mem_cons.1 h with h | h
    · injection h with h1 h2
      simp [find, h1, h2]
    · have hlt : k' < k := hs.1 k (List.mem_map.2 ⟨(k, v), h, rfl⟩)
      have hne : ¬ k' = k := ne_of_lt hlt
      simp only [find, hne, if_false]
      exact ih hs.2 h

theorem mem_keys_set (m : List (Int × α)) (k : Int) (v : α) (x : Int) :
    x ∈ keys (set m k v) ↔ x = k ∨ x ∈ keys m := by
  induction m with
  | nil => simp [set, keys]
  | cons p t ih =>
    obtain ⟨k', v'⟩ := p
    simp only [set]
    split_ifs with h1 h2
    · simp [keys]
    · subst h2; simp [keys]
    · simp only [keys, List.map_cons, List.mem_cons] at ih ⊢
      rw [ih]; tauto

theorem pairwise_keys_set {m : List (Int × α)} (k : Int) (v : α)
    (hs : (keys m).Pairwise (· < ·)) : (keys (set m k v)).Pairwise (· < ·) := by
  induction m with
  | nil => simp [set, keys]
  | cons p t ih =>
    obtain ⟨k', v'⟩ := p
    have hs' := hs
    simp only [keys, List.map_cons, List.pairwise_cons] at hs
    simp only [set]
    split_ifs with h1 h2
    · simp only [keys, List.map_cons, List.pairwise_cons]
      refine ⟨?_, hs⟩
      intro a ha
      rcases List.mem_cons.1 ha with ha | ha
      · rw [ha]; exact h1
      · exact lt_trans h1 (hs.1 a ha)
    · subst h2
      simpa [keys] using hs
    · have hlt : k' < k := lt_of_le_of_ne (not_lt.1 h1) (fun e => h2 e.symm)
      have := ih hs.2
      simp only [keys, List.map_cons, List.pairwise_cons]
      refine ⟨?_, this⟩
      intro a ha
      rcases (mem_keys_set t k v a).1 ha with ha | ha
      · rw [ha]; exact hlt
      · exact hs.1 a ha

theorem length_set_of_not_mem {m : List (Int × α)} {k : Int} (v : α)
    (h : k ∉ keys m) : (set m k v).length = m.length + 1 := by
  induction m with
  | nil => simp [set]
  | cons p t ih =>
    obtain ⟨k', v'⟩ := p
    simp only [keys, List.map_cons, List.mem_cons, not_or] at h
    simp only [set]
    split_ifs with h1 h2
    · simp
    · exact absurd h2 h.1
    · simp [ih h.2]

theorem mem_set_iff {m : List (Int × α)} {k : Int} (v : α) (h : k ∉ keys m) (p : Int × α) :
    p ∈ set m k v ↔ p = (k, v) ∨ p ∈ m := by
  induction m with
  | nil => simp [set]
  | cons q t ih =>
    obtain ⟨k', v'⟩ := q
    simp only [keys, List.map_cons, List.mem_cons, not_or] at h
    simp only [set]
    split_ifs with h1 h2
    · simp
    · exact absurd h2 h.1
    · simp only [List.mem_cons, ih h.2]; tauto

theorem find_set (m : List (Int × α)) (k : Int) (v : α) (x : Int) :
    find (set m k v) x = if x = k then some v else find m x := by
  induction m with
  | nil => by_cases h : k = x <;> simp [set, find, h, eq_comm]
  | cons q t ih =>
    obtain ⟨k', v'⟩ := q
    simp only [set]
    split_ifs with h1 h2 h3 h4 h5 <;> simp_all [find, eq_comm]

theorem keys_modify (m : List (Int × α)) (k : Int) (f : α → α) :
    keys (modify m k f) = keys m := by
  induction m with
  | nil => rfl
  | cons q t ih =>
    obtain ⟨k', v'⟩ := q
    simp only [modify]
    split_ifs with h
    · simp [keys]
    · simp only [keys, List.map_cons] at ih ⊢
      rw [ih]

theorem find_modify (m : List (Int × α)) (k : Int) (f : α → α) (x : Int) :
    find (modify m k f) x = if x = k then (find m k).map f else find m x := by
  induction m with
  | nil => simp [modify, find]
  | cons q t ih =>
    obtain ⟨k', v'⟩ := q
    simp only [modify]
    split_ifs with h1 h2 <;> simp_all [find, eq_comm]

theorem mem_modify {m : List (Int × α)} {k : Int} {f : α → α} {p : Int × α}
    (h : p ∈ modify m k f) : p ∈ m ∨ ∃ v, (k, v) ∈ m ∧ p = (k, f v) := by
  induction m with
  | nil => simp [modify] at h
  | cons q t ih =>
    obtain ⟨k', v'⟩ := q
    simp only [modify] at h
    split_ifs at h with h1
    · rcases List.mem_cons.1 h with h | h
      · right; exact ⟨v', by simp [h1], by rw [h, h1]⟩
      · left; exact List.mem_cons_of_mem _ h
    · rcases List.mem_cons.1 h with h | h
      · left; rw [h]; exact List.mem_cons_self _ _
      · rcases ih h with h | ⟨v, hv, hp⟩
        · left; exact List.mem_cons_of_mem _ h
        · right; exact ⟨v, List.mem_cons_of_mem _ hv, hp⟩

theorem length_modify (m : List (Int × α)) (k : Int) (f : α → α) :
    (modify m k f).length = m.length := by
  have := congrArg List.length (keys_modify m k f)
  simpa [keys] using this

theorem keys_erase_sublist (m : List (Int × α)) (k : Int) :
    (keys (erase m k)).Sublist (keys m) := by
  induction m with
  | nil => simp [erase]
  | cons q t ih =>
    obtain ⟨k', v'⟩ := q
    simp only [erase]
    split_ifs with h
    · simp [keys]
    · simpa [keys] using ih

theorem erase_sublist (m : List (Int × α)) (k : Int) : (erase m k).Sublist m := by
  induction m with
  | nil => simp [erase]
  | cons q t ih =>
    obtain ⟨k', v'⟩ := q
    simp only [erase]
    split_ifs with h
    · simp
    · simpa using ih

theorem not_mem_keys_erase {m : List (Int × α)} (k : Int)
    (hs : (keys m).Pairwise (· < ·)) : k ∉ keys (erase m k) := by
  induction m with
  | nil => simp [erase, keys]
  | cons q t ih =>
    obtain ⟨k', v'⟩ := q
    simp only [keys, List.map_cons, List.pairwise_cons] at hs
    simp only [erase]
    split_ifs with h
    · subst h
      intro hk
      exact lt_irrefl _ (hs.1 _ hk)
    · simp only [keys, List.map_cons, List.mem_cons, not_or]
      exact ⟨fun e => h e.symm, ih hs.2⟩

theorem mem_erase_iff {m : List (Int × α)} (k : Int)
    (hs : (keys m).Pairwise (· < ·)) (p : Int × α) :
    p ∈ erase m k ↔ p ∈ m ∧ p.1 ≠ k := by
  induction m with
  | nil => simp [erase]
  | cons q t ih =>
    obtain ⟨k', v'⟩ := q
    simp only [keys, List.map_cons, List.pairwise_cons] at hs
    simp only [erase]
    split_ifs with h
    · subst h
      constructor
      · intro hp
        refine ⟨List.mem_cons_of_mem _ hp, ?_⟩
        exact ne_of_gt (hs.1 _ (List.mem_map.2 ⟨p, hp, rfl⟩))
      · rintro ⟨hp, hne⟩
        rcases List.mem_cons.1 hp with hp | hp
        · exact absurd (by rw [hp]) hne
        · exact hp
    · simp only [List.mem_cons, ih hs.2]
      constructor
      · rintro (hp | hp)
        · exact ⟨Or.inl hp, by rw [hp]; exact h⟩
        · exact ⟨Or.inr hp.1, hp.2⟩
      · rintro ⟨hp | hp, hne⟩
        · exact Or.inl hp
        · exact Or.inr ⟨hp, hne⟩

theorem length_erase_of_mem {m : List (Int × α)} {k : Int}
    (h : k ∈ keys m) : ((erase m k).length : Int) = m.length - 1 := by
  induction m with
  | nil => simp [keys] at h
  | cons q t ih =>
    obtain ⟨k', v'⟩ := q
    simp only [erase]
    split_ifs with h1
    · simp
    · simp only [keys, List.map_cons, List.mem_cons] at h
      rcases h with h | h
      · exact absurd h.symm h1
      · simp only [List.length_cons, Nat.cast_add, Nat.cast_one, ih h]; ring

theorem sum_set {m : List (Int × α)} {k : Int} (v : α) (f : Int × α → Nat)
    (h : k ∉ keys m) : ((set m k v).map f).sum = f (k, v) + (m.map f).sum := by
  induction m with
  | nil => simp [set]
  | cons q t ih =>
    obtain ⟨k', v'⟩ := q
    simp only [keys, List.map_cons, List.mem_cons, not_or] at h
    simp only [set]
    split_ifs with h1 h2
    · simp
    · exact absurd h2 h.1
    · simp only [List.map_cons, List.sum_cons, ih h.2]; omega

theorem sum_modify {m : List (Int × α)} {k : Int} {v : α} (g : α → α) (f : Int × α → Nat)
    (h : find m k = some v) :
    ((modify m k g).map f).sum + f (k, v) = (m.map f).sum + f (k, g v) := by
  induction m with
  | nil => simp [find] at h
  | cons q t ih =>
    obtain ⟨k', v'⟩ := q
    simp only [find] at h
    simp only [modify]
    split_ifs at h ⊢ with h1
    · simp only [Option.some.injEq] at h
      subst h; subst h1
      simp only [List.map_cons, List.sum_cons]; omega
    · simp only [List.map_cons, List.sum_cons]
      have := ih h
      omega

theorem modify_eq_self {m : List (Int × α)} {k : Int} {v : α} (g : α → α)
    (h : find m k = some v) (hg : g v = v) : modify m k g = m := by
  induction m with
  | nil => rfl
  | cons q t ih =>
    obtain ⟨k', v'⟩ := q
    simp only [find] at h
    simp only [modify]
    split_ifs at h ⊢ with h1
    · simp only [Option.some.injEq] at h
      subst h
      rw [hg]
    · rw [ih h]

theorem sum_erase {m : List (Int × α)} {k : Int} {v : α} (f : Int × α → Nat)
    (h : find m k = some v) : ((erase m k).map f).sum + f (k, v) = (m.map f).sum := by
  induction m with
  | nil => simp [find] at h
  | cons q t ih =>
    obtain ⟨k', v'⟩ := q
    simp only [find] at h
    simp only [erase]
    split_ifs at h ⊢ with h1
    · simp only [Option.some.injEq] at h
      subst h; subst h1
      simp only [List.map_cons, List.sum_cons]; omega
    · simp only [List.map_cons, List.sum_cons]
      have := ih h
      omega

theorem erase_of_not_mem {m : List (Int × α)} {k : Int} (h : k ∉ keys m) : erase m k = m := by
  induction m with
  | nil => rfl
  | cons q t ih =>
    obtain ⟨k', v'⟩ := q
    simp only [keys, List.map_cons, List.mem_cons, not_or] at h
    simp only [erase]
    rw [if_neg (fun e => h.1 e.symm), ih h.2]

theorem keys_erase_eq_filter {m : List (Int × α)} (k : Int)
    (hs : (keys m).Pairwise (fun a b => a < b)) :
    keys (erase m k) = (keys m).filter (fun x => !decide (x = k)) := by
  induction m with
  | nil => rfl
  | cons q t ih =>
    obtain ⟨k', v'⟩ := q
    simp only [keys, List.map_cons, List.pairwise_cons] at hs
    simp only [erase]
    split_ifs with h
    · subst h
      have hnot : k' ∉ keys t := fun hk => lt_irrefl _ (hs.1 _ hk)
      simp only [keys, List.map_cons, List.filter_cons, decide_True, Bool.not_true]
      symm
      apply List.filter_eq_self.2
      intro x hx
      have : x ≠ k' := fun e => hnot (e ▸ hx)
      simp [this]
    · simp only [keys, List.map_cons, List.filter_cons, h, decide_False, Bool.not_false, if_true]
      have := ih hs.2
      simp only [keys] at this
      rw [this]

theorem find_erase_of_ne (m : List (Int × α)) {k x : Int} (h : x ≠ k) :
    find (erase m k) x = find m x := by
  induction m with
  | nil => rfl
  | cons q t ih =>
    obtain ⟨k', v'⟩ := q
    simp only [erase]
    split_ifs with h1
    · subst h1
      rw [find, if_neg (fun e : k' = x => h e.symm)]
    · simp only [find, ih]

theorem find_map_snd (m : List (Int × α)) (f : α → α) (x : Int) :
    find (m.map (fun p => (p.1, f p.2))) x = (find m x).map f := by
  induction m with
  | nil => rfl
  | cons q t ih =>
    obtain ⟨k', v'⟩ := q
    simp only [List.map_cons, find]
    split_ifs <;> simp [ih]

theorem get_set (dflt : α) (m : List (Int × α)) (k : Int) (v : α) (x : Int) :
    get dflt (set m k v) x = if x = k then v else get dflt m x := by
  unfold get
  rw [find_set]
  split_ifs <;> rfl

theorem mem_set_imp {m : List (Int × α)} {k : Int} {v : α} {p : Int × α}
    (h : p ∈ set m k v) : p = (k, v) ∨ p ∈ m := by
  induction m with
  | nil => simpa [set] using h
  | cons q t ih =>
    obtain ⟨k', v'⟩ := q
    simp only [set] at h
    split_ifs at h with h1 h2
    · simpa using h
    · rcases List.mem_cons.1 h with h | h
      · exact Or.inl h
      · exact Or.inr (List.mem_cons_of_mem _ h)
    · rcases List.mem_cons.1 h with h | h
      · exact Or.inr (h ▸ List.mem_cons_self _ _)
      · rcases ih h with h | h
        · exact Or.inl h
        · exact Or.inr (List.mem_cons_of_mem _ h)

theorem keys_set_of_mem {m : List (Int × α)} {k : Int} (v : α)
    (hs : (keys m).Pairwise (fun a b => a < b)) (h : k ∈ keys m) :
    keys (set m k v) = keys m := by
  induction m with
  | nil => simp [keys] at h
  | cons q t ih =>
    obtain ⟨k', v'⟩ := q
    simp only [keys, List.map_cons, List.pairwise_cons] at hs
    simp only [keys, List.map_cons, List.mem_cons] at h
    simp only [set]
    split_ifs with h1 h2
    · exfalso
      rcases h with h | h
      · omega
      · have := hs.1 k h; omega
    · subst h2; rfl
    · rcases h with h | h
      · exact absurd h h2
      · simp only [keys, List.map_cons] at ih ⊢
        rw [ih hs.2 h]

theorem set_eq_append {m : List (Int × α)} {k : Int} (v : α)
    (h : ∀ x ∈ keys m, x < k) : set m k v = m ++ [(k, v)] := by
  induction m with
  | nil => rfl
  | cons q t ih =>
    obtain ⟨k', v'⟩ := q
    simp only [keys, List.map_cons, List.mem_cons, forall_eq_or_imp] at h
    simp only [set]
    rw [if_neg (by omega), if_neg (by omega), ih h.2]
    rfl

theorem find_map_of_mem {β : Type} (m : List (Int × β)) (f : Int × β → α) {k : Int}
    (h : k ∈ keys m) (hs : (keys m).Pairwise (fun a b => a < b)) :
    ∃ b, (k, b) ∈ m ∧ find (m.map (fun p => (p.1, f p))) k = some (f (k, b)) := by
  induction m with
  | nil => simp [keys] at h
  | cons q t ih =>
    obtain ⟨k', v'⟩ := q
    simp only [keys, List.map_cons, List.pairwise_cons] at hs
    simp only [keys, List.map_cons, List.mem_cons] at h
    by_cases hk : k' = k
    · subst hk
      exact ⟨v', List.mem_cons_self _ _, by simp [find]⟩
    · rcases h with h | h
      · exact absurd h.symm hk
      · obtain ⟨b, hb, hf⟩ := ih h hs.2
        exact ⟨b, List.mem_cons_of_mem _ hb, by simp [find, hk, hf]⟩

theorem find_map_of_not_mem {β : Type} (m : List (Int × β)) (f : Int × β → α) {k : Int}
    (h : k ∉ keys m) : find (m.map (fun p => (p.1, f p))) k = none := by
  rw [find_eq_none_iff]
  simpa [keys, List.map_map, Function.comp_def] using h

theorem find_split {m : List (Int × α)} {k : Int} {v : α} (h : find m k = some v) :
    ∃ pre post, m = pre ++ (k, v) :: post ∧ k ∉ keys pre := by
  induction m with
  | nil => simp [find] at h
  | cons q t ih =>
    obtain ⟨k', v'⟩ := q
    simp only [find] at h
    split_ifs at h with h1
    · simp only [Option.some.injEq] at h
      subst h; subst h1
      exact ⟨[], t, rfl, by simp [keys]⟩
    · obtain ⟨pre, post, h2, h3⟩ := ih h
      refine ⟨(k', v') :: pre, post, by rw [h2]; rfl, ?_⟩
      simp only [keys, List.map_cons, List.mem_cons, not_or]
      exact ⟨fun e => h1 e.symm, h3⟩

theorem modify_split (pre post : List (Int × α)) {k : Int} (v : α) (f : α → α)
    (h : k ∉ keys pre) :
    modify (pre ++ (k, v) :: post) k f = pre ++ (k, f v) :: post := by
  induction pre with
  | nil => simp [modify]
  | cons q t ih =>
    obtain ⟨k', v'⟩ := q
    simp only [keys, List.map_cons, List.mem_cons, not_or] at h
    show modify ((k', v') :: (t ++ (k, v) :: post)) k f = (k', v') :: (t ++ (k, f v) :: post)
    simp only [modify]
    rw [if_neg (fun e => h.1 e.symm), ih h.2]

theorem mem_modify_iff {m : List (Int × α)} {k : Int} {v : α} (f : α → α)
    (hs : (keys m).Pairwise (fun a b => a < b)) (h : find m k = some v) (p : Int × α) :
    p ∈ modify m k f ↔ (p ∈ m ∧ p.1 ≠ k) ∨ p = (k, f v) := by
  obtain ⟨pre, post, hsplit, hpre⟩ := find_split h
  rw [hsplit] at hs
  simp only [keys, List.map_append, List.map_cons, List.pairwise_append,
    List.pairwise_cons] at hs
  have hpost : ∀ q ∈ post, q.1 ≠ k :=
    fun q hq => ne_of_gt (hs.2.1.1 q.1 (List.mem_map.2 ⟨q, hq, rfl⟩))
  have hpre' : ∀ q ∈ pre, q.1 ≠ k :=
    fun q hq e => hpre (List.mem_map.2 ⟨q, hq, e⟩)
  rw [hsplit, modify_split pre post v f hpre]
  simp only [List.mem_append, List.mem_cons]
  constructor
  · rintro (hp | hp | hp)
    · exact Or.inl ⟨Or.inl hp, hpre' p hp⟩
    · exact Or.inr hp
    · exact Or.inl ⟨Or.inr (Or.inr hp), hpost p hp⟩
  · rintro (⟨hp | hp | hp, hne⟩ | hp)
    · exact Or.inl hp
    · exact absurd (by rw [hp]) hne
    · exact Or.inr (Or.inr hp)
    · exact Or.inr (Or.inl hp)

theorem erase_set_of_not_mem {m : List (Int × α)} {k : Int} (v : α) (h : k ∉ keys m) :
    erase (set m k v) k = m := by
  induction m with
  | nil => simp [set, erase]
  | cons q t ih =>
    obtain ⟨k', v'⟩ := q
    simp only [keys, List.map_cons, List.mem_cons, not_or] at h
    have hne : ¬ k = k' := h.1
    have hne' : ¬ k' = k := fun e => h.1 e.symm
    unfold set
    by_cases h1 : k < k'
    · rw [if_pos h1]
      simp [erase]
    · rw [if_neg h1, if_neg hne]
      unfold erase
      rw [if_neg hne', ih h.2]

theorem modify_modify (m : List (Int × α)) (k : Int) (f g : α → α) :
    modify (modify m k f) k g = modify m k (fun x => g (f x)) := by
  induction m with
  | nil => rfl
  | cons q t ih =>
    obtain ⟨k', v'⟩ := q
    by_cases h : k' = k
    · simp only [modify, if_pos h]
    · simp only [modify, if_neg h, ih]

end StdMap

/-! ## The representation invariant -/

namespace Digraph
variable {VertexInfo EdgeInfo : Type}

theorem vertices_eq_keys (g : Digraph VertexInfo EdgeInfo) :
    g.vertices = StdMap.keys g.adjList := rfl

theorem eraseFirstTo_eq_none {es : List (DigraphEdge EdgeInfo)} {vertex : Int}
    (h : eraseFirstTo es vertex = none) : ∀ e ∈ es, e.toVertex ≠ vertex := by
  induction es with
  | nil => simp
  | cons e t ih =>
    simp only [eraseFirstTo] at h
    split_ifs at h with h1
    simp only [Option.map_eq_none'] at h
    intro x hx
    rcases List.mem_cons.1 hx with hx | hx
    · rw [hx]; exact h1
    · exact ih h x hx

theorem eraseFirstTo_eq_some {es es' : List (DigraphEdge EdgeInfo)} {vertex : Int}
    (hn : (es.map (fun e => e.toVertex)).Nodup) (h : eraseFirstTo es vertex = some es') :
    es' = es.filter (fun e => !decide (e.toVertex = vertex)) ∧ es'.length + 1 = es.length := by
  induction es generalizing es' with
  | nil => simp [eraseFirstTo] at h
  | cons e t ih =>
    simp only [List.map_cons, List.nodup_cons] at hn
    simp only [eraseFirstTo] at h
    split_ifs at h with h1
    · simp only [Option.some.injEq] at h
      subst h
      have hall : ∀ x ∈ t, x.toVertex ≠ vertex := by
        intro x hx hxe
        apply hn.1
        rw [h1, ← hxe]
        exact List.mem_map.2 ⟨x, hx, rfl⟩
      have hf : t.filter (fun e => !decide (e.toVertex = vertex)) = t := by
        apply List.filter_eq_self.2
        intro x hx
        simp [hall x hx]
      simp [List.filter_cons, h1, hf]
    · cases h2 : eraseFirstTo t vertex with
      | none => simp [h2] at h
      | some t' =>
        simp only [h2, Option.map_some', Option.some.injEq] at h
        subst h
        obtain ⟨h3, h4⟩ := ih hn.2 h2
        simp [List.filter_cons, h1, ← h3, h4]

theorem filter_eq_self_of_eraseFirstTo_none {es : List (DigraphEdge EdgeInfo)} {vertex : Int}
    (h : eraseFirstTo es vertex = none) :
    es.filter (fun e => !decide (e.toVertex = vertex)) = es := by
  apply List.filter_eq_self.2
  intro x hx
  simp [eraseFirstTo_eq_none h x hx]

/-- Under the no-duplicate-target invariant, the cascade loop of `removeVertex`
filters every edge list and lowers the counter by the number of erased edges. -/
theorem removeIncoming_eq (m : List (Int × DigraphVertex VertexInfo EdgeInfo)) (vertex : Int)
    (count : Int) (hn : ∀ p ∈ m, (p.2.edges.map (fun e => e.toVertex)).Nodup) :
    (removeIncoming m vertex count).1 =
        m.map (fun p => (p.1, { p.2 with
          edges := p.2.edges.filter (fun e => !decide (e.toVertex = vertex)) })) ∧
      (removeIncoming m vertex count).2 +
          (((m.map (fun p => p.2.edges.length)).sum : Nat) : Int) =
        count + (((m.map (fun p => (p.2.edges.filter
          (fun e => !decide (e.toVertex = vertex))).length)).sum : Nat) : Int) := by
  induction m generalizing count with
  | nil => simp [removeIncoming]
  | cons q t ih =>
    obtain ⟨num, dVertex⟩ := q
    have hq := hn (num, dVertex) (List.mem_cons_self _ _)
    have ht : ∀ p ∈ t, (p.2.edges.map (fun e => e.toVertex)).Nodup :=
      fun p hp => hn p (List.mem_cons_of_mem _ hp)
    simp only [removeIncoming]
    cases h : eraseFirstTo dVertex.edges vertex with
    | some es =>
      obtain ⟨h1, h2⟩ := eraseFirstTo_eq_some hq h
      obtain ⟨i1, i2⟩ := ih (count - 1) ht
      simp only [List.map_cons, List.sum_cons, i1, ← h1]
      refine ⟨trivial, ?_⟩
      push_cast
      have h2' : (es.length : Int) + 1 = dVertex.edges.length := by exact_mod_cast h2
      push_cast at i2
      linarith
    | none =>
      have h1 := filter_eq_self_of_eraseFirstTo_none h
      obtain ⟨i1, i2⟩ := ih count ht
      simp only [List.map_cons, List.sum_cons, i1, h1]
      refine ⟨trivial, ?_⟩
      push_cast
      push_cast at i2
      linarith

theorem wellFormed_empty : WellFormed (empty : Digraph VertexInfo EdgeInfo) where
  keys_sorted := by simp [empty, StdMap.keys]
  from_eq := by simp [empty]
  to_mem := by simp [empty]
  to_nodup := by simp [empty]
  vertexCount_eq := by simp [empty]
  edgeCount_eq := by simp [empty]

theorem wellFormed_addVertex {g : Digraph VertexInfo EdgeInfo} (hg : WellFormed g)
    (vertex : Int) (vinfo : VertexInfo) : WellFormed (g.addVertex vertex vinfo).2 := by
  unfold addVertex
  cases h : StdMap.find g.adjList vertex with
  | some v => exact hg
  | none =>
    have hk : vertex ∉ StdMap.keys g.adjList := (StdMap.find_eq_none_iff _ _).1 h
    refine ⟨StdMap.pairwise_keys_set _ _ hg.keys_sorted, ?_, ?_, ?_, ?_, ?_⟩
    · intro p hp e he
      rcases (StdMap.mem_set_iff _ hk p).1 hp with hp | hp
      · subst hp; simp at he
      · exact hg.from_eq p hp e he
    · intro p hp e he
      rcases (StdMap.mem_set_iff _ hk p).1 hp with hp | hp
      · subst hp; simp at he
      · exact (StdMap.mem_keys_set _ _ _ _).2 (Or.inr (hg.to_mem p hp e he))
    · intro p hp
      rcases (StdMap.mem_set_iff _ hk p).1 hp with hp | hp
      · subst hp; simp
      · exact hg.to_nodup p hp
    · simp only [StdMap.length_set_of_not_mem _ hk, hg.vertexCount_eq]; push_cast; ring
    · simp only [hg.edgeCount_eq]
      rw [StdMap.sum_set _ (fun p => p.2.edges.length) hk]
      simp

theorem not_mem_of_hasEdge_false {es : List (DigraphEdge EdgeInfo)} {fromVertex toVertex : Int}
    (hf : ∀ e ∈ es, e.fromVertex = fromVertex) (h : hasEdge es fromVertex toVertex = false) :
    toVertex ∉ es.map (fun e => e.toVertex) := by
  intro hm
  obtain ⟨e, he, het⟩ := List.mem_map.1 hm
  have : hasEdge es fromVertex toVertex = true := by
    unfold hasEdge
    rw [List.any_eq_true]
    exact ⟨e, he, by simp [hf e he, het]⟩
  rw [h] at this
  exact Bool.noConfusion this

theorem wellFormed_addEdge {g : Digraph VertexInfo EdgeInfo} (hg : WellFormed g)
    (fromVertex toVertex : Int) (einfo : EdgeInfo) :
    WellFormed (g.addEdge fromVertex toVertex einfo).2 := by
  unfold addEdge
  cases h1 : StdMap.find g.adjList fromVertex with
  | none => exact hg
  | some v =>
    cases h2 : StdMap.find g.adjList toVertex with
    | none => exact hg
    | some v2 =>
      simp only
      split_ifs with h3
      · exact hg
      · have hv := StdMap.mem_of_find_eq_some h1
        have h3' : hasEdge v.edges fromVertex toVertex = false := by simpa using h3
        have hto : toVertex ∈ StdMap.keys g.adjList :=
          (StdMap.find_isSome_iff _ _).1 (by rw [h2]; rfl)
        refine ⟨?_, ?_, ?_, ?_, ?_, ?_⟩
        · simpa only [StdMap.keys_modify] using hg.keys_sorted
        · intro p hp e he
          rcases StdMap.mem_modify hp with hp | ⟨w, hw, hp⟩
          · exact hg.from_eq p hp e he
          · subst hp
            rcases List.mem_append.1 he with he | he
            · exact hg.from_eq _ hw e he
            · simp only [List.mem_singleton] at he
              rw [he]
        · intro p hp e he
          simp only [StdMap.keys_modify]
          rcases StdMap.mem_modify hp with hp | ⟨w, hw, hp⟩
          · exact hg.to_mem p hp e he
          · subst hp
            rcases List.mem_append.1 he with he | he
            · exact hg.to_mem _ hw e he
            · simp only [List.mem_singleton] at he
              rw [he]; exact hto
        · intro p hp
          rcases StdMap.mem_modify hp with hp | ⟨w, hw, hp⟩
          · exact hg.to_nodup p hp
          · subst hp
            have hwv : w = v := by
              have := StdMap.find_eq_some_of_mem hg.keys_sorted hw
              rw [h1] at this
              exact (Option.some.inj this).symm
            subst hwv
            simp only [List.map_append, List.map_cons, List.map_nil]
            rw [List.nodup_append]
            refine ⟨hg.to_nodup _ hw, by simp, ?_⟩
            have hnm := not_mem_of_hasEdge_false (hg.from_eq _ hv) h3'
            intro a ha hb
            simp only [List.mem_singleton] at hb
            rw [hb] at ha
            exact hnm ha
        · simp only [StdMap.length_modify]; exact hg.vertexCount_eq
        · simp only [hg.edgeCount_eq]
          have := StdMap.sum_modify
            (fun dv : DigraphVertex VertexInfo EdgeInfo =>
              { dv with edges := dv.edges ++ [⟨fromVertex, toVertex, einfo⟩] })
            (fun p => p.2.edges.length) h1
          simp only [List.length_append, List.length_singleton] at this
          omega

theorem length_filter_of_nodup {es : List (DigraphEdge EdgeInfo)} {toVertex : Int}
    (hn : (es.map (fun e => e.toVertex)).Nodup)
    (hlt : (es.filter (fun e => !decide (e.toVertex = toVertex))).length < es.length) :
    (es.filter (fun e => !decide (e.toVertex = toVertex))).length + 1 = es.length := by
  induction es with
  | nil => simp at hlt
  | cons e t ih =>
    simp only [List.map_cons, List.nodup_cons] at hn
    by_cases h1 : e.toVertex = toVertex
    · have hall : ∀ x ∈ t, x.toVertex ≠ toVertex := by
        intro x hx hxe
        apply hn.1
        rw [h1, ← hxe]
        exact List.mem_map.2 ⟨x, hx, rfl⟩
      have hf : t.filter (fun e => !decide (e.toVertex = toVertex)) = t := by
        apply List.filter_eq_self.2
        intro x hx
        simp [hall x hx]
      simp [List.filter_cons, h1, hf]
    · simp only [List.filter_cons, h1, decide_False, Bool.not_false, if_true,
        List.length_cons, add_lt_add_iff_right] at hlt ⊢
      rw [ih hn.2 hlt]

theorem wellFormed_removeEdge {g : Digraph VertexInfo EdgeInfo} (hg : WellFormed g)
    (fromVertex toVertex : Int) : WellFormed (g.removeEdge fromVertex toVertex).2 := by
  unfold removeEdge
  cases h1 : StdMap.find g.adjList fromVertex with
  | none => exact hg
  | some v =>
    cases h2 : StdMap.find g.adjList toVertex with
    | none => exact hg
    | some v2 =>
      have hv := StdMap.mem_of_find_eq_some h1
      have hsum := StdMap.sum_modify
        (fun dv : DigraphVertex VertexInfo EdgeInfo =>
          { dv with edges := v.edges.filter (fun e => !decide (e.toVertex = toVertex)) })
        (fun p => p.2.edges.length) h1
      have hcommon : ∀ ec : Int,
          ec = (((StdMap.modify g.adjList fromVertex
            (fun dv : DigraphVertex VertexInfo EdgeInfo =>
              { dv with edges := v.edges.filter (fun e => !decide (e.toVertex = toVertex)) })).map
              (fun p => p.2.edges.length)).sum : Nat) →
          WellFormed (⟨g.vertexCount_, ec, StdMap.modify g.adjList fromVertex
              (fun dv : DigraphVertex VertexInfo EdgeInfo =>
                { dv with edges := v.edges.filter (fun e => !decide (e.toVertex = toVertex)) })⟩ :
            Digraph VertexInfo EdgeInfo) := by
        intro ec hec
        refine ⟨?_, ?_, ?_, ?_, ?_, hec⟩
        · simpa only [StdMap.keys_modify] using hg.keys_sorted
        · intro p hp e he
          rcases StdMap.mem_modify hp with hp | ⟨w, hw, hp⟩
          · exact hg.from_eq p hp e he
          · subst hp
            exact hg.from_eq _ hv e (List.mem_of_mem_filter he)
        · intro p hp e he
          simp only [StdMap.keys_modify]
          rcases StdMap.mem_modify hp with hp | ⟨w, hw, hp⟩
          · exact hg.to_mem p hp e he
          · subst hp
            exact hg.to_mem _ hv e (List.mem_of_mem_filter he)
        · intro p hp
          rcases StdMap.mem_modify hp with hp | ⟨w, hw, hp⟩
          · exact hg.to_nodup p hp
          · subst hp
            exact (hg.to_nodup _ hv).sublist (List.Sublist.map _ (List.filter_sublist _))
        · simp only [StdMap.length_modify]; exact hg.vertexCount_eq
      simp only
      split_ifs with h3
      · apply hcommon
        have h4 := length_filter_of_nodup (hg.to_nodup _ hv) h3
        simp only [hg.edgeCount_eq]
        simp only at hsum h4
        omega
      · apply hcommon
        have h4 : (v.edges.filter (fun e => !decide (e.toVertex = toVertex))).length
            = v.edges.length :=
          le_antisymm (List.length_filter_le _ _) (not_lt.1 h3)
        simp only [hg.edgeCount_eq]
        simp only at hsum
        omega

theorem keys_map_edges (m : List (Int × DigraphVertex VertexInfo EdgeInfo))
    (f : List (DigraphEdge EdgeInfo) → List (DigraphEdge EdgeInfo)) :
    StdMap.keys (m.map (fun p => (p.1, { p.2 with edges := f p.2.edges }))) = StdMap.keys m := by
  simp [StdMap.keys, List.map_map, Function.comp_def]

theorem wellFormed_removeVertex {g : Digraph VertexInfo EdgeInfo} (hg : WellFormed g)
    (vertex : Int) : WellFormed (g.removeVertex vertex).2 := by
  unfold removeVertex
  cases h1 : StdMap.find g.adjList vertex with
  | none => exact hg
  | some v =>
    have hsub := StdMap.erase_sublist g.adjList vertex
    have hn : ∀ p ∈ StdMap.erase g.adjList vertex,
        (p.2.edges.map (fun e => e.toVertex)).Nodup :=
      fun p hp => hg.to_nodup p (hsub.subset hp)
    obtain ⟨e1, e2⟩ := removeIncoming_eq (StdMap.erase g.adjList vertex) vertex
      (g.edgeCount_ - (v.edges.length : Int)) hn
    have hsum := StdMap.sum_erase (fun p => p.2.edges.length) h1
    have hkeys : StdMap.keys (removeIncoming (StdMap.erase g.adjList vertex) vertex
        (g.edgeCount_ - (v.edges.length : Int))).1 = StdMap.keys (StdMap.erase g.adjList vertex) := by
      rw [e1]
      exact keys_map_edges _ (fun es => es.filter (fun e => !decide (e.toVertex = vertex)))
    have hmem : ∀ p ∈ (removeIncoming (StdMap.erase g.adjList vertex) vertex
        (g.edgeCount_ - (v.edges.length : Int))).1,
        ∃ q ∈ g.adjList, q.1 ≠ vertex ∧ p.1 = q.1 ∧
          p.2.edges = q.2.edges.filter (fun e => !decide (e.toVertex = vertex)) := by
      intro p hp
      rw [e1] at hp
      obtain ⟨q, hq, rfl⟩ := List.mem_map.1 hp
      have := (StdMap.mem_erase_iff vertex hg.keys_sorted q).1 hq
      exact ⟨q, this.1, this.2, rfl, rfl⟩
    simp only
    refine ⟨?_, ?_, ?_, ?_, ?_, ?_⟩
    · rw [hkeys]
      exact hg.keys_sorted.sublist (StdMap.keys_erase_sublist _ _)
    · intro p hp e he
      obtain ⟨q, hq, -, hp1, hp2⟩ := hmem p hp
      rw [hp2] at he
      rw [hp1]
      exact hg.from_eq q hq e (List.mem_of_mem_filter he)
    · intro p hp e he
      obtain ⟨q, hq, -, hp1, hp2⟩ := hmem p hp
      rw [hp2] at he
      have hne : e.toVertex ≠ vertex := by
        have := (List.mem_filter.1 he).2
        simpa using this
      have hk := hg.to_mem q hq e (List.mem_of_mem_filter he)
      rw [hkeys]
      obtain ⟨r, hr, hre⟩ := List.mem_map.1 hk
      have : r ∈ StdMap.erase g.adjList vertex :=
        (StdMap.mem_erase_iff vertex hg.keys_sorted r).2 ⟨hr, by rw [hre]; exact hne⟩
      exact List.mem_map.2 ⟨r, this, hre⟩
    · intro p hp
      obtain ⟨q, hq, -, hp1, hp2⟩ := hmem p hp
      rw [hp2]
      exact (hg.to_nodup q hq).sublist (List.Sublist.map _ (List.filter_sublist _))
    · have hl := congrArg List.length hkeys
      simp only [StdMap.keys, List.length_map] at hl
      rw [hl, StdMap.length_erase_of_mem ((StdMap.find_isSome_iff _ _).1 (by rw [h1]; rfl)),
        hg.vertexCount_eq]
    · have e3 : ((removeIncoming (StdMap.erase g.adjList vertex) vertex
          (g.edgeCount_ - (v.edges.length : Int))).1.map (fun p => p.2.edges.length)).sum =
          ((StdMap.erase g.adjList vertex).map (fun p => (p.2.edges.filter
            (fun e => !decide (e.toVertex = vertex))).length)).sum := by
        rw [e1, List.map_map]; rfl
      rw [e3]
      show (removeIncoming (StdMap.erase g.adjList vertex) vertex
          (g.edgeCount_ - (v.edges.length : Int))).2 = _
      have := hg.edgeCount_eq
      simp only at hsum
      omega

theorem wellFormed_applyMutation {g : Digraph VertexInfo EdgeInfo} (hg : WellFormed g)
    (m : Mutation VertexInfo EdgeInfo) : WellFormed (g.applyMutation m) := by
  cases m with
  | addVertex vertex vinfo => exact wellFormed_addVertex hg vertex vinfo
  | addEdge fromVertex toVertex einfo => exact wellFormed_addEdge hg fromVertex toVertex einfo
  | removeVertex vertex => exact wellFormed_removeVertex hg vertex
  | removeEdge fromVertex toVertex => exact wellFormed_removeEdge hg fromVertex toVertex

theorem wellFormed_applyMutations {g : Digraph VertexInfo EdgeInfo} (hg : WellFormed g)
    (ms : List (Mutation VertexInfo EdgeInfo)) : WellFormed (g.applyMutations ms) := by
  induction ms generalizing g with
  | nil => exact hg
  | cons m t ih => exact ih (wellFormed_applyMutation hg m)

theorem Built.wellFormed {g : Digraph VertexInfo EdgeInfo} (h : Built g) : WellFormed g := by
  obtain ⟨ms, rfl⟩ := h
  exact wellFormed_applyMutations wellFormed_empty ms

theorem edgeCountOf_of_mem {g : Digraph VertexInfo EdgeInfo} (hg : WellFormed g)
    {p : Int × DigraphVertex VertexInfo EdgeInfo} (hp : p ∈ g.adjList) :
    g.edgeCountOf p.1 = .ok (p.2.edges.length : Int) := by
  unfold edgeCountOf
  rw [StdMap.find_eq_some_of_mem hg.keys_sorted (show (p.1, p.2) ∈ g.adjList from hp)]

theorem length_edges (g : Digraph VertexInfo EdgeInfo) :
    g.edges.length = (g.adjList.map (fun p => p.2.edges.length)).sum := by
  unfold edges
  rw [List.length_flatMap]
  congr 1
  apply List.map_congr_left
  intro p _
  simp

theorem nodup_edges {g : Digraph VertexInfo EdgeInfo} (hg : WellFormed g) : g.edges.Nodup := by
  unfold edges
  rw [List.nodup_flatMap]
  constructor
  · intro p hp
    have hn := hg.to_nodup p hp
    have : (p.2.edges.map (fun e => (e.fromVertex, e.toVertex))).map Prod.snd
        = p.2.edges.map (fun e => e.toVertex) := by
      simp [List.map_map, Function.comp_def]
    rw [← this] at hn
    exact List.Nodup.of_map _ hn
  · have hs := hg.keys_sorted
    have hf := hg.from_eq
    generalize g.adjList = m at hs hf
    induction m with
    | nil => exact List.Pairwise.nil
    | cons q t ih =>
      simp only [StdMap.keys, List.map_cons, List.pairwise_cons] at hs
      rw [List.pairwise_cons]
      refine ⟨?_, ih hs.2 (fun p hp => hf p (List.mem_cons_of_mem _ hp))⟩
      intro p hp
      simp only [Function.onFun]
      rw [List.disjoint_left]
      intro ab h1 h2
      obtain ⟨e1, he1, rfl⟩ := List.mem_map.1 h1
      obtain ⟨e2, he2, he⟩ := List.mem_map.1 h2
      have a1 := hf q (List.mem_cons_self _ _) e1 he1
      have a2 := hf p (List.mem_cons_of_mem _ hp) e2 he2
      have hlt := hs.1 p.1 (List.mem_map.2 ⟨p, hp, rfl⟩)
      have : e2.fromVertex = e1.fromVertex := congrArg Prod.fst he
      omega

theorem edgeInfoLoop_filter (es : List (DigraphEdge EdgeInfo)) {vertex b : Int} (h : b ≠ vertex) :
    edgeInfoLoop (es.filter (fun e => !decide (e.toVertex = vertex))) b = edgeInfoLoop es b := by
  induction es with
  | nil => rfl
  | cons e t ih =>
    by_cases h1 : e.toVertex = vertex
    · have : ¬ e.toVertex = b := fun e' => h (e'.symm.trans h1)
      rw [edgeInfoLoop, if_neg this]
      simp [List.filter_cons, h1, ih]
    · simp only [List.filter_cons, h1, decide_False, Bool.not_false, if_true, edgeInfoLoop, ih]

/-- The edge pairs left by `removeVertex`, computed on the map. -/
theorem edges_erase_filter (m : List (Int × DigraphVertex VertexInfo EdgeInfo)) (vertex : Int)
    (hs : (StdMap.keys m).Pairwise (fun a b => a < b))
    (hf : ∀ p ∈ m, ∀ e ∈ p.2.edges, e.fromVertex = p.1) :
    ((StdMap.erase m vertex).map (fun p => (p.1, ({ p.2 with
        edges := p.2.edges.filter (fun e => !decide (e.toVertex = vertex)) } :
          DigraphVertex VertexInfo EdgeInfo)))).flatMap
        (fun p => p.2.edges.map (fun e => (e.fromVertex, e.toVertex))) =
      (m.flatMap (fun p => p.2.edges.map (fun e => (e.fromVertex, e.toVertex)))).filter
        (fun ab => !decide (ab.1 = vertex) && !decide (ab.2 = vertex)) := by
  induction m with
  | nil => rfl
  | cons q t ih =>
    obtain ⟨k, dv⟩ := q
    have hs' := hs
    simp only [StdMap.keys, List.map_cons, List.pairwise_cons] at hs'
    have hft : ∀ p ∈ t, ∀ e ∈ p.2.edges, e.fromVertex = p.1 :=
      fun p hp => hf p (List.mem_cons_of_mem _ hp)
    have hhead := hf (k, dv) (List.mem_cons_self _ _)
    have iht := ih hs'.2 hft
    simp only [StdMap.erase]
    split_ifs with h
    · subst h
      have hnot : k ∉ StdMap.keys t := fun hk => lt_irrefl _ (hs'.1 _ hk)
      rw [StdMap.erase_of_not_mem hnot] at iht
      rw [iht, List.flatMap_cons, List.filter_append]
      have : (dv.edges.map (fun e => (e.fromVertex, e.toVertex))).filter
          (fun ab => !decide (ab.1 = k) && !decide (ab.2 = k)) = [] := by
        apply List.filter_eq_nil_iff.2
        intro ab hab
        obtain ⟨e, he, rfl⟩ := List.mem_map.1 hab
        simp [hhead e he]
      simp only at this
      rw [this, List.nil_append]
    · rw [List.map_cons, List.flatMap_cons, List.flatMap_cons, List.filter_append, iht]
      congr 1
      simp only
      rw [List.filter_map]
      congr 1
      apply List.filter_congr
      intro e he
      have : ¬ e.fromVertex = vertex := by rw [hhead e he]; exact h
      simp [this]

theorem removeVertex_fails_iff (g : Digraph VertexInfo EdgeInfo) (vertex : Int) :
    (g.removeVertex vertex).1.isSome = true ↔ vertex ∉ g.vertices := by
  rw [vertices_eq_keys, ← StdMap.find_eq_none_iff]
  unfold removeVertex
  cases h : StdMap.find g.adjList vertex <;> simp

theorem removeVertex_adjList {g : Digraph VertexInfo EdgeInfo} (hg : WellFormed g)
    {vertex : Int} (hv : vertex ∈ g.vertices) :
    (g.removeVertex vertex).2.adjList =
      (StdMap.erase g.adjList vertex).map (fun p => (p.1, ({ p.2 with
        edges := p.2.edges.filter (fun e => !decide (e.toVertex = vertex)) } :
          DigraphVertex VertexInfo EdgeInfo))) := by
  rw [vertices_eq_keys, ← StdMap.find_isSome_iff] at hv
  unfold removeVertex
  cases h : StdMap.find g.adjList vertex with
  | none => rw [h] at hv; exact Bool.noConfusion hv
  | some v =>
    have hn : ∀ p ∈ StdMap.erase g.adjList vertex,
        (p.2.edges.map (fun e => e.toVertex)).Nodup :=
      fun p hp => hg.to_nodup p ((StdMap.erase_sublist g.adjList vertex).subset hp)
    exact (removeIncoming_eq (StdMap.erase g.adjList vertex) vertex
      (g.edgeCount_ - (v.edges.length : Int)) hn).1

theorem length_filter_add_length_filter_not {α : Type} (l : List α) (p : α → Bool) :
    (l.filter p).length + (l.filter (fun a => !p a)).length = l.length := by
  induction l with
  | nil => rfl
  | cons a t ih =>
    cases h : p a <;> simp [List.filter_cons, h] <;> omega

end Digraph

/-! ## The priority queue keeps its entries -/

namespace StdHeap

theorem cons_set_perm (c : List Int) (i : Nat) (v : Int) (h : i < c.length) :
    (c.getD i 0 :: c.set i v).Perm (v :: c) := by
  induction c generalizing i with
  | nil => simp at h
  | cons a t ih =>
    cases i with
    | zero => simp [List.Perm.swap]
    | succ j =>
      simp only [List.length_cons, Nat.succ_lt_succ_iff] at h
      simp only [List.getD_cons_succ, List.set_cons_succ]
      exact (List.Perm.swap _ _ _).trans (((ih j h).cons a).trans (List.Perm.swap _ _ _))

theorem getD_set_ne (c : List Int) {i j : Nat} (v : Int) (h : i ≠ j) :
    (c.set i v).getD j 0 = c.getD j 0 := by
  simp [List.getD_eq_getElem?_getD, List.getElem?_set_ne h]

/-- Moving the element at `j` into the hole `i` and the held value into `j`
holds the same elements as storing the held value in the hole. -/
theorem set_set_perm (c : List Int) {i j : Nat} (v : Int) (hij : i ≠ j)
    (hi : i < c.length) (hj : j < c.length) :
    ((c.set i (c.getD j 0)).set j v).Perm (c.set i v) := by
  have h1 := cons_set_perm (c.set i (c.getD j 0)) j v (by simpa using hj)
  rw [getD_set_ne c _ hij] at h1
  have h2 := cons_set_perm c i (c.getD j 0) hi
  have h3 := cons_set_perm c i v hi
  have h4 : (c.getD i 0 :: c.getD j 0 :: (c.set i (c.getD j 0)).set j v).Perm
      (c.getD i 0 :: c.getD j 0 :: c.set i v) :=
    calc (c.getD i 0 :: c.getD j 0 :: (c.set i (c.getD j 0)).set j v).Perm
          (c.getD i 0 :: v :: c.set i (c.getD j 0)) := h1.cons _
      _ |>.Perm (v :: c.getD i 0 :: c.set i (c.getD j 0)) := List.Perm.swap _ _ _
      _ |>.Perm (v :: c.getD j 0 :: c) := h2.cons _
      _ |>.Perm (c.getD j 0 :: v :: c) := List.Perm.swap _ _ _
      _ |>.Perm (c.getD j 0 :: c.getD i 0 :: c.set i v) := (h3.symm).cons _
      _ |>.Perm (c.getD i 0 :: c.getD j 0 :: c.set i v) := List.Perm.swap _ _ _
  exact (h4.cons_inv).cons_inv

theorem pushHeap_perm (comp : Int → Int → Bool) (fuel : Nat) (c : List Int)
    (holeIndex topIndex : Nat) (value : Int) (h : holeIndex < c.length) :
    (pushHeap comp fuel c holeIndex topIndex value).Perm (c.set holeIndex value) := by
  induction fuel generalizing c holeIndex with
  | zero => exact List.Perm.refl _
  | succ n ih =>
    simp only [pushHeap]
    split_ifs with hc
    · have hgt : holeIndex > topIndex := by
        simp only [Bool.and_eq_true, decide_eq_true_eq] at hc
        exact hc.1
      have hp : (holeIndex - 1) / 2 < holeIndex := by omega
      have hne : holeIndex ≠ (holeIndex - 1) / 2 := by omega
      have hlen : (holeIndex - 1) / 2 < (c.set holeIndex (c.getD ((holeIndex - 1) / 2) 0)).length := by
        rw [List.length_set]; omega
      exact (ih _ _ hlen).trans (set_set_perm c value hne h (by omega))
    · exact List.Perm.refl _

theorem siftDown_perm (comp : Int → Int → Bool) (fuel : Nat) (c : List Int)
    (holeIndex len : Nat) (value : Int) (h : holeIndex < len) (hlen : len ≤ c.length) :
    (siftDown comp fuel c holeIndex len).2 < len ∧
      (siftDown comp fuel c holeIndex len).1.length = c.length ∧
      holeIndex ≤ (siftDown comp fuel c holeIndex len).2 ∧
      (((siftDown comp fuel c holeIndex len).1).set (siftDown comp fuel c holeIndex len).2
        value).Perm (c.set holeIndex value) := by
  induction fuel generalizing c holeIndex with
  | zero => exact ⟨h, rfl, le_refl _, List.Perm.refl _⟩
  | succ n ih =>
    simp only [siftDown]
    split_ifs with h1 h2
    · have hs : 2 * (holeIndex + 1) - 1 < len := by omega
      have hne : holeIndex ≠ 2 * (holeIndex + 1) - 1 := by omega
      obtain ⟨a1, a2, a3, a4⟩ := ih (c.set holeIndex (c.getD (2 * (holeIndex + 1) - 1) 0))
        (2 * (holeIndex + 1) - 1) hs (by rw [List.length_set]; exact hlen)
      refine ⟨a1, by rw [a2, List.length_set], by omega, ?_⟩
      exact a4.trans (set_set_perm c value hne (by omega) (by omega))
    · have hs : 2 * (holeIndex + 1) < len := by omega
      have hne : holeIndex ≠ 2 * (holeIndex + 1) := by omega
      obtain ⟨a1, a2, a3, a4⟩ := ih (c.set holeIndex (c.getD (2 * (holeIndex + 1)) 0))
        (2 * (holeIndex + 1)) hs (by rw [List.length_set]; exact hlen)
      refine ⟨a1, by rw [a2, List.length_set], by omega, ?_⟩
      exact a4.trans (set_set_perm c value hne (by omega) (by omega))
    · exact ⟨h, rfl, le_refl _, List.Perm.refl _⟩

theorem adjustHeap_perm (comp : Int → Int → Bool) (c : List Int) (holeIndex len : Nat)
    (value : Int) (h : holeIndex < len) (hlen : len ≤ c.length) :
    (adjustHeap comp c holeIndex len value).Perm (c.set holeIndex value) := by
  obtain ⟨a1, a2, a3, a4⟩ := siftDown_perm comp len c holeIndex len value h hlen
  unfold adjustHeap
  simp only
  split_ifs with h1
  · have hne : (siftDown comp len c holeIndex len).2 ≠
        2 * ((siftDown comp len c holeIndex len).2 + 1) - 1 := by omega
    have hlt : 2 * ((siftDown comp len c holeIndex len).2 + 1) - 1 < len := by omega
    refine (pushHeap_perm comp _ _ _ _ value (by rw [List.length_set, a2]; omega)).trans ?_
    exact (set_set_perm _ value hne (by omega) (by omega)).trans a4
  · exact (pushHeap_perm comp _ _ _ _ value (by omega)).trans a4

theorem push_perm (comp : Int → Int → Bool) (c : List Int) (x : Int) :
    (push comp c x).Perm (x :: c) := by
  unfold push
  refine (pushHeap_perm comp _ _ _ _ x (by simp)).trans ?_
  have : (c ++ [x]).set c.length x = c ++ [x] := by
    rw [List.set_append_right _ _ (le_refl _)]
    simp
  rw [this]
  exact List.perm_append_singleton x c

theorem pop_perm (comp : Int → Int → Bool) (c : List Int) (h : c ≠ []) :
    (top c :: pop comp c).Perm c := by
  cases c with
  | nil => exact absurd rfl h
  | cons a t =>
    unfold pop top
    simp only [List.headD_cons, List.length_cons]
    split_ifs with h1
    · have ht : t ≠ [] := by
        intro e; subst e; simp at h1
      have hd : (a :: t).dropLast = a :: t.dropLast := by
        cases t with
        | nil => exact absurd rfl ht
        | cons b u => rfl
      have hlast : (a :: t).getD (t.length + 1 - 1) 0 = t.getLast ht := by
        cases t with
        | nil => exact absurd rfl ht
        | cons b u =>
          simp only [List.length_cons, Nat.add_sub_cancel, List.getD_cons_succ]
          rw [List.getLast_eq_getElem, List.getD_eq_getElem?_getD,
            List.getElem?_eq_getElem (by simp)]
          simp
      rw [hd, hlast]
      refine ((adjustHeap_perm comp (a :: t.dropLast) 0 (t.length + 1 - 1) (t.getLast ht)
        (by simp; exact List.length_pos.2 ht) (by simp; omega)).cons a).trans ?_
      simp only [List.set_cons_zero]
      refine List.Perm.cons a ?_
      have := List.dropLast_append_getLast ht
      calc (t.getLast ht :: t.dropLast).Perm (t.dropLast ++ [t.getLast ht]) :=
            (List.perm_append_singleton _ _).symm
        _ |>.Perm t := by rw [this]
    · have : t = [] := by
        cases t with
        | nil => rfl
        | cons b u => simp at h1
      subst this
      simp

theorem length_push (comp : Int → Int → Bool) (c : List Int) (x : Int) :
    (push comp c x).length = c.length + 1 := by
  simpa using (push_perm comp c x).length_eq

theorem length_pop (comp : Int → Int → Bool) (c : List Int) (h : c ≠ []) :
    (pop comp c).length + 1 = c.length := by
  simpa using (pop_perm comp c h).length_eq

theorem mem_push (comp : Int → Int → Bool) (c : List Int) (x y : Int) :
    y ∈ push comp c x ↔ y = x ∨ y ∈ c := by
  rw [(push_perm comp c x).mem_iff, List.mem_cons]

theorem mem_top_or_pop (comp : Int → Int → Bool) (c : List Int) (h : c ≠ []) (y : Int) :
    y ∈ c ↔ y = top c ∨ y ∈ pop comp c := by
  rw [← (pop_perm comp c h).mem_iff, List.mem_cons]

theorem top_mem (c : List Int) (h : c ≠ []) : top c ∈ c := by
  cases c with
  | nil => exact absurd rfl h
  | cons a t => simp [top]

end StdHeap

/-! ## Walks and shortest paths -/

namespace DoubleLaws

variable {W : Type} [DoubleLaws W]

theorem gt_asymm {a b : W} (h : DoubleOps.gt a b = true) : DoubleOps.gt b a = false := by
  cases h2 : DoubleOps.gt b a with
  | false => rfl
  | true =>
    have := gt_trans a b a h h2
    rw [gt_irrefl] at this
    exact Bool.noConfusion this

/-- From `a > b` and `b >= c` follows `a > c`. -/
theorem gt_of_gt_of_le {a b c : W} (ha : Nonneg a) (hb : Nonneg b) (hc : Nonneg c)
    (h1 : DoubleOps.gt a b = true) (h2 : DoubleOps.gt c b = false) :
    DoubleOps.gt a c = true := by
  cases h : DoubleOps.gt a c with
  | true => rfl
  | false =>
    have := not_gt_trans a c b ha hc hb h h2
    rw [h1] at this
    exact Bool.noConfusion this

/-- From `a >= b` and `b > c` follows `a > c`. -/
theorem gt_of_le_of_gt {a b c : W} (ha : Nonneg a) (hb : Nonneg b) (hc : Nonneg c)
    (h1 : DoubleOps.gt b a = false) (h2 : DoubleOps.gt b c = true) :
    DoubleOps.gt a c = true := by
  cases h : DoubleOps.gt a c with
  | true => rfl
  | false =>
    have := not_gt_trans b a c hb ha hc h1 h
    rw [h2] at this
    exact Bool.noConfusion this

theorem isFin_zero : DoubleOps.isFin (DoubleOps.zero : W) = true := zero_lt_infinity

theorem isFin_infinity : DoubleOps.isFin (DoubleOps.infinity : W) = false := gt_irrefl _

theorem isFin_of_gt {a b : W} (ha : Nonneg a) (hb : Nonneg b)
    (h : DoubleOps.gt a b = true) : DoubleOps.isFin b = true :=
  gt_of_le_of_gt nonneg_infinity ha hb (le_infinity a) h

theorem isFin_of_le {a b : W} (ha : Nonneg a) (hb : Nonneg b)
    (h : DoubleOps.gt a b = false) (hfin : DoubleOps.isFin b = true) :
    DoubleOps.isFin a = true :=
  gt_of_gt_of_le nonneg_infinity hb ha hfin h

end DoubleLaws

namespace Digraph

variable {VertexInfo EdgeInfo W : Type} [DoubleOps W]

theorem edgeInfoLoop_eq_some {es : List (DigraphEdge EdgeInfo)} {t : Int} {x : EdgeInfo}
    (h : edgeInfoLoop es t = some x) : ∃ e ∈ es, e.toVertex = t ∧ e.einfo = x := by
  induction es with
  | nil => simp [edgeInfoLoop] at h
  | cons e rest ih =>
    simp only [edgeInfoLoop] at h
    split_ifs at h with h1
    · exact ⟨e, List.mem_cons_self _ _, h1, Option.some.inj h⟩
    · obtain ⟨e', he', h2⟩ := ih h
      exact ⟨e', List.mem_cons_of_mem _ he', h2⟩

theorem edgeInfo_eq_ok {g : Digraph VertexInfo EdgeInfo} {u t : Int} {x : EdgeInfo}
    (h : g.edgeInfo u t = .ok x) :
    ∃ dv e, StdMap.find g.adjList u = some dv ∧ e ∈ dv.edges ∧ e.toVertex = t ∧ e.einfo = x := by
  unfold edgeInfo at h
  cases h1 : StdMap.find g.adjList u with
  | none => simp [h1] at h
  | some dv =>
    cases h2 : StdMap.find g.adjList t with
    | none => simp [h1, h2] at h
    | some dt =>
      simp only [h1, h2] at h
      cases h3 : edgeInfoLoop dv.edges t with
      | none => simp [h3] at h
      | some y =>
        simp only [h3, Except.ok.injEq] at h
        subst h
        obtain ⟨e, he, h4⟩ := edgeInfoLoop_eq_some h3
        exact ⟨dv, e, rfl, he, h4⟩

/-- The initialisation loop in closed form, for a map in ascending key order
whose keys all exceed the keys already written. -/
theorem initShortestPaths_eq (startVertex : Int)
    (m : List (Int × DigraphVertex VertexInfo EdgeInfo)) (st : ShortestPathsState W)
    (hs : (StdMap.keys m).Pairwise (fun a b => a < b))
    (hr : ∀ x ∈ StdMap.keys st.result, ∀ y ∈ StdMap.keys m, x < y)
    (hk : ∀ x ∈ StdMap.keys st.k, ∀ y ∈ StdMap.keys m, x < y)
    (hd : ∀ x ∈ StdMap.keys st.d, ∀ y ∈ StdMap.keys m, x < y) :
    initShortestPaths startVertex m st =
      { result := st.result ++ m.map (fun p => (p.1, p.1))
        k := st.k ++ m.map (fun p => (p.1, false))
        d := st.d ++ m.map (fun p => (p.1, if p.1 = startVertex then DoubleOps.zero else DoubleOps.infinity))
        pq := st.pq } := by
  induction m generalizing st with
  | nil => simp [initShortestPaths]
  | cons q t ih =>
    obtain ⟨num, dv⟩ := q
    simp only [StdMap.keys, List.map_cons, List.pairwise_cons] at hs
    have hnum : num ∈ StdMap.keys ((num, dv) :: t) := by simp [StdMap.keys]
    have hmem : ∀ y ∈ StdMap.keys t, y ∈ StdMap.keys ((num, dv) :: t) := by
      intro y hy; simp only [StdMap.keys, List.map_cons, List.mem_cons]; exact Or.inr hy
    simp only [initShortestPaths]
    rw [ih _ hs.2]
    · rw [StdMap.set_eq_append _ (fun x hx => hr x hx num hnum),
        StdMap.set_eq_append _ (fun x hx => hk x hx num hnum),
        StdMap.set_eq_append _ (fun x hx => hd x hx num hnum)]
      simp
    · intro x hx y hy
      rw [StdMap.set_eq_append _ (fun x hx => hr x hx num hnum)] at hx
      simp only [StdMap.keys, List.map_append, List.map_cons, List.map_nil, List.mem_append,
        List.mem_singleton] at hx
      rcases hx with hx | hx
      · exact hr x hx y (hmem y hy)
      · rw [hx]; exact hs.1 y hy
    · intro x hx y hy
      rw [StdMap.set_eq_append _ (fun x hx => hk x hx num hnum)] at hx
      simp only [StdMap.keys, List.map_append, List.map_cons, List.map_nil, List.mem_append,
        List.mem_singleton] at hx
      rcases hx with hx | hx
      · exact hk x hx y (hmem y hy)
      · rw [hx]; exact hs.1 y hy
    · intro x hx y hy
      rw [StdMap.set_eq_append _ (fun x hx => hd x hx num hnum)] at hx
      simp only [StdMap.keys, List.map_append, List.map_cons, List.map_nil, List.mem_append,
        List.mem_singleton] at hx
      rcases hx with hx | hx
      · exact hd x hx y (hmem y hy)
      · rw [hx]; exact hs.1 y hy

theorem shortestPathsStep_cases {g : Digraph VertexInfo EdgeInfo} {edgeWeightFunc : EdgeInfo → W}
    {st st' : ShortestPathsState W} (h : shortestPathsStep g edgeWeightFunc st = .ok st') :
    (st.settled (StdHeap.top st.pq) = true ∧
        st' = { st with pq := StdHeap.pop (compare st.d) st.pq }) ∨
      (st.settled (StdHeap.top st.pq) = false ∧
        ∃ dv, StdMap.find g.adjList (StdHeap.top st.pq) = some dv ∧
          st' = dv.edges.foldl (relaxEdge edgeWeightFunc (StdHeap.top st.pq))
            { st with
              pq := StdHeap.pop (compare st.d) st.pq
              k := StdMap.set st.k (StdHeap.top st.pq) true }) := by
  unfold shortestPathsStep at h
  simp only at h
  split_ifs at h with h1
  · right
    refine ⟨h1, ?_⟩
    cases h2 : StdMap.find g.adjList (StdHeap.top st.pq) with
    | none => rw [h2] at h; cases h
    | some dv =>
      rw [h2] at h
      exact ⟨dv, rfl, (Except.ok.inj h).symm⟩
  · left
    refine ⟨?_, (Except.ok.inj h).symm⟩
    cases h2 : st.settled (StdHeap.top st.pq) with
    | true => rfl
    | false => exact absurd h2 h1

theorem shortestPathsStep_ok_of_mem {g : Digraph VertexInfo EdgeInfo}
    (edgeWeightFunc : EdgeInfo → W) {st : ShortestPathsState W}
    (h : StdHeap.top st.pq ∈ StdMap.keys g.adjList) :
    ∃ st', shortestPathsStep g edgeWeightFunc st = .ok st' := by
  unfold shortestPathsStep
  simp only
  split_ifs with h1
  · cases h2 : StdMap.find g.adjList (StdHeap.top st.pq) with
    | none => exact absurd h ((StdMap.find_eq_none_iff _ _).1 h2)
    | some dv => exact ⟨_, rfl⟩
  · exact ⟨_, rfl⟩

theorem relaxEdge_k (edgeWeightFunc : EdgeInfo → W) (vNum : Int) (st : ShortestPathsState W)
    (e : DigraphEdge EdgeInfo) : (relaxEdge edgeWeightFunc vNum st e).k = st.k := by
  unfold relaxEdge
  simp only
  split_ifs <;> rfl

theorem relaxEdge_length_pq (edgeWeightFunc : EdgeInfo → W) (vNum : Int)
    (st : ShortestPathsState W) (e : DigraphEdge EdgeInfo) :
    (relaxEdge edgeWeightFunc vNum st e).pq.length ≤ st.pq.length + 1 := by
  unfold relaxEdge
  simp only
  split_ifs
  · simp [StdHeap.length_push]
  · omega

theorem foldl_relaxEdge_k (edgeWeightFunc : EdgeInfo → W) (vNum : Int)
    (es : List (DigraphEdge EdgeInfo)) (st : ShortestPathsState W) :
    (es.foldl (relaxEdge edgeWeightFunc vNum) st).k = st.k := by
  induction es generalizing st with
  | nil => rfl
  | cons e t ih => rw [List.foldl_cons, ih, relaxEdge_k]

theorem foldl_relaxEdge_length_pq (edgeWeightFunc : EdgeInfo → W) (vNum : Int)
    (es : List (DigraphEdge EdgeInfo)) (st : ShortestPathsState W) :
    (es.foldl (relaxEdge edgeWeightFunc vNum) st).pq.length ≤ st.pq.length + es.length := by
  induction es generalizing st with
  | nil => simp
  | cons e t ih =>
    rw [List.foldl_cons]
    have h1 := ih (relaxEdge edgeWeightFunc vNum st e)
    have h2 := relaxEdge_length_pq edgeWeightFunc vNum st e
    simp only [List.length_cons]
    omega

theorem sum_settle (m : List (Int × DigraphVertex VertexInfo EdgeInfo)) (k : List (Int × Bool))
    {v : Int} {dv : DigraphVertex VertexInfo EdgeInfo}
    (hs : (StdMap.keys m).Pairwise (fun a b => a < b)) (hv : StdMap.find m v = some dv)
    (hk : StdMap.get false k v = false) :
    (m.map (fun p => if StdMap.get false (StdMap.set k v true) p.1 then 0
        else p.2.edges.length)).sum + dv.edges.length =
      (m.map (fun p => if StdMap.get false k p.1 then 0 else p.2.edges.length)).sum := by
  induction m with
  | nil => simp [StdMap.find] at hv
  | cons q t ih =>
    obtain ⟨k', v'⟩ := q
    simp only [StdMap.keys, List.map_cons, List.pairwise_cons] at hs
    simp only [StdMap.find] at hv
    simp only [List.map_cons, List.sum_cons]
    split_ifs at hv with h1
    · simp only [Option.some.injEq] at hv
      subst hv; subst h1
      have hrest : t.map (fun p => if StdMap.get false (StdMap.set k k' true) p.1 then 0
          else p.2.edges.length) =
          t.map (fun p => if StdMap.get false k p.1 then 0 else p.2.edges.length) := by
        apply List.map_congr_left
        intro p hp
        have : p.1 ≠ k' := ne_of_gt (hs.1 _ (List.mem_map.2 ⟨p, hp, rfl⟩))
        rw [StdMap.get_set, if_neg this]
      rw [hrest, StdMap.get_set, if_pos rfl, hk]
      simp only [if_true, Bool.false_eq_true, if_false]
      omega
    · have := ih hs.2 hv
      rw [StdMap.get_set, if_neg h1]
      omega

/-- One loop iteration lowers `queue length + pendingPushes` by at least one. -/
theorem shortestPathsStep_measure {g : Digraph VertexInfo EdgeInfo}
    (hs : (StdMap.keys g.adjList).Pairwise (fun a b => a < b)) {edgeWeightFunc : EdgeInfo → W}
    {st st' : ShortestPathsState W} (hne : st.pq ≠ [])
    (h : shortestPathsStep g edgeWeightFunc st = .ok st') :
    st'.pq.length + pendingPushes g st' + 1 ≤ st.pq.length + pendingPushes g st := by
  have hpop := StdHeap.length_pop (compare st.d) st.pq hne
  rcases shortestPathsStep_cases h with ⟨-, rfl⟩ | ⟨h1, dv, h2, rfl⟩
  · simp only [pendingPushes, ShortestPathsState.settled]
    omega
  · have hk := foldl_relaxEdge_k edgeWeightFunc (StdHeap.top st.pq) dv.edges
      { st with
        pq := StdHeap.pop (compare st.d) st.pq
        k := StdMap.set st.k (StdHeap.top st.pq) true }
    have hl := foldl_relaxEdge_length_pq edgeWeightFunc (StdHeap.top st.pq) dv.edges
      { st with
        pq := StdHeap.pop (compare st.d) st.pq
        k := StdMap.set st.k (StdHeap.top st.pq) true }
    have hsum := sum_settle g.adjList st.k hs h2 h1
    simp only [pendingPushes, ShortestPathsState.settled, hk] at hl ⊢
    omega

/-- The loop ends within the bound, and an invariant kept by every iteration
holds for the final state, provided the invariant keeps the queue entries
among the vertices. -/
theorem shortestPathsLoop_total {g : Digraph VertexInfo EdgeInfo}
    (hs : (StdMap.keys g.adjList).Pairwise (fun a b => a < b)) (edgeWeightFunc : EdgeInfo → W)
    (I : ShortestPathsState W → Prop)
    (hmem : ∀ st, I st → ∀ x ∈ st.pq, x ∈ StdMap.keys g.adjList)
    (hstep : ∀ st st', I st → st.pq ≠ [] →
      shortestPathsStep g edgeWeightFunc st = .ok st' → I st')
    (fuel : Nat) (st : ShortestPathsState W) (hI : I st)
    (hfuel : st.pq.length + pendingPushes g st ≤ fuel) :
    ∃ r, shortestPathsLoop g edgeWeightFunc fuel st = some (.ok r) ∧ I r ∧ r.pq = [] := by
  induction fuel generalizing st with
  | zero =>
    simp only [shortestPathsLoop]
    split_ifs with h
    · exact ⟨st, rfl, hI, h⟩
    · exfalso
      have hpos : 0 < st.pq.length := List.length_pos.2 h
      omega
  | succ n ih =>
    simp only [shortestPathsLoop]
    split_ifs with h
    · exact ⟨st, rfl, hI, h⟩
    · obtain ⟨st', h'⟩ := shortestPathsStep_ok_of_mem edgeWeightFunc
        (hmem st hI _ (StdHeap.top_mem st.pq h))
      have := shortestPathsStep_measure hs h h'
      rw [h']
      exact ih st' (hstep st st' hI h h') (by omega)

theorem adj_of_mem_edges {g : Digraph VertexInfo EdgeInfo} (hg : WellFormed g) {u : Int}
    {dv : DigraphVertex VertexInfo EdgeInfo} (hu : StdMap.find g.adjList u = some dv)
    {e : DigraphEdge EdgeInfo} (he : e ∈ dv.edges) : Adj g u e.toVertex := by
  have hmem := StdMap.mem_of_find_eq_some hu
  unfold Adj edges
  rw [List.mem_flatMap]
  refine ⟨(u, dv), hmem, ?_⟩
  rw [List.mem_map]
  exact ⟨e, he, by rw [hg.from_eq _ hmem e he]⟩

theorem exists_edge_of_adj {g : Digraph VertexInfo EdgeInfo} (hg : WellFormed g) {u t : Int}
    (h : Adj g u t) :
    ∃ dv e, StdMap.find g.adjList u = some dv ∧ e ∈ dv.edges ∧ e.toVertex = t := by
  unfold Adj edges at h
  rw [List.mem_flatMap] at h
  obtain ⟨p, hp, h⟩ := h
  rw [List.mem_map] at h
  obtain ⟨e, he, h⟩ := h
  have h1 : e.fromVertex = u := congrArg Prod.fst h
  have h2 : e.toVertex = t := congrArg Prod.snd h
  have h3 : p.1 = u := by rw [← hg.from_eq p hp e he]; exact h1
  refine ⟨p.2, e, ?_, he, h2⟩
  rw [← h3]
  exact StdMap.find_eq_some_of_mem hg.keys_sorted hp

theorem findShortestPathsWithin_eq (fuel : Nat) (g : Digraph VertexInfo EdgeInfo)
    (startVertex : Int) (edgeWeightFunc : EdgeInfo → W)
    (h : startVertex ∈ StdMap.keys g.adjList) :
    findShortestPathsWithin fuel g startVertex edgeWeightFunc =
      match shortestPathsLoop g edgeWeightFunc fuel (entryState g startVertex) with
      | none => none
      | some (.error e) => some (.error e)
      | some (.ok st) => some (.ok st.result) := by
  unfold findShortestPathsWithin
  cases h1 : StdMap.find g.adjList startVertex with
  | none => exact absurd h ((StdMap.find_eq_none_iff _ _).1 h1)
  | some v => rfl

theorem entryState_eq (g : Digraph VertexInfo EdgeInfo) (startVertex : Int)
    (hs : (StdMap.keys g.adjList).Pairwise (fun a b => a < b)) :
    (entryState g startVertex : ShortestPathsState W) =
      { result := g.adjList.map (fun p => (p.1, p.1))
        k := g.adjList.map (fun p => (p.1, false))
        d := g.adjList.map (fun p => (p.1, if p.1 = startVertex then DoubleOps.zero else DoubleOps.infinity))
        pq := [startVertex] } := by
  unfold entryState
  rw [initShortestPaths_eq startVertex g.adjList _ hs (by simp [StdMap.keys])
    (by simp [StdMap.keys]) (by simp [StdMap.keys])]
  simp [StdHeap.push, StdHeap.pushHeap]

theorem find_entry_result (g : Digraph VertexInfo EdgeInfo) (v u : Int)
    (h : StdMap.find (g.adjList.map (fun p => (p.1, p.1))) v = some u) : u = v := by
  generalize g.adjList = m at h
  induction m with
  | nil => simp [StdMap.find] at h
  | cons q t ih =>
    simp only [List.map_cons, StdMap.find] at h
    split_ifs at h with h1
    · rw [← h1]; exact (Option.some.inj h).symm
    · exact ih h

theorem pathsInv_entryState {g : Digraph VertexInfo EdgeInfo} (hg : WellFormed g) {s : Int}
    (hs : s ∈ StdMap.keys g.adjList) : PathsInv g s (entryState g s : ShortestPathsState W) := by
  rw [entryState_eq g s hg.keys_sorted]
  refine ⟨?_, ?_, ?_, ?_, ?_⟩
  · simp [StdMap.keys, List.map_map, Function.comp_def]
  · intro x hx
    simp only [List.mem_singleton] at hx
    rw [hx]; exact hs
  · intro p hp
    simp only [List.mem_map] at hp
    obtain ⟨q, hq, rfl⟩ := hp
    exact List.mem_map.2 ⟨q, hq, rfl⟩
  · intro x hx
    simp only [List.mem_singleton] at hx
    rw [hx]; exact Relation.ReflTransGen.refl
  · intro v u h hne
    exact absurd (find_entry_result g v u h) hne

theorem pathsInv_relaxEdge {g : Digraph VertexInfo EdgeInfo} (hg : WellFormed g) {s : Int}
    (edgeWeightFunc : EdgeInfo → W) {vNum : Int} {dv : DigraphVertex VertexInfo EdgeInfo}
    (hv : StdMap.find g.adjList vNum = some dv) (hreach : Reachable g s vNum)
    {st : ShortestPathsState W} (hI : PathsInv g s st) {e : DigraphEdge EdgeInfo}
    (he : e ∈ dv.edges) : PathsInv g s (relaxEdge edgeWeightFunc vNum st e) := by
  unfold relaxEdge
  simp only
  split_ifs with h1
  · have hto : e.toVertex ∈ StdMap.keys g.adjList :=
      hg.to_mem _ (StdMap.mem_of_find_eq_some hv) e he
    have hvk : vNum ∈ StdMap.keys g.adjList :=
      (StdMap.find_isSome_iff _ _).1 (by rw [hv]; rfl)
    have hadj := adj_of_mem_edges hg hv he
    refine ⟨?_, ?_, ?_, ?_, ?_⟩
    · simp only
      rw [StdMap.keys_set_of_mem _ (by rw [hI.keys_result]; exact hg.keys_sorted)
        (by rw [hI.keys_result]; exact hto)]
      exact hI.keys_result
    · intro x hx
      rcases (StdHeap.mem_push _ _ _ _).1 hx with hx | hx
      · rw [hx]; exact hto
      · exact hI.pq_mem x hx
    · intro p hp
      rcases StdMap.mem_set_imp hp with hp | hp
      · rw [hp]; exact hvk
      · exact hI.val_mem p hp
    · intro x hx
      rcases (StdHeap.mem_push _ _ _ _).1 hx with hx | hx
      · rw [hx]; exact Relation.ReflTransGen.tail hreach hadj
      · exact hI.pq_reach x hx
    · intro v u h hne
      simp only [StdMap.find_set] at h
      split_ifs at h with h2
      · have : u = vNum := (Option.some.inj h).symm
        rw [this, h2]
        exact ⟨hadj, hreach⟩
      · exact hI.pred_edge v u h hne
  · exact hI

theorem pathsInv_foldl {g : Digraph VertexInfo EdgeInfo} (hg : WellFormed g) {s : Int}
    (edgeWeightFunc : EdgeInfo → W) {vNum : Int} {dv : DigraphVertex VertexInfo EdgeInfo}
    (hv : StdMap.find g.adjList vNum = some dv) (hreach : Reachable g s vNum)
    (es : List (DigraphEdge EdgeInfo)) (hes : ∀ e ∈ es, e ∈ dv.edges)
    {st : ShortestPathsState W} (hI : PathsInv g s st) :
    PathsInv g s (es.foldl (relaxEdge edgeWeightFunc vNum) st) := by
  induction es generalizing st with
  | nil => exact hI
  | cons e t ih =>
    rw [List.foldl_cons]
    exact ih (fun x hx => hes x (List.mem_cons_of_mem _ hx))
      (pathsInv_relaxEdge hg edgeWeightFunc hv hreach hI (hes e (List.mem_cons_self _ _)))

theorem pathsInv_pop {g : Digraph VertexInfo EdgeInfo} {s : Int} {st : ShortestPathsState W}
    (hI : PathsInv g s st) (hne : st.pq ≠ []) (k : List (Int × Bool)) :
    PathsInv g s { st with pq := StdHeap.pop (compare st.d) st.pq, k := k } := by
  refine ⟨hI.keys_result, ?_, hI.val_mem, ?_, hI.pred_edge⟩
  · intro x hx
    exact hI.pq_mem x ((StdHeap.mem_top_or_pop _ _ hne x).2 (Or.inr hx))
  · intro x hx
    exact hI.pq_reach x ((StdHeap.mem_top_or_pop _ _ hne x).2 (Or.inr hx))

theorem pathsInv_step {g : Digraph VertexInfo EdgeInfo} (hg : WellFormed g) {s : Int}
    {edgeWeightFunc : EdgeInfo → W} {st st' : ShortestPathsState W} (hI : PathsInv g s st)
    (hne : st.pq ≠ []) (h : shortestPathsStep g edgeWeightFunc st = .ok st') :
    PathsInv g s st' := by
  rcases shortestPathsStep_cases h with ⟨-, rfl⟩ | ⟨-, dv, h2, rfl⟩
  · exact pathsInv_pop hI hne st.k
  · exact pathsInv_foldl hg edgeWeightFunc h2 (hI.pq_reach _ (StdHeap.top_mem _ hne)) dv.edges
      (fun e he => he) (pathsInv_pop hI hne _)

theorem pendingPushes_entryState (g : Digraph VertexInfo EdgeInfo) (s : Int)
    (hs : (StdMap.keys g.adjList).Pairwise (fun a b => a < b)) :
    pendingPushes g (entryState g s : ShortestPathsState W) = g.edges.length := by
  rw [entryState_eq g s hs, length_edges]
  unfold pendingPushes
  congr 1
  apply List.map_congr_left
  intro p hp
  have hk : p.1 ∈ StdMap.keys g.adjList := List.mem_map.2 ⟨p, hp, rfl⟩
  obtain ⟨b, -, hb⟩ := StdMap.find_map_of_mem g.adjList (fun _ => false) hk hs
  simp [ShortestPathsState.settled, StdMap.get, hb]

/-- On a well-formed graph with the start vertex present, `findShortestPaths`
returns the result map of a final state with an empty queue, and that state
satisfies `PathsInv` and every further invariant kept by the iterations. -/
theorem findShortestPaths_total {g : Digraph VertexInfo EdgeInfo} (hg : WellFormed g) {s : Int}
    (hs : s ∈ StdMap.keys g.adjList) (edgeWeightFunc : EdgeInfo → W)
    (I : ShortestPathsState W → Prop) (h0 : I (entryState g s))
    (hstep : ∀ st st', PathsInv g s st → I st → st.pq ≠ [] →
      shortestPathsStep g edgeWeightFunc st = .ok st' → I st') :
    ∃ r, findShortestPaths g s edgeWeightFunc = some (.ok r.result) ∧
      PathsInv g s r ∧ I r ∧ r.pq = [] := by
  have hfuel : (entryState g s : ShortestPathsState W).pq.length +
      pendingPushes g (entryState g s : ShortestPathsState W) ≤ 1 + g.edges.length := by
    rw [pendingPushes_entryState g s hg.keys_sorted, entryState_eq g s hg.keys_sorted]
    simp
  obtain ⟨r, h1, ⟨h2, h3⟩, h4⟩ := shortestPathsLoop_total hg.keys_sorted edgeWeightFunc
    (fun st => PathsInv g s st ∧ I st) (fun st hst => hst.1.pq_mem)
    (fun st st' hst hne h => ⟨pathsInv_step hg hst.1 hne h, hstep st st' hst.1 hst.2 hne h⟩)
    (1 + g.edges.length) (entryState g s) ⟨pathsInv_entryState hg hs, h0⟩ hfuel
  refine ⟨r, ?_, h2, h3, h4⟩
  unfold findShortestPaths
  rw [findShortestPathsWithin_eq _ _ _ _ hs, h1]

theorem foldl_relaxEdge_induction (edgeWeightFunc : EdgeInfo → W) (vNum : Int)
    (P : ShortestPathsState W → Prop) (es : List (DigraphEdge EdgeInfo))
    (h : ∀ st, P st → ∀ e ∈ es, P (relaxEdge edgeWeightFunc vNum st e))
    (st : ShortestPathsState W) (hst : P st) :
    P (es.foldl (relaxEdge edgeWeightFunc vNum) st) := by
  induction es generalizing st with
  | nil => exact hst
  | cons e t ih =>
    rw [List.foldl_cons]
    exact ih (fun st' h' x hx => h st' h' x (List.mem_cons_of_mem _ hx)) _
      (h st hst e (List.mem_cons_self _ _))

theorem dist_entryState (g : Digraph VertexInfo EdgeInfo) (s v : Int)
    (hs : (StdMap.keys g.adjList).Pairwise (fun a b => a < b)) :
    (entryState g s : ShortestPathsState W).dist v =
      if v ∈ StdMap.keys g.adjList then (if v = s then DoubleOps.zero else DoubleOps.infinity)
      else DoubleOps.zero := by
  rw [entryState_eq g s hs]
  unfold ShortestPathsState.dist StdMap.get
  split_ifs with h1 h2
  · obtain ⟨b, -, hb⟩ := StdMap.find_map_of_mem g.adjList
      (fun p => if p.1 = s then (DoubleOps.zero : W) else DoubleOps.infinity) h1 hs
    simp only at hb ⊢
    rw [hb, if_pos h2]; rfl
  · obtain ⟨b, -, hb⟩ := StdMap.find_map_of_mem g.adjList
      (fun p => if p.1 = s then (DoubleOps.zero : W) else DoubleOps.infinity) h1 hs
    simp only at hb ⊢
    rw [hb, if_neg h2]; rfl
  · have := StdMap.find_map_of_not_mem g.adjList
      (fun p => if p.1 = s then (DoubleOps.zero : W) else DoubleOps.infinity) h1
    simp only at this ⊢
    rw [this]; rfl

theorem find_result_entryState (g : Digraph VertexInfo EdgeInfo) (s : Int) {v : Int}
    (hs : (StdMap.keys g.adjList).Pairwise (fun a b => a < b))
    (hv : v ∈ StdMap.keys g.adjList) :
    StdMap.find (entryState g s : ShortestPathsState W).result v = some v := by
  rw [entryState_eq g s hs]
  obtain ⟨b, -, hb⟩ := StdMap.find_map_of_mem g.adjList (fun p => p.1) hv hs
  exact hb

theorem dist_relaxEdge (edgeWeightFunc : EdgeInfo → W) (vNum : Int) (st : ShortestPathsState W)
    (e : DigraphEdge EdgeInfo) (x : Int) :
    (relaxEdge edgeWeightFunc vNum st e).dist x =
      if DoubleOps.gt (st.dist e.toVertex) (DoubleOps.add (st.dist vNum) (edgeWeightFunc e.einfo)) = true
        ∧ x = e.toVertex
      then DoubleOps.add (st.dist vNum) (edgeWeightFunc e.einfo) else st.dist x := by
  unfold relaxEdge ShortestPathsState.dist
  simp only
  by_cases h : DoubleOps.gt (StdMap.get (DoubleOps.zero) st.d e.toVertex)
      (DoubleOps.add (StdMap.get (DoubleOps.zero) st.d vNum) (edgeWeightFunc e.einfo)) = true
  · rw [if_pos h]
    simp only [StdMap.get_set, h, true_and]
  · rw [if_neg h]
    simp [h]

theorem find_result_relaxEdge (edgeWeightFunc : EdgeInfo → W) (vNum : Int)
    (st : ShortestPathsState W) (e : DigraphEdge EdgeInfo) (x : Int) :
    StdMap.find (relaxEdge edgeWeightFunc vNum st e).result x =
      if DoubleOps.gt (st.dist e.toVertex) (DoubleOps.add (st.dist vNum) (edgeWeightFunc e.einfo)) = true
        ∧ x = e.toVertex
      then some vNum else StdMap.find st.result x := by
  unfold relaxEdge ShortestPathsState.dist
  simp only
  by_cases h : DoubleOps.gt (StdMap.get (DoubleOps.zero) st.d e.toVertex)
      (DoubleOps.add (StdMap.get (DoubleOps.zero) st.d vNum) (edgeWeightFunc e.einfo)) = true
  · rw [if_pos h]
    simp only [StdMap.find_set, h, true_and]
  · rw [if_neg h]
    simp [h]

end Digraph

namespace Digraph

variable {VertexInfo EdgeInfo W : Type} [LinearOrderedAddCommGroup W]

/-- A potential that no edge undercuts bounds the weight of every walk from
below. -/
theorem WalkCost.potential_le {g : Digraph VertexInfo EdgeInfo} {edgeWeightFunc : EdgeInfo → W}
    (potential : Int → W) {s t : Int} {c : W} (hs : potential s ≤ 0)
    (hedge : ∀ p ∈ g.adjList, ∀ e ∈ p.2.edges,
      potential e.toVertex ≤ potential p.1 + edgeWeightFunc e.einfo)
    (h : WalkCost g edgeWeightFunc s t c) : potential t ≤ c := by
  induction h with
  | nil => exact hs
  | step _ hx ih =>
    obtain ⟨dv, e, h1, h2, h3, h4⟩ := edgeInfo_eq_ok hx
    have := hedge _ (StdMap.mem_of_find_eq_some h1) e h2
    rw [h3, h4] at this
    exact this.trans (add_le_add_right ih _)

end Digraph

namespace Digraph

variable {VertexInfo EdgeInfo W : Type} [DoubleLaws W]

theorem startInv_relaxEdge {s : Int} {edgeWeightFunc : EdgeInfo → W} {vNum : Int}
    {st : ShortestPathsState W} (hI : StartInv s st) {e : DigraphEdge EdgeInfo}
    (hw : DoubleLaws.Nonneg (edgeWeightFunc e.einfo)) :
    StartInv s (relaxEdge edgeWeightFunc vNum st e) := by
  have hc := DoubleLaws.nonneg_add _ _ (hI.dist_nonneg vNum) hw
  have hgt : ¬ (DoubleOps.gt (st.dist e.toVertex)
      (DoubleOps.add (st.dist vNum) (edgeWeightFunc e.einfo)) = true ∧ s = e.toVertex) := by
    rintro ⟨h1, h2⟩
    rw [← h2, hI.dist_start, DoubleLaws.zero_le _ hc] at h1
    exact Bool.noConfusion h1
  refine ⟨?_, ?_, ?_⟩
  · intro v
    rw [dist_relaxEdge]
    split_ifs
    · exact hc
    · exact hI.dist_nonneg v
  · rw [dist_relaxEdge, if_neg hgt]
    exact hI.dist_start
  · rw [find_result_relaxEdge, if_neg hgt]
    exact hI.result_start

theorem startInv_step {g : Digraph VertexInfo EdgeInfo} {s : Int}
    {edgeWeightFunc : EdgeInfo → W} (hw : NonnegWeights g edgeWeightFunc)
    {st st' : ShortestPathsState W} (hI : StartInv s st)
    (h : shortestPathsStep g edgeWeightFunc st = .ok st') : StartInv s st' := by
  rcases shortestPathsStep_cases h with ⟨-, rfl⟩ | ⟨-, dv, h2, rfl⟩
  · exact ⟨hI.dist_nonneg, hI.dist_start, hI.result_start⟩
  · apply foldl_relaxEdge_induction edgeWeightFunc _ (StartInv s) dv.edges
    · intro st1 h1 e he
      exact startInv_relaxEdge h1 (hw _ (StdMap.mem_of_find_eq_some h2) e he)
    · exact ⟨hI.dist_nonneg, hI.dist_start, hI.result_start⟩

theorem startInv_entryState {g : Digraph VertexInfo EdgeInfo} (hg : WellFormed g) {s : Int}
    (hs : s ∈ StdMap.keys g.adjList) : StartInv s (entryState g s : ShortestPathsState W) := by
  refine ⟨?_, ?_, find_result_entryState g s hg.keys_sorted hs⟩
  · intro v
    rw [dist_entryState g s v hg.keys_sorted]
    split_ifs
    · exact DoubleLaws.nonneg_zero
    · exact DoubleLaws.nonneg_infinity
    · exact DoubleLaws.nonneg_zero
  · rw [dist_entryState g s s hg.keys_sorted, if_pos hs, if_pos rfl]

theorem rankInv_entryState {g : Digraph VertexInfo EdgeInfo} (hg : WellFormed g) (s : Int) :
    RankInv (entryState g s : ShortestPathsState W) := by
  refine ⟨⟨fun _ => 0, ?_⟩⟩
  intro v u h hne
  rw [entryState_eq g s hg.keys_sorted] at h
  exact absurd (find_entry_result g v u h) hne

theorem rankInv_relaxEdge {edgeWeightFunc : EdgeInfo → W} {cur : Int}
    {st : ShortestPathsState W} (hN : ∀ v, DoubleLaws.Nonneg (st.dist v))
    {e : DigraphEdge EdgeInfo} (hw : DoubleLaws.Nonneg (edgeWeightFunc e.einfo))
    (hI : RankInv st) : RankInv (relaxEdge edgeWeightFunc cur st e) := by
  have hc := DoubleLaws.nonneg_add _ _ (hN cur) hw
  have hle := DoubleLaws.le_add _ _ (hN cur) hw
  by_cases h1 : DoubleOps.gt (st.dist e.toVertex)
      (DoubleOps.add (st.dist cur) (edgeWeightFunc e.einfo)) = true
  · have hne : cur ≠ e.toVertex := by
      intro h
      rw [← h, hle] at h1
      exact Bool.noConfusion h1
    have hdist : ∀ x, (relaxEdge edgeWeightFunc cur st e).dist x =
        if x = e.toVertex then DoubleOps.add (st.dist cur) (edgeWeightFunc e.einfo)
        else st.dist x := by
      intro x
      rw [dist_relaxEdge]
      by_cases hx : x = e.toVertex <;> simp [h1, hx]
    have hres : ∀ x, StdMap.find (relaxEdge edgeWeightFunc cur st e).result x =
        if x = e.toVertex then some cur else StdMap.find st.result x := by
      intro x
      rw [find_result_relaxEdge]
      by_cases hx : x = e.toVertex <;> simp [h1, hx]
    obtain ⟨l, hl⟩ := hI.rank
    refine ⟨⟨fun x => if x = e.toVertex then l cur + 1 else l x, ?_⟩⟩
    intro v u hvu huv
    rw [hres] at hvu
    by_cases hv : v = e.toVertex
    · rw [if_pos hv] at hvu
      have hu : u = cur := (Option.some.inj hvu).symm
      subst hu
      rw [hdist v, hdist u, if_pos hv, if_neg hne]
      refine ⟨hle, Or.inr ?_⟩
      simp only [if_neg hne, if_pos hv]
      omega
    · rw [if_neg hv] at hvu
      have hold := hl v u hvu huv
      rw [hdist v, hdist u, if_neg hv]
      by_cases hu : u = e.toVertex
      · rw [if_pos hu]
        rw [hu] at hold
        have h2 : DoubleOps.gt (st.dist v)
            (DoubleOps.add (st.dist cur) (edgeWeightFunc e.einfo)) = true :=
          DoubleLaws.gt_of_le_of_gt (hN v) (hN e.toVertex) hc hold.1 h1
        exact ⟨DoubleLaws.gt_asymm h2, Or.inl h2⟩
      · rw [if_neg hu]
        simp only [if_neg hu, if_neg hv]
        exact hold
  · have heq : relaxEdge edgeWeightFunc cur st e = st := by
      unfold relaxEdge
      simp only
      exact if_neg h1
    rw [heq]
    exact hI

theorem rankInv_step {g : Digraph VertexInfo EdgeInfo} {s : Int}
    {edgeWeightFunc : EdgeInfo → W} (hw : NonnegWeights g edgeWeightFunc)
    {st st' : ShortestPathsState W} (hS : StartInv s st) (hI : RankInv st)
    (h : shortestPathsStep g edgeWeightFunc st = .ok st') : RankInv st' := by
  rcases shortestPathsStep_cases h with ⟨-, rfl⟩ | ⟨-, dv, h2, rfl⟩
  · exact ⟨hI.rank⟩
  · have := foldl_relaxEdge_induction edgeWeightFunc (StdHeap.top st.pq)
      (fun st1 => StartInv s st1 ∧ RankInv st1) dv.edges
      (fun st1 h1 e he =>
        ⟨startInv_relaxEdge h1.1 (hw _ (StdMap.mem_of_find_eq_some h2) e he),
          rankInv_relaxEdge h1.1.dist_nonneg (hw _ (StdMap.mem_of_find_eq_some h2) e he) h1.2⟩)
      { st with
        pq := StdHeap.pop (compare st.d) st.pq
        k := StdMap.set st.k (StdHeap.top st.pq) true }
      ⟨⟨hS.dist_nonneg, hS.dist_start, hS.result_start⟩, ⟨hI.rank⟩⟩
    exact this.2

theorem chainInv_entryState {g : Digraph VertexInfo EdgeInfo} (hg : WellFormed g) {s : Int}
    (hs : s ∈ StdMap.keys g.adjList) (cur : Int) :
    ChainInv g s cur [] (entryState g s : ShortestPathsState W) := by
  have hd := fun v => dist_entryState (W := W) g s v hg.keys_sorted
  have hset : ∀ u, (entryState g s : ShortestPathsState W).settled u = false := by
    intro u
    rw [entryState_eq g s hg.keys_sorted]
    unfold ShortestPathsState.settled StdMap.get
    by_cases hu : u ∈ StdMap.keys g.adjList
    · obtain ⟨b, -, hb⟩ := StdMap.find_map_of_mem g.adjList (fun _ => false) hu hg.keys_sorted
      simp only at hb ⊢
      rw [hb]; rfl
    · have := StdMap.find_map_of_not_mem g.adjList (fun _ => false) hu
      simp only at this ⊢
      rw [this]; rfl
  have hpq : (entryState g s : ShortestPathsState W).pq = [s] := by
    rw [entryState_eq g s hg.keys_sorted]
  refine ⟨?_, ?_, ?_, ?_⟩
  · intro v hv hne hfin
    rw [hd v, if_pos hv, if_neg hne, DoubleLaws.isFin_infinity] at hfin
    exact Bool.noConfusion hfin
  · intro v hv hfin
    left
    rw [hd v, if_pos hv] at hfin
    by_cases h : v = s
    · rw [hpq, h]; exact List.mem_singleton_self _
    · rw [if_neg h, DoubleLaws.isFin_infinity] at hfin
      exact Bool.noConfusion hfin
  · intro u dv hu
    rw [hset u] at hu
    exact Bool.noConfusion hu
  · intro x hx
    rw [hpq, List.mem_singleton] at hx
    rw [hx, hd s, if_pos hs, if_pos rfl]
    exact DoubleLaws.isFin_zero

theorem chainInv_relaxEdge {g : Digraph VertexInfo EdgeInfo} {s cur : Int}
    {edgeWeightFunc : EdgeInfo → W} {dv : DigraphVertex VertexInfo EdgeInfo}
    (hcur : StdMap.find g.adjList cur = some dv) {e : DigraphEdge EdgeInfo}
    (hw : DoubleLaws.Nonneg (edgeWeightFunc e.einfo))
    (hfs : ∀ a : W, DoubleLaws.Nonneg a → DoubleOps.isFin a = true →
      DoubleOps.isFin (DoubleOps.add a (edgeWeightFunc e.einfo)) = true)
    {rest : List (DigraphEdge EdgeInfo)}
    {st : ShortestPathsState W} (hN : ∀ v, DoubleLaws.Nonneg (st.dist v))
    (hset : st.settled cur = true)
    (hI : ChainInv g s cur (e :: rest) st) :
    ChainInv g s cur rest (relaxEdge edgeWeightFunc cur st e) := by
  have hfc : DoubleOps.isFin (st.dist cur) = true := (hI.settled_closed cur dv hset hcur).1
  have hc := DoubleLaws.nonneg_add _ _ (hN cur) hw
  have hle := DoubleLaws.le_add _ _ (hN cur) hw
  have hcand : DoubleOps.isFin (DoubleOps.add (st.dist cur) (edgeWeightFunc e.einfo)) = true :=
    hfs _ (hN cur) hfc
  have hsettled : ∀ x, (relaxEdge edgeWeightFunc cur st e).settled x = st.settled x := by
    intro x
    unfold ShortestPathsState.settled
    rw [relaxEdge_k]
  by_cases h1 : DoubleOps.gt (st.dist e.toVertex)
      (DoubleOps.add (st.dist cur) (edgeWeightFunc e.einfo)) = true
  · have hne : cur ≠ e.toVertex := by
      intro h
      rw [← h, hle] at h1
      exact Bool.noConfusion h1
    have hdist : ∀ x, (relaxEdge edgeWeightFunc cur st e).dist x =
        if x = e.toVertex then DoubleOps.add (st.dist cur) (edgeWeightFunc e.einfo)
        else st.dist x := by
      intro x
      rw [dist_relaxEdge]
      by_cases hx : x = e.toVertex <;> simp [h1, hx]
    have hres : ∀ x, StdMap.find (relaxEdge edgeWeightFunc cur st e).result x =
        if x = e.toVertex then some cur else StdMap.find st.result x := by
      intro x
      rw [find_result_relaxEdge]
      by_cases hx : x = e.toVertex <;> simp [h1, hx]
    have hpq : ∀ x, x ∈ (relaxEdge edgeWeightFunc cur st e).pq ↔ x = e.toVertex ∨ x ∈ st.pq := by
      intro x
      have h1' := h1
      unfold ShortestPathsState.dist at h1'
      unfold relaxEdge
      simp only
      rw [if_pos h1']
      exact StdHeap.mem_push _ _ _ _
    have hmono : ∀ x, DoubleOps.isFin (st.dist x) = true →
        DoubleOps.isFin ((relaxEdge edgeWeightFunc cur st e).dist x) = true := by
      intro x hx
      rw [hdist]
      split_ifs
      · exact hcand
      · exact hx
    refine ⟨?_, ?_, ?_, ?_⟩
    · intro v hv hvs hfin
      rw [hres]
      by_cases hx : v = e.toVertex
      · rw [if_pos hx]
        exact ⟨cur, rfl, by rw [hx]; exact hne⟩
      · rw [if_neg hx]
        rw [hdist, if_neg hx] at hfin
        exact hI.fin_pred v hv hvs hfin
    · intro v hv hfin
      rw [hpq, hsettled]
      by_cases hx : v = e.toVertex
      · exact Or.inl (Or.inl hx)
      · rw [hdist, if_neg hx] at hfin
        rcases hI.fin_seen v hv hfin with h | h
        · exact Or.inl (Or.inr h)
        · exact Or.inr h
    · intro u du hu hfu
      rw [hsettled] at hu
      obtain ⟨a1, a2⟩ := hI.settled_closed u du hu hfu
      refine ⟨hmono u a1, ?_⟩
      intro e' he'
      rcases a2 e' he' with h | ⟨h2, h3⟩
      · exact Or.inl (hmono _ h)
      · rcases List.mem_cons.1 h3 with h3 | h3
        · left
          rw [hdist, h3, if_pos rfl]
          exact hcand
        · exact Or.inr ⟨h2, h3⟩
    · intro x hx
      rw [hpq] at hx
      rcases hx with hx | hx
      · rw [hdist, if_pos hx]; exact hcand
      · exact hmono x (hI.pq_fin x hx)
  · have heq : relaxEdge edgeWeightFunc cur st e = st := by
      unfold relaxEdge
      simp only
      exact if_neg h1
    rw [heq]
    refine ⟨hI.fin_pred, hI.fin_seen, ?_, hI.pq_fin⟩
    intro u du hu hfu
    obtain ⟨a1, a2⟩ := hI.settled_closed u du hu hfu
    refine ⟨a1, ?_⟩
    intro e' he'
    rcases a2 e' he' with h | ⟨h2, h3⟩
    · exact Or.inl h
    · rcases List.mem_cons.1 h3 with h3 | h3
      · left
        rw [h3]
        exact DoubleLaws.isFin_of_le (hN e.toVertex) hc (Bool.eq_false_iff.2 h1) hcand
      · exact Or.inr ⟨h2, h3⟩

theorem chainInv_foldl {g : Digraph VertexInfo EdgeInfo} {s cur : Int}
    {edgeWeightFunc : EdgeInfo → W} (hw : NonnegWeights g edgeWeightFunc)
    (hF : FiniteSums g edgeWeightFunc)
    {dv : DigraphVertex VertexInfo EdgeInfo} (hcur : StdMap.find g.adjList cur = some dv)
    (es : List (DigraphEdge EdgeInfo)) (hes : ∀ e ∈ es, e ∈ dv.edges)
    {st : ShortestPathsState W} (hS : StartInv s st) (hset : st.settled cur = true)
    (hI : ChainInv g s cur es st) :
    ChainInv g s cur [] (es.foldl (relaxEdge edgeWeightFunc cur) st) := by
  induction es generalizing st with
  | nil => exact hI
  | cons e t ih =>
    rw [List.foldl_cons]
    have hwe := hw _ (StdMap.mem_of_find_eq_some hcur) e (hes e (List.mem_cons_self _ _))
    apply ih (fun x hx => hes x (List.mem_cons_of_mem _ hx))
    · exact startInv_relaxEdge hS hwe
    · unfold ShortestPathsState.settled
      rw [relaxEdge_k]
      exact hset
    · exact chainInv_relaxEdge hcur hwe
        (hF _ (StdMap.mem_of_find_eq_some hcur) e (hes e (List.mem_cons_self _ _)))
        hS.dist_nonneg hset hI

theorem chainInv_step {g : Digraph VertexInfo EdgeInfo} {s : Int}
    {edgeWeightFunc : EdgeInfo → W} (hw : NonnegWeights g edgeWeightFunc)
    (hF : FiniteSums g edgeWeightFunc)
    {st st' : ShortestPathsState W} (hS : StartInv s st) (hI : ChainInv g s 0 [] st)
    (hne : st.pq ≠ [])
    (h : shortestPathsStep g edgeWeightFunc st = .ok st') : ChainInv g s 0 [] st' := by
  have hclosed : ∀ u dv, st.settled u = true → StdMap.find g.adjList u = some dv →
      DoubleOps.isFin (st.dist u) = true ∧
        ∀ e ∈ dv.edges, DoubleOps.isFin (st.dist e.toVertex) = true := by
    intro u dv hu hf
    obtain ⟨a1, a2⟩ := hI.settled_closed u dv hu hf
    refine ⟨a1, fun e he => ?_⟩
    rcases a2 e he with h | ⟨-, h⟩
    · exact h
    · simp at h
  rcases shortestPathsStep_cases h with ⟨h1, rfl⟩ | ⟨h1, dv, h2, rfl⟩
  · refine ⟨hI.fin_pred, ?_, hI.settled_closed, ?_⟩
    · intro v hv hfin
      rcases hI.fin_seen v hv hfin with h3 | h3
      · rcases (StdHeap.mem_top_or_pop (compare st.d) _ hne v).1 h3 with h4 | h4
        · right; rw [h4]; exact h1
        · exact Or.inl h4
      · exact Or.inr h3
    · intro x hx
      exact hI.pq_fin x ((StdHeap.mem_top_or_pop _ _ hne x).2 (Or.inr hx))
  · have hsettled : ∀ x, ({ st with
          pq := StdHeap.pop (compare st.d) st.pq
          k := StdMap.set st.k (StdHeap.top st.pq) true } : ShortestPathsState W).settled x =
        if x = StdHeap.top st.pq then true else st.settled x := by
      intro x
      unfold ShortestPathsState.settled
      simp only
      rw [StdMap.get_set]
    have hmid : ChainInv g s (StdHeap.top st.pq) dv.edges ({ st with
          pq := StdHeap.pop (compare st.d) st.pq
          k := StdMap.set st.k (StdHeap.top st.pq) true } : ShortestPathsState W) := by
      refine ⟨hI.fin_pred, ?_, ?_, ?_⟩
      · intro v hv hfin
        rw [hsettled]
        rcases hI.fin_seen v hv hfin with h3 | h3
        · rcases (StdHeap.mem_top_or_pop (compare st.d) _ hne v).1 h3 with h4 | h4
          · right; rw [if_pos h4]
          · exact Or.inl h4
        · right
          split_ifs
          · rfl
          · exact h3
      · intro u du hu hf
        rw [hsettled] at hu
        by_cases hut : u = StdHeap.top st.pq
        · subst hut
          rw [h2] at hf
          have hd : du = dv := (Option.some.inj hf).symm
          subst hd
          exact ⟨hI.pq_fin _ (StdHeap.top_mem _ hne), fun e he => Or.inr ⟨rfl, he⟩⟩
        · rw [if_neg hut] at hu
          obtain ⟨a1, a2⟩ := hclosed u du hu hf
          exact ⟨a1, fun e he => Or.inl (a2 e he)⟩
      · intro x hx
        exact hI.pq_fin x ((StdHeap.mem_top_or_pop _ _ hne x).2 (Or.inr hx))
    have hSmid : StartInv s ({ st with
          pq := StdHeap.pop (compare st.d) st.pq
          k := StdMap.set st.k (StdHeap.top st.pq) true } : ShortestPathsState W) :=
      ⟨hS.dist_nonneg, hS.dist_start, hS.result_start⟩
    have hfin := chainInv_foldl hw hF h2 dv.edges (fun e he => he) hSmid
      (by rw [hsettled, if_pos rfl]) hmid
    refine ⟨hfin.fin_pred, hfin.fin_seen, ?_, hfin.pq_fin⟩
    intro u du hu hf
    obtain ⟨a1, a2⟩ := hfin.settled_closed u du hu hf
    refine ⟨a1, fun e he => ?_⟩
    rcases a2 e he with h | ⟨-, h⟩
    · exact Or.inl h
    · simp at h

/-- In a final state (empty queue), every vertex reachable from the start
vertex has a finite distance. -/
theorem isFin_of_reachable {g : Digraph VertexInfo EdgeInfo} (hg : WellFormed g) {s : Int}
    {r : ShortestPathsState W} (hS : StartInv s r)
    (hC : ChainInv g s 0 [] r) (hpq : r.pq = []) {t : Int} (h : Reachable g s t) :
    DoubleOps.isFin (r.dist t) = true := by
  induction h with
  | refl => rw [hS.dist_start]; exact DoubleLaws.isFin_zero
  | @tail u t' _ hadj ih =>
    obtain ⟨dv, e, h1, h2, h3⟩ := exists_edge_of_adj hg hadj
    have hu : u ∈ StdMap.keys g.adjList := (StdMap.find_isSome_iff _ _).1 (by rw [h1]; rfl)
    have hset : r.settled u = true := by
      rcases hC.fin_seen u hu ih with h | h
      · rw [hpq] at h; simp at h
      · exact h
    rcases (hC.settled_closed u dv hset h1).2 e h2 with h | ⟨-, h⟩
    · rw [← h3]; exact h
    · simp at h

theorem length_le_of_nodup_subset {l m : List Int} (hl : l.Nodup) (h : ∀ x ∈ l, x ∈ m) :
    l.length ≤ m.length :=
  (List.subperm_of_subset hl h).length_le

/-- The reconstruction loop follows the predecessor entries of a final state
without meeting a vertex twice, so it ends before the bound is used up, at a
vertex that is its own predecessor. -/
theorem sortPredocessorsLoop_spec {g : Digraph VertexInfo EdgeInfo}
    {s : Int} {r : ShortestPathsState W} (hP : PathsInv g s r)
    (hN : ∀ v, DoubleLaws.Nonneg (r.dist v)) (l : Int → Nat)
    (hl : ∀ v u, StdMap.find r.result v = some u → u ≠ v →
      DoubleOps.gt (r.dist u) (r.dist v) = false ∧
        (DoubleOps.gt (r.dist v) (r.dist u) = true ∨ l u < l v))
    (fuel : Nat) (order : List Int) (current : Int)
    (hlast : order.getLast? = some current) (hnd : order.Nodup)
    (hmem : ∀ x ∈ order, x ∈ StdMap.keys g.adjList)
    (hrank : ∀ x ∈ order, x ≠ current →
      DoubleOps.gt (r.dist current) (r.dist x) = false ∧
        (DoubleOps.gt (r.dist x) (r.dist current) = true ∨ l current < l x))
    (hfuel : (StdMap.keys g.adjList).length ≤ order.length + fuel) :
    ∃ out z, sortPredocessorsLoop r.result fuel order current (StdMap.get 0 r.result current)
        = some out ∧
      out.Nodup ∧ (∃ tl, out = order ++ tl) ∧ out.getLast? = some z ∧
      StdMap.find r.result z = some z ∧
      (DoubleOps.isFin (r.dist current) = true → DoubleOps.isFin (r.dist z) = true) := by
  have hnotin : ∀ (order : List Int) (current u : Int),
      (∀ x ∈ order, x ≠ current →
        DoubleOps.gt (r.dist current) (r.dist x) = false ∧
          (DoubleOps.gt (r.dist x) (r.dist current) = true ∨ l current < l x)) →
      StdMap.find r.result current = some u → current ≠ u → u ∉ order := by
    intro order current u hrank hf hu hin
    obtain ⟨o1, o2⟩ := hl current u hf (fun e => hu e.symm)
    obtain ⟨r1, r2⟩ := hrank u hin (fun e => hu e.symm)
    rcases r2 with h | h
    · rw [o1] at h; exact Bool.noConfusion h
    · rcases o2 with h' | h'
      · rw [r1] at h'; exact Bool.noConfusion h'
      · omega
  induction fuel generalizing order current with
  | zero =>
    have hcur : current ∈ order := List.mem_of_getLast?_eq_some hlast
    have hk : current ∈ StdMap.keys r.result := by rw [hP.keys_result]; exact hmem _ hcur
    cases hf : StdMap.find r.result current with
    | none => exact absurd hk ((StdMap.find_eq_none_iff _ _).1 hf)
    | some u =>
      have hget : StdMap.get 0 r.result current = u := by unfold StdMap.get; rw [hf]; rfl
      rw [hget]
      by_cases hu : current = u
      · subst hu
        exact ⟨order, current, by simp [sortPredocessorsLoop], hnd, ⟨[], by simp⟩, hlast, hf,
          fun h => h⟩
      · exfalso
        have huk : u ∈ StdMap.keys g.adjList := hP.val_mem _ (StdMap.mem_of_find_eq_some hf)
        have hnot : u ∉ order := hnotin order current u hrank hf hu
        have hlen := length_le_of_nodup_subset (List.Nodup.cons hnot hnd)
          (fun x hx => by
            rcases List.mem_cons.1 hx with hx | hx
            · rw [hx]; exact huk
            · exact hmem x hx)
        simp only [List.length_cons] at hlen
        omega
  | succ n ih =>
    have hcur : current ∈ order := List.mem_of_getLast?_eq_some hlast
    have hk : current ∈ StdMap.keys r.result := by rw [hP.keys_result]; exact hmem _ hcur
    cases hf : StdMap.find r.result current with
    | none => exact absurd hk ((StdMap.find_eq_none_iff _ _).1 hf)
    | some u =>
      have hget : StdMap.get 0 r.result current = u := by unfold StdMap.get; rw [hf]; rfl
      rw [hget]
      by_cases hu : current = u
      · subst hu
        exact ⟨order, current, by simp [sortPredocessorsLoop], hnd, ⟨[], by simp⟩, hlast, hf,
          fun h => h⟩
      · have hold := hl current u hf (fun e => hu e.symm)
        have huk : u ∈ StdMap.keys g.adjList := hP.val_mem _ (StdMap.mem_of_find_eq_some hf)
        have hnot : u ∉ order := hnotin order current u hrank hf hu
        have hstep : sortPredocessorsLoop r.result (n + 1) order current u =
            sortPredocessorsLoop r.result n (order ++ [u]) u (StdMap.get 0 r.result u) := by
          simp [sortPredocessorsLoop, hu]
        rw [hstep]
        obtain ⟨out, z, a1, a2, ⟨tl, a3⟩, a4, a5, a6⟩ := ih (order ++ [u]) u
          (by simp)
          (by
            rw [List.nodup_append]
            refine ⟨hnd, List.nodup_singleton _, ?_⟩
            intro a ha hb
            rw [List.mem_singleton] at hb
            exact hnot (hb ▸ ha))
          (by
            intro x hx
            rcases List.mem_append.1 hx with hx | hx
            · exact hmem x hx
            · rw [List.mem_singleton] at hx; rw [hx]; exact huk)
          (by
            intro x hx hxu
            rcases List.mem_append.1 hx with hx | hx
            · by_cases hxc : x = current
              · rw [hxc]; exact hold
              · obtain ⟨r1, r2⟩ := hrank x hx hxc
                refine ⟨DoubleLaws.not_gt_trans _ _ _ (hN u) (hN current) (hN x) hold.1 r1, ?_⟩
                rcases r2 with h | h
                · exact Or.inl
                    (DoubleLaws.gt_of_gt_of_le (hN x) (hN current) (hN u) h hold.1)
                · rcases hold.2 with h2 | h2
                  · exact Or.inl
                      (DoubleLaws.gt_of_le_of_gt (hN x) (hN current) (hN u) r1 h2)
                  · right; omega
            · rw [List.mem_singleton] at hx; exact absurd hx hxu)
          (by simp only [List.length_append, List.length_singleton]; omega)
        refine ⟨out, z, a1, a2, ⟨[u] ++ tl, by rw [a3, List.append_assoc]⟩, a4, a5, ?_⟩
        intro hfin
        apply a6
        exact DoubleLaws.isFin_of_le (hN u) (hN current) hold.1 hfin

end Digraph

namespace Digraph

variable {VertexInfo EdgeInfo : Type}

/-- With exact sums, finite weights never give an infinite sum. -/
theorem finiteSums_fin {W : Type} [LinearOrderedAddCommGroup W]
    (g : Digraph VertexInfo EdgeInfo) (f : EdgeInfo → W) :
    FiniteSums g (fun x => Dist.fin (f x)) := by
  intro p _ e _ a _ hfin
  cases a with
  | fin x => rfl
  | inf => exact Bool.noConfusion (show false = true from hfin)

/-- With exact sums, a finite weight is not negative when its value is not. -/
theorem nonnegWeights_fin {W : Type} [LinearOrderedAddCommGroup W]
    (g : Digraph VertexInfo EdgeInfo) (f : EdgeInfo → W)
    (h : ∀ p ∈ g.adjList, ∀ e ∈ p.2.edges, 0 ≤ f e.einfo) :
    NonnegWeights g (fun x => Dist.fin (f x)) :=
  fun p hp e he => h p hp e he

theorem nonnegWeights_sample : NonnegWeights sampleGraph (fun x : Int => Dist.fin x) :=
  nonnegWeights_fin sampleGraph (fun x => x) (by decide)

theorem nonnegWeights_staleKey : NonnegWeights staleKeyGraph (fun x : Int => Dist.fin x) :=
  nonnegWeights_fin staleKeyGraph (fun x => x) (by decide)

end Digraph


/-! ## Depth-first traversal and strong connectivity -/

namespace Digraph

variable {VertexInfo EdgeInfo : Type}

theorem any_eq_true_iff_mem (l : List Int) (x : Int) :
    l.any (fun i => decide (i = x)) = true ↔ x ∈ l := by
  rw [List.any_eq_true]
  constructor
  · rintro ⟨y, hy, h⟩
    have : y = x := by simpa using h
    exact this ▸ hy
  · intro h
    exact ⟨x, h, by simp⟩

/-- The edge loop of `DFTr` for the vertex `num`, given that the recursive
calls behave: it ends, and extends the newly visited vertices `new0` to a list
`new` that is reachable from `num`, closed under the edges of its members other
than `num`, and contains the targets of the edges just looped over. -/
theorem DFTrEdges_spec {g : Digraph VertexInfo EdgeInfo} (hg : WellFormed g)
    (recurse : Int → TraversalState → Option (Except Thrown TraversalState))
    (depth : Nat)
    (hrec : ∀ (num : Int) (visited : List Int) (find : Int),
      num ∈ StdMap.keys g.adjList → num ∉ visited → visited.Nodup →
      (∀ x ∈ visited, x ∈ StdMap.keys g.adjList) →
      (StdMap.keys g.adjList).length ≤ visited.length + depth →
      ∃ new, recurse num (visited, find) = some (.ok (visited ++ new, find + new.length)) ∧
        num ∈ new ∧ (visited ++ new).Nodup ∧ (∀ x ∈ new, x ∈ StdMap.keys g.adjList) ∧
        (∀ x ∈ new, Reachable g num x) ∧
        (∀ x ∈ new, ∀ y, Adj g x y → y ∈ visited ++ new))
    {num : Int} {dv : DigraphVertex VertexInfo EdgeInfo}
    (hnum : StdMap.find g.adjList num = some dv)
    (es : List (DigraphEdge EdgeInfo)) (hes : ∀ e ∈ es, e ∈ dv.edges)
    (visited new0 : List Int) (find : Int)
    (hnd : (visited ++ new0).Nodup)
    (hK : ∀ x ∈ visited ++ new0, x ∈ StdMap.keys g.adjList)
    (hreach : ∀ x ∈ new0, Reachable g num x)
    (hclosed : ∀ x ∈ new0, x ≠ num → ∀ y, Adj g x y → y ∈ visited ++ new0)
    (hdepth : (StdMap.keys g.adjList).length ≤ (visited ++ new0).length + depth) :
    ∃ new, DFTrEdges recurse g.adjList es (visited ++ new0, find + new0.length) =
        some (.ok (visited ++ new, find + new.length)) ∧
      (∃ tl, new = new0 ++ tl) ∧ (visited ++ new).Nodup ∧
      (∀ x ∈ visited ++ new, x ∈ StdMap.keys g.adjList) ∧
      (∀ x ∈ new, Reachable g num x) ∧
      (∀ x ∈ new, x ≠ num → ∀ y, Adj g x y → y ∈ visited ++ new) ∧
      (∀ e ∈ es, e.toVertex ∈ visited ++ new) := by
  induction es generalizing new0 with
  | nil =>
    exact ⟨new0, rfl, ⟨[], by simp⟩, hnd, hK, hreach, hclosed, by simp⟩
  | cons e rest ih =>
    have hrest : ∀ e ∈ rest, e ∈ dv.edges := fun x hx => hes x (List.mem_cons_of_mem _ hx)
    have he : e ∈ dv.edges := hes e (List.mem_cons_self _ _)
    simp only [DFTrEdges]
    split_ifs with h1
    · rw [any_eq_true_iff_mem] at h1
      obtain ⟨new, a1, ⟨tl, a2⟩, a3, a4, a5, a6, a7⟩ :=
        ih hrest new0 hnd hK hreach hclosed hdepth
      refine ⟨new, a1, ⟨tl, a2⟩, a3, a4, a5, a6, ?_⟩
      intro x hx
      rcases List.mem_cons.1 hx with hx | hx
      · rw [hx, a2, ← List.append_assoc]
        exact List.mem_append_left _ h1
      · exact a7 x hx
    · rw [any_eq_true_iff_mem] at h1
      have hto : e.toVertex ∈ StdMap.keys g.adjList :=
        hg.to_mem _ (StdMap.mem_of_find_eq_some hnum) e he
      have hadj : Adj g num e.toVertex := adj_of_mem_edges hg hnum he
      cases hf : StdMap.find g.adjList e.toVertex with
      | none => exact absurd hto ((StdMap.find_eq_none_iff _ _).1 hf)
      | some dt =>
        obtain ⟨new1, b1, b2, b3, b4, b5, b6⟩ :=
          hrec e.toVertex (visited ++ new0) (find + new0.length) hto h1 hnd hK hdepth
        simp only [b1]
        have hassoc : visited ++ new0 ++ new1 = visited ++ (new0 ++ new1) :=
          List.append_assoc _ _ _
        have hlen : find + (new0.length : Int) + (new1.length : Int) =
            find + ((new0 ++ new1).length : Int) := by
          rw [List.length_append]; push_cast; ring
        rw [hassoc, hlen]
        obtain ⟨new, a1, ⟨tl, a2⟩, a3, a4, a5, a6, a7⟩ := ih hrest (new0 ++ new1)
          (by rw [← hassoc]; exact b3)
          (by
            intro x hx
            rw [← hassoc] at hx
            rcases List.mem_append.1 hx with hx | hx
            · exact hK x hx
            · exact b4 x hx)
          (by
            intro x hx
            rcases List.mem_append.1 hx with hx | hx
            · exact hreach x hx
            · exact Relation.ReflTransGen.head hadj (b5 x hx))
          (by
            intro x hx hne y hy
            rw [← hassoc]
            rcases List.mem_append.1 hx with hx | hx
            · exact List.mem_append_left _ (hclosed x hx hne y hy)
            · exact b6 x hx y hy)
          (by
            rw [← hassoc, List.length_append]
            omega)
        refine ⟨new, a1, ⟨new1 ++ tl, by rw [a2, List.append_assoc]⟩, a3, a4, a5, a6, ?_⟩
        intro x hx
        rcases List.mem_cons.1 hx with hx | hx
        · rw [hx, a2, ← List.append_assoc, ← List.append_assoc]
          exact List.mem_append_left _ (List.mem_append_right _ b2)
        · exact a7 x hx

/-- A call of `DFTr` on an unvisited vertex `num`, with enough depth left for
the vertices not yet visited, ends and appends to `visited` a list `new` of
vertices, without repetition: `num` is in it, its members are reachable from
`num`, and every edge from a member leads to a visited vertex; `find` grows by
the length of `new`. -/
theorem DFTr_spec {g : Digraph VertexInfo EdgeInfo} (hg : WellFormed g) (depth : Nat)
    (num : Int) (visited : List Int) (find : Int)
    (hnum : num ∈ StdMap.keys g.adjList) (hnot : num ∉ visited) (hnd : visited.Nodup)
    (hK : ∀ x ∈ visited, x ∈ StdMap.keys g.adjList)
    (hdepth : (StdMap.keys g.adjList).length ≤ visited.length + depth) :
    ∃ new, DFTr g.adjList depth num (visited, find) =
        some (.ok (visited ++ new, find + new.length)) ∧
      num ∈ new ∧ (visited ++ new).Nodup ∧ (∀ x ∈ new, x ∈ StdMap.keys g.adjList) ∧
      (∀ x ∈ new, Reachable g num x) ∧
      (∀ x ∈ new, ∀ y, Adj g x y → y ∈ visited ++ new) := by
  induction depth generalizing num visited find with
  | zero =>
    exfalso
    have hlen := length_le_of_nodup_subset (List.Nodup.cons hnot hnd)
      (fun x hx => by
        rcases List.mem_cons.1 hx with hx | hx
        · rw [hx]; exact hnum
        · exact hK x hx)
    simp only [List.length_cons] at hlen
    omega
  | succ d ih =>
    cases hf : StdMap.find g.adjList num with
    | none => exact absurd hnum ((StdMap.find_eq_none_iff _ _).1 hf)
    | some dv =>
      simp only [DFTr, hf]
      have hnd' : (visited ++ [num]).Nodup := by
        rw [List.nodup_append]
        refine ⟨hnd, List.nodup_singleton _, ?_⟩
        intro a ha hb
        rw [List.mem_singleton] at hb
        exact hnot (hb ▸ ha)
      obtain ⟨new, a1, ⟨tl, a2⟩, a3, a4, a5, a6, a7⟩ := DFTrEdges_spec hg (DFTr g.adjList d) d
        (fun num visited find h1 h2 h3 h4 h5 => ih num visited find h1 h2 h3 h4 h5)
        hf dv.edges (fun e he => he) visited [num] find hnd'
        (by
          intro x hx
          rcases List.mem_append.1 hx with hx | hx
          · exact hK x hx
          · rw [List.mem_singleton] at hx; rw [hx]; exact hnum)
        (by
          intro x hx
          rw [List.mem_singleton] at hx
          rw [hx]; exact Relation.ReflTransGen.refl)
        (by
          intro x hx hne
          rw [List.mem_singleton] at hx
          exact absurd hx hne)
        (by simp only [List.length_append, List.length_singleton]; omega)
      have hone : find + (([num] : List Int).length : Int) = find + 1 := by simp
      rw [hone] at a1
      have hmem : num ∈ new := by rw [a2]; simp
      refine ⟨new, a1, hmem, a3, fun x hx => a4 x (List.mem_append_right _ hx), a5, ?_⟩
      intro x hx y hy
      by_cases hxn : x = num
      · subst hxn
        obtain ⟨dv', e, h1, h2, h3⟩ := exists_edge_of_adj hg hy
        rw [hf] at h1
        have : dv' = dv := (Option.some.inj h1).symm
        subst this
        rw [← h3]
        exact a7 e h2
      · exact a6 x hx hxn y hy

/-- Started with nothing visited, `DFTr` returns exactly the vertices reachable
from the start vertex, each once, and their number in `find`. -/
theorem DFTr_top {g : Digraph VertexInfo EdgeInfo} (hg : WellFormed g) {num : Int}
    (hnum : num ∈ StdMap.keys g.adjList) :
    ∃ new : List Int, DFTr g.adjList g.adjList.length num ([], 0) =
        some (.ok (new, (new.length : Int))) ∧
      new.Nodup ∧ (∀ x, x ∈ new ↔ Reachable g num x) ∧
      (∀ x ∈ new, x ∈ StdMap.keys g.adjList) := by
  obtain ⟨new, a1, a2, a3, a4, a5, a6⟩ := DFTr_spec hg g.adjList.length num [] 0 hnum
    (by simp) List.nodup_nil (by simp) (by simp [StdMap.keys])
  simp only [List.nil_append, zero_add] at a1 a3 a6
  refine ⟨new, a1, a3, ?_, a4⟩
  intro x
  constructor
  · exact a5 x
  · intro h
    induction h with
    | refl => exact a2
    | tail _ hadj ih => exact a6 _ ih _ hadj

theorem isStronglyConnectedLoop_spec {g : Digraph VertexInfo EdgeInfo} (hg : WellFormed g)
    (rest : List (Int × DigraphVertex VertexInfo EdgeInfo))
    (hrest : ∀ p ∈ rest, p.1 ∈ StdMap.keys g.adjList) :
    ∃ b, isStronglyConnectedLoop g rest = some (.ok b) ∧
      (b = true ↔ ∀ p ∈ rest, ∀ t ∈ StdMap.keys g.adjList, Reachable g p.1 t) := by
  induction rest with
  | nil => exact ⟨true, rfl, by simp⟩
  | cons q t ih =>
    obtain ⟨num, dv⟩ := q
    have hnum : num ∈ StdMap.keys g.adjList := hrest (num, dv) (List.mem_cons_self _ _)
    obtain ⟨new, a1, a2, a3, a4⟩ := DFTr_top hg hnum
    obtain ⟨b, b1, b2⟩ := ih (fun p hp => hrest p (List.mem_cons_of_mem _ hp))
    have hnodupK : (StdMap.keys g.adjList).Nodup :=
      hg.keys_sorted.imp (fun h => ne_of_lt h)
    have hall : (new.length : Int) = g.vertexCount_ ↔
        ∀ t ∈ StdMap.keys g.adjList, Reachable g num t := by
      rw [hg.vertexCount_eq]
      constructor
      · intro hlen t ht
        have hlen' : (StdMap.keys g.adjList).length ≤ new.length := by
          simp only [StdMap.keys, List.length_map]
          omega
        have hperm := (List.subperm_of_subset a2 a4).perm_of_length_le hlen'
        exact (a3 t).1 (hperm.mem_iff.2 ht)
      · intro hreach
        have h1 := length_le_of_nodup_subset a2 a4
        have h2 := length_le_of_nodup_subset hnodupK (fun t ht => (a3 t).2 (hreach t ht))
        simp only [StdMap.keys, List.length_map] at h1 h2
        omega
    simp only [isStronglyConnectedLoop, a1]
    split_ifs with hne
    · refine ⟨false, rfl, ?_⟩
      constructor
      · intro h; exact Bool.noConfusion h
      · intro h
        exfalso
        exact hne (hall.2 (h (num, dv) (List.mem_cons_self _ _))).symm
    · refine ⟨b, b1, ?_⟩
      rw [b2]
      have heq : (new.length : Int) = g.vertexCount_ := by
        by_contra hcon
        exact hne (fun e => hcon e.symm)
      constructor
      · intro h p hp
        rcases List.mem_cons.1 hp with hp | hp
        · rw [hp]; exact hall.1 heq
        · exact h p hp
      · intro h p hp
        exact h p (List.mem_cons_of_mem _ hp)

end Digraph

/-! ## The mutators and the lookups, call by call -/

namespace Digraph

variable {VertexInfo EdgeInfo : Type}

theorem addVertex_fails_iff (g : Digraph VertexInfo EdgeInfo) (vertex : Int)
    (vinfo : VertexInfo) : (g.addVertex vertex vinfo).1.isSome = true ↔ vertex ∈ g.vertices := by
  rw [vertices_eq_keys, ← StdMap.find_isSome_iff]
  unfold addVertex
  cases h : StdMap.find g.adjList vertex <;> simp

theorem addVertex_adjList {g : Digraph VertexInfo EdgeInfo} {vertex : Int} {vinfo : VertexInfo}
    (h : (g.addVertex vertex vinfo).1 = none) :
    (g.addVertex vertex vinfo).2 = { g with
      adjList := StdMap.set g.adjList vertex { vinfo := vinfo, edges := [] }
      vertexCount_ := g.vertexCount_ + 1 } := by
  unfold addVertex at h ⊢
  cases h1 : StdMap.find g.adjList vertex with
  | none => rfl
  | some v => rw [h1] at h; cases h

theorem removeEdge_fail_state (g : Digraph VertexInfo EdgeInfo) (fromVertex toVertex : Int)
    (h : (g.removeEdge fromVertex toVertex).1.isSome = true) :
    (g.removeEdge fromVertex toVertex).2 = g := by
  unfold removeEdge at h ⊢
  cases h1 : StdMap.find g.adjList fromVertex with
  | none => rfl
  | some v =>
    cases h2 : StdMap.find g.adjList toVertex with
    | none => rfl
    | some v2 =>
      simp only [h1, h2] at h ⊢
      split_ifs at h ⊢ with h3
      · simp at h
      · have hlen : (v.edges.filter (fun e => !decide (e.toVertex = toVertex))).length
            = v.edges.length :=
          le_antisymm (List.length_filter_le _ _) (not_lt.1 h3)
        have hfil : v.edges.filter (fun e => !decide (e.toVertex = toVertex)) = v.edges :=
          (List.filter_sublist _).eq_of_length hlen
        have := StdMap.modify_eq_self (m := g.adjList)
          (fun dv : DigraphVertex VertexInfo EdgeInfo =>
            { dv with edges := v.edges.filter (fun e => !decide (e.toVertex = toVertex)) })
          h1 (by simp only [hfil])
        simp only [this]

/-- The pairs `{fromVertex, toVertex}` of a list of map entries, as `edges()`
lists them. -/
theorem edges_split {g : Digraph VertexInfo EdgeInfo} {pre post : List (Int × DigraphVertex VertexInfo EdgeInfo)}
    {k : Int} {dv : DigraphVertex VertexInfo EdgeInfo} (h : g.adjList = pre ++ (k, dv) :: post) :
    g.edges = pre.flatMap (fun p => p.2.edges.map (fun e => (e.fromVertex, e.toVertex))) ++
      (dv.edges.map (fun e => (e.fromVertex, e.toVertex)) ++
        post.flatMap (fun p => p.2.edges.map (fun e => (e.fromVertex, e.toVertex)))) := by
  unfold edges
  rw [h, List.flatMap_append, List.flatMap_cons]

theorem mem_edges_iff {g : Digraph VertexInfo EdgeInfo} (hg : WellFormed g) (u v : Int) :
    (u, v) ∈ g.edges ↔
      ∃ dv, StdMap.find g.adjList u = some dv ∧ v ∈ dv.edges.map (fun e => e.toVertex) := by
  constructor
  · intro h
    obtain ⟨dv, e, h1, h2, h3⟩ := exists_edge_of_adj hg h
    exact ⟨dv, h1, List.mem_map.2 ⟨e, h2, h3⟩⟩
  · rintro ⟨dv, h1, h2⟩
    obtain ⟨e, he, rfl⟩ := List.mem_map.1 h2
    exact adj_of_mem_edges hg h1 he

theorem hasEdge_iff {es : List (DigraphEdge EdgeInfo)} {u v : Int}
    (hf : ∀ e ∈ es, e.fromVertex = u) :
    hasEdge es u v = true ↔ v ∈ es.map (fun e => e.toVertex) := by
  constructor
  · intro h
    by_contra hn
    have : hasEdge es u v = false := by
      unfold hasEdge
      rw [List.any_eq_false]
      intro e he
      have : ¬ e.toVertex = v := fun e' => hn (List.mem_map.2 ⟨e, he, e'⟩)
      simp [this]
    rw [this] at h
    exact Bool.noConfusion h
  · intro h
    by_contra hn
    exact not_mem_of_hasEdge_false hf (by simpa using hn) h

theorem addEdge_fails_iff {g : Digraph VertexInfo EdgeInfo} (hg : WellFormed g) (u v : Int)
    (p : EdgeInfo) :
    (g.addEdge u v p).1.isSome = true ↔ u ∉ g.vertices ∨ v ∉ g.vertices ∨ (u, v) ∈ g.edges := by
  rw [vertices_eq_keys, mem_edges_iff hg, ← StdMap.find_eq_none_iff, ← StdMap.find_eq_none_iff]
  unfold addEdge
  cases h1 : StdMap.find g.adjList u with
  | none => simp
  | some du =>
    cases h2 : StdMap.find g.adjList v with
    | none => simp
    | some dv' =>
      have hf := hg.from_eq _ (StdMap.mem_of_find_eq_some h1)
      simp only
      split_ifs with h3
      · simp only [Option.isSome_some, true_iff]
        right; right
        exact ⟨du, rfl, (hasEdge_iff hf).1 h3⟩
      · simp only [Option.isSome_none, Bool.false_eq_true, false_iff]
        rintro (h | h | ⟨d', h4, h5⟩)
        · cases h
        · cases h
        · have : d' = du := (Option.some.inj h4).symm
          subst this
          exact h3 ((hasEdge_iff hf).2 h5)

theorem addEdge_success {g : Digraph VertexInfo EdgeInfo} {u v : Int} {p : EdgeInfo}
    (h : (g.addEdge u v p).1 = none) :
    ∃ du dv', StdMap.find g.adjList u = some du ∧ StdMap.find g.adjList v = some dv' ∧
      hasEdge du.edges u v = false ∧
      (g.addEdge u v p).2 = { g with
        adjList := StdMap.modify g.adjList u
          (fun dv => { dv with edges := dv.edges ++ [⟨u, v, p⟩] })
        edgeCount_ := g.edgeCount_ + 1 } := by
  unfold addEdge at h ⊢
  cases h1 : StdMap.find g.adjList u with
  | none => simp [h1] at h
  | some du =>
    cases h2 : StdMap.find g.adjList v with
    | none => simp [h1, h2] at h
    | some dv' =>
      simp only [h1, h2] at h ⊢
      by_cases h3 : hasEdge du.edges u v = true
      · rw [if_pos h3] at h
        cases h
      · rw [if_neg h3]
        exact ⟨du, dv', rfl, rfl, by simpa using h3, rfl⟩

theorem edgeInfoLoop_append (es : List (DigraphEdge EdgeInfo)) (e : DigraphEdge EdgeInfo)
    (b : Int) :
    edgeInfoLoop (es ++ [e]) b =
      match edgeInfoLoop es b with
      | some x => some x
      | none => if e.toVertex = b then some e.einfo else none := by
  induction es with
  | nil => simp [edgeInfoLoop]
  | cons a t ih =>
    show edgeInfoLoop (a :: (t ++ [e])) b = _
    simp only [edgeInfoLoop]
    by_cases h1 : a.toVertex = b
    · simp only [if_pos h1]
    · simp only [if_neg h1]
      exact ih

theorem edgeInfoLoop_eq_none_iff (es : List (DigraphEdge EdgeInfo)) (b : Int) :
    edgeInfoLoop es b = none ↔ b ∉ es.map (fun e => e.toVertex) := by
  induction es with
  | nil => simp [edgeInfoLoop]
  | cons a t ih =>
    simp only [edgeInfoLoop, List.map_cons, List.mem_cons, not_or]
    split_ifs with h1
    · simp [h1]
    · rw [ih]
      constructor
      · intro h; exact ⟨fun e => h1 e.symm, h⟩
      · intro h; exact h.2

theorem filter_ne_append_singleton {α : Type} [DecidableEq α] (A B C : List α) (x : α)
    (h : x ∉ A ++ (B ++ C)) :
    (A ++ ((B ++ [x]) ++ C)).filter (fun y => decide (y ≠ x)) = A ++ (B ++ C) := by
  have hA : A.filter (fun y => decide (y ≠ x)) = A :=
    List.filter_eq_self.2 (fun a ha => by
      have : a ≠ x := fun e => h (e ▸ List.mem_append_left _ ha)
      simp [this])
  have hB : B.filter (fun y => decide (y ≠ x)) = B :=
    List.filter_eq_self.2 (fun a ha => by
      have : a ≠ x := fun e =>
        h (e ▸ List.mem_append_right _ (List.mem_append_left _ ha))
      simp [this])
  have hC : C.filter (fun y => decide (y ≠ x)) = C :=
    List.filter_eq_self.2 (fun a ha => by
      have : a ≠ x := fun e =>
        h (e ▸ List.mem_append_right _ (List.mem_append_right _ ha))
      simp [this])
  simp only [List.filter_append, hA, hB, hC]
  simp

theorem length_filter_eq_of_nodup {α : Type} [DecidableEq α] {l : List α} {x : α}
    (hn : l.Nodup) (hx : x ∈ l) : (l.filter (fun y => decide (y = x))).length = 1 := by
  induction l with
  | nil => simp at hx
  | cons a t ih =>
    rw [List.nodup_cons] at hn
    by_cases ha : a = x
    · subst ha
      have : t.filter (fun y => decide (y = a)) = [] := by
        apply List.filter_eq_nil_iff.2
        intro y hy
        have : y ≠ a := fun e => hn.1 (e ▸ hy)
        simp [this]
      simp [List.filter_cons, this]
    · rcases List.mem_cons.1 hx with h | h
      · exact absurd h.symm ha
      · simp [List.filter_cons, ha, ih hn.2 h]

theorem length_filter_lt_iff (es : List (DigraphEdge EdgeInfo)) (v : Int) :
    (es.filter (fun e => !decide (e.toVertex = v))).length < es.length ↔
      v ∈ es.map (fun e => e.toVertex) := by
  constructor
  · intro h
    by_contra hn
    have : es.filter (fun e => !decide (e.toVertex = v)) = es := by
      apply List.filter_eq_self.2
      intro e he
      have : ¬ e.toVertex = v := fun e' => hn (List.mem_map.2 ⟨e, he, e'⟩)
      simp [this]
    rw [this] at h
    exact lt_irrefl _ h
  · intro h
    obtain ⟨e, he, hev⟩ := List.mem_map.1 h
    by_contra hn
    have hlen := le_antisymm (List.length_filter_le (fun e => !decide (e.toVertex = v)) es)
      (not_lt.1 hn)
    have heq := (List.filter_sublist (p := fun e => !decide (e.toVertex = v)) es).eq_of_length hlen
    have := (List.filter_eq_self.1 heq) e he
    simp [hev] at this

theorem removeEdge_fails_iff {g : Digraph VertexInfo EdgeInfo} (hg : WellFormed g) (u v : Int) :
    (g.removeEdge u v).1.isSome = true ↔ u ∉ g.vertices ∨ v ∉ g.vertices ∨ (u, v) ∉ g.edges := by
  rw [vertices_eq_keys, mem_edges_iff hg, ← StdMap.find_eq_none_iff, ← StdMap.find_eq_none_iff]
  unfold removeEdge
  cases h1 : StdMap.find g.adjList u with
  | none => simp
  | some du =>
    cases h2 : StdMap.find g.adjList v with
    | none => simp
    | some dv' =>
      simp only
      by_cases h3 : (du.edges.filter (fun e => !decide (e.toVertex = v))).length < du.edges.length
      · rw [if_pos h3]
        simp only [Option.isSome_none, Bool.false_eq_true, false_iff]
        rintro (h | h | h)
        · cases h
        · cases h
        · exact h ⟨du, rfl, (length_filter_lt_iff _ _).1 h3⟩
      · rw [if_neg h3]
        simp only [Option.isSome_some, true_iff]
        right; right
        rintro ⟨d', h4, h5⟩
        have : d' = du := (Option.some.inj h4).symm
        subst this
        exact h3 ((length_filter_lt_iff _ _).2 h5)

theorem removeEdge_success {g : Digraph VertexInfo EdgeInfo} {u v : Int}
    (h : (g.removeEdge u v).1 = none) :
    ∃ du dv', StdMap.find g.adjList u = some du ∧ StdMap.find g.adjList v = some dv' ∧
      (g.removeEdge u v).2 = { g with
        adjList := StdMap.modify g.adjList u
          (fun dv => { dv with edges := du.edges.filter (fun e => !decide (e.toVertex = v)) })
        edgeCount_ := g.edgeCount_ - 1 } := by
  unfold removeEdge at h ⊢
  cases h1 : StdMap.find g.adjList u with
  | none => simp [h1] at h
  | some du =>
    cases h2 : StdMap.find g.adjList v with
    | none => simp [h1, h2] at h
    | some dv' =>
      simp only [h1, h2] at h ⊢
      by_cases h3 : (du.edges.filter (fun e => !decide (e.toVertex = v))).length < du.edges.length
      · rw [if_pos h3]
        exact ⟨du, dv', rfl, rfl, rfl⟩
      · rw [if_neg h3] at h
        cases h

theorem filter_eq_self_of_fst_ne (l : List (Int × Int)) (u v : Int)
    (h : ∀ ab ∈ l, ab.1 ≠ u) : l.filter (fun ab => decide (ab ≠ (u, v))) = l := by
  apply List.filter_eq_self.2
  intro ab hab
  have : ab ≠ (u, v) := fun e => h ab hab (by rw [e])
  simp [this]

theorem applyMutation_of_thrown (g : Digraph VertexInfo EdgeInfo)
    (m : Mutation VertexInfo EdgeInfo) (h : (g.mutationThrown m).isSome = true) :
    g.applyMutation m = g := by
  cases m with
  | addVertex vertex vinfo =>
    simp only [mutationThrown, applyMutation] at h ⊢
    unfold addVertex at h ⊢
    cases h1 : StdMap.find g.adjList vertex with
    | none => rw [h1] at h; simp at h
    | some v => rfl
  | addEdge fromVertex toVertex einfo =>
    simp only [mutationThrown, applyMutation] at h ⊢
    unfold addEdge at h ⊢
    cases h1 : StdMap.find g.adjList fromVertex with
    | none => rfl
    | some v =>
      cases h2 : StdMap.find g.adjList toVertex with
      | none => rfl
      | some v2 =>
        simp only [h1, h2] at h ⊢
        split_ifs at h ⊢ with h3
        · rfl
        · simp at h
  | removeVertex vertex =>
    simp only [mutationThrown, applyMutation] at h ⊢
    unfold removeVertex at h ⊢
    cases h1 : StdMap.find g.adjList vertex with
    | none => rfl
    | some v => rw [h1] at h; simp at h
  | removeEdge fromVertex toVertex =>
    exact removeEdge_fail_state g fromVertex toVertex h

theorem mem_vertices_applyMutation {g : Digraph VertexInfo EdgeInfo} (hg : WellFormed g)
    (m : Mutation VertexInfo EdgeInfo) (x : Int) :
    x ∈ (g.applyMutation m).vertices ↔
      match m with
      | .addVertex vertex _ => x ∈ g.vertices ∨ x = vertex
      | .removeVertex vertex => x ∈ g.vertices ∧ x ≠ vertex
      | _ => x ∈ g.vertices := by
  cases m with
  | addVertex vertex vinfo =>
    simp only [applyMutation]
    by_cases h : (g.addVertex vertex vinfo).1 = none
    · rw [addVertex_adjList h, vertices_eq_keys, vertices_eq_keys]
      simp only
      rw [StdMap.mem_keys_set]
      tauto
    · have hsome : (g.addVertex vertex vinfo).1.isSome = true := by
        cases hx : (g.addVertex vertex vinfo).1 with
        | none => exact absurd hx h
        | some e => rfl
      have hst := (applyMutation_of_thrown g (.addVertex vertex vinfo) hsome)
      simp only [applyMutation] at hst
      rw [hst]
      have := (addVertex_fails_iff g vertex vinfo).1 hsome
      constructor
      · exact Or.inl
      · rintro (h1 | h1)
        · exact h1
        · rw [h1]; exact this
  | removeVertex vertex =>
    simp only [applyMutation]
    by_cases h : vertex ∈ g.vertices
    · rw [vertices_eq_keys, removeVertex_adjList hg h,
        keys_map_edges _ (fun es => es.filter (fun e => !decide (e.toVertex = vertex))),
        StdMap.keys_erase_eq_filter vertex hg.keys_sorted, vertices_eq_keys, List.mem_filter]
      simp
    · have hsome := (removeVertex_fails_iff g vertex).2 h
      have hst := (applyMutation_of_thrown g (.removeVertex vertex) hsome)
      simp only [applyMutation] at hst
      rw [hst]
      constructor
      · intro hx
        exact ⟨hx, fun e => h (e ▸ hx)⟩
      · exact fun hx => hx.1
  | addEdge fromVertex toVertex einfo =>
    simp only [applyMutation]
    by_cases h : (g.addEdge fromVertex toVertex einfo).1 = none
    · obtain ⟨_, _, _, _, _, hst⟩ := addEdge_success h
      rw [hst, vertices_eq_keys, vertices_eq_keys]
      simp only
      rw [StdMap.keys_modify]
    · have hsome : (g.addEdge fromVertex toVertex einfo).1.isSome = true := by
        cases hx : (g.addEdge fromVertex toVertex einfo).1 with
        | none => exact absurd hx h
        | some e => rfl
      have hst := (applyMutation_of_thrown g (.addEdge fromVertex toVertex einfo) hsome)
      simp only [applyMutation] at hst
      rw [hst]
  | removeEdge fromVertex toVertex =>
    simp only [applyMutation]
    by_cases h : (g.removeEdge fromVertex toVertex).1 = none
    · obtain ⟨_, _, _, _, hst⟩ := removeEdge_success h
      rw [hst, vertices_eq_keys, vertices_eq_keys]
      simp only
      rw [StdMap.keys_modify]
    · have hsome : (g.removeEdge fromVertex toVertex).1.isSome = true := by
        cases hx : (g.removeEdge fromVertex toVertex).1 with
        | none => exact absurd hx h
        | some e => rfl
      rw [removeEdge_fail_state g fromVertex toVertex hsome]

theorem specPresent_applyMutations {g : Digraph VertexInfo EdgeInfo} (hg : WellFormed g)
    (ms : List (Mutation VertexInfo EdgeInfo)) (x : Int) (present : Bool)
    (h : x ∈ g.vertices ↔ present = true) :
    x ∈ (g.applyMutations ms).vertices ↔ specPresent x ms present = true := by
  induction ms generalizing g present with
  | nil => exact h
  | cons m t ih =>
    have hstep := mem_vertices_applyMutation hg m x
    have hg' := wellFormed_applyMutation hg m
    show x ∈ ((g.applyMutation m).applyMutations t).vertices ↔ _
    cases m with
    | addVertex vertex vinfo =>
      simp only [specPresent]
      apply ih hg'
      rw [hstep]
      simp [h]
    | removeVertex vertex =>
      simp only [specPresent]
      apply ih hg'
      rw [hstep]
      simp [h]
    | addEdge fromVertex toVertex einfo =>
      simp only [specPresent]
      exact ih hg' present (hstep.trans h)
    | removeEdge fromVertex toVertex =>
      simp only [specPresent]
      exact ih hg' present (hstep.trans h)

theorem vertexInfo_ok_iff (g : Digraph VertexInfo EdgeInfo) (x : Int) :
    (∃ p, g.vertexInfo x = .ok p) ↔ x ∈ g.vertices := by
  rw [vertices_eq_keys, ← StdMap.find_isSome_iff]
  unfold vertexInfo
  cases h : StdMap.find g.adjList x with
  | none => simp
  | some v => simp

theorem LogInv.mem_iff {g : Digraph VertexInfo EdgeInfo} {log : List (Int × Int)}
    (hL : LogInv g log) (ab : Int × Int) : ab ∈ log ↔ ab ∈ g.edges := by
  constructor
  · intro h
    obtain ⟨q, hq, hq1⟩ := List.mem_map.1 (hL.ends_mem ab h).1
    unfold edges
    rw [List.mem_flatMap]
    refine ⟨q, hq, ?_⟩
    rw [hL.list_eq q hq, List.mem_filter]
    exact ⟨h, by simp [hq1]⟩
  · intro h
    unfold edges at h
    rw [List.mem_flatMap] at h
    obtain ⟨q, hq, h⟩ := h
    rw [hL.list_eq q hq, List.mem_filter] at h
    exact h.1

theorem logInv_empty : LogInv (empty : Digraph VertexInfo EdgeInfo) [] :=
  ⟨by simp [empty], by simp⟩

theorem filter_filter_comm {α : Type} (l : List α) (p q : α → Bool) :
    (l.filter p).filter q = (l.filter q).filter p := by
  rw [List.filter_filter, List.filter_filter]
  apply List.filter_congr
  intro x _
  exact Bool.and_comm _ _

theorem logInv_addVertex {g : Digraph VertexInfo EdgeInfo} {log : List (Int × Int)}
    (hL : LogInv g log) (vertex : Int) (vinfo : VertexInfo) :
    LogInv (g.applyMutation (.addVertex vertex vinfo)) log := by
  by_cases h : (g.addVertex vertex vinfo).1 = none
  · have hk : vertex ∉ StdMap.keys g.adjList := by
      intro hin
      have := (addVertex_fails_iff g vertex vinfo).2 hin
      rw [h] at this
      exact Bool.noConfusion this
    simp only [applyMutation]
    rw [addVertex_adjList h]
    refine ⟨?_, ?_⟩
    · intro p hp
      simp only at hp
      rcases (StdMap.mem_set_iff _ hk p).1 hp with hp | hp
      · subst hp
        simp only [List.map_nil]
        symm
        apply List.filter_eq_nil_iff.2
        intro ab hab
        have : ab.1 ≠ vertex := fun e => hk (e ▸ (hL.ends_mem ab hab).1)
        simp [this]
      · exact hL.list_eq p hp
    · intro ab hab
      have := hL.ends_mem ab hab
      simp only [vertices_eq_keys] at this ⊢
      exact ⟨(StdMap.mem_keys_set _ _ _ _).2 (Or.inr this.1),
        (StdMap.mem_keys_set _ _ _ _).2 (Or.inr this.2)⟩
  · have hsome : (g.mutationThrown (.addVertex vertex vinfo)).isSome = true := by
      simp only [mutationThrown]
      cases hx : (g.addVertex vertex vinfo).1 with
      | none => exact absurd hx h
      | some e => rfl
    rw [applyMutation_of_thrown g _ hsome]
    exact hL

theorem logInv_addEdge {g : Digraph VertexInfo EdgeInfo} {log : List (Int × Int)}
    (hg : WellFormed g) (hL : LogInv g log) (u v : Int) (einfo : EdgeInfo) :
    LogInv (g.applyMutation (.addEdge u v einfo))
      (insertionLogStep g log (.addEdge u v einfo)) := by
  by_cases h : (g.addEdge u v einfo).1 = none
  · simp only [insertionLogStep, if_pos h, applyMutation]
    obtain ⟨du, dv', h1, h2, h3, hst⟩ := addEdge_success h
    have hkeys : StdMap.keys (g.addEdge u v einfo).2.adjList = StdMap.keys g.adjList := by
      rw [hst]; exact StdMap.keys_modify _ _ _
    refine ⟨?_, ?_⟩
    · intro p hp
      rw [hst] at hp
      simp only at hp
      rcases (StdMap.mem_modify_iff _ hg.keys_sorted h1 p).1 hp with ⟨hp, hne⟩ | hp
      · rw [hL.list_eq p hp, List.filter_append]
        have : ([(u, v)] : List (Int × Int)).filter (fun ab => decide (ab.1 = p.1)) = [] := by
          have hne' : ¬ u = p.1 := fun e => hne e.symm
          simp [hne']
        rw [this, List.append_nil]
      · subst hp
        simp only [List.map_append, List.map_cons, List.map_nil, List.filter_append]
        rw [hL.list_eq (u, du) (StdMap.mem_of_find_eq_some h1)]
        simp
    · intro ab hab
      rw [vertices_eq_keys, hkeys]
      rcases List.mem_append.1 hab with hab | hab
      · exact hL.ends_mem ab hab
      · rw [List.mem_singleton] at hab
        rw [hab]
        exact ⟨(StdMap.find_isSome_iff _ _).1 (by rw [h1]; rfl),
          (StdMap.find_isSome_iff _ _).1 (by rw [h2]; rfl)⟩
  · have hsome : (g.mutationThrown (.addEdge u v einfo)).isSome = true := by
      simp only [mutationThrown]
      cases hx : (g.addEdge u v einfo).1 with
      | none => exact absurd hx h
      | some e => rfl
    rw [applyMutation_of_thrown g _ hsome]
    simp only [insertionLogStep, if_neg h]
    exact hL

theorem logInv_removeVertex {g : Digraph VertexInfo EdgeInfo} {log : List (Int × Int)}
    (hg : WellFormed g) (hL : LogInv g log) (vertex : Int) :
    LogInv (g.applyMutation (.removeVertex vertex))
      (insertionLogStep g log (.removeVertex vertex)) := by
  simp only [insertionLogStep]
  by_cases h : vertex ∈ g.vertices
  · simp only [applyMutation]
    have hadj := removeVertex_adjList hg h
    refine ⟨?_, ?_⟩
    · intro p hp
      rw [hadj] at hp
      obtain ⟨q, hq, rfl⟩ := List.mem_map.1 hp
      have hq' := (StdMap.mem_erase_iff vertex hg.keys_sorted q).1 hq
      simp only
      have h1 : (q.2.edges.filter (fun e => !decide (e.toVertex = vertex))).map
          (fun e => (e.fromVertex, e.toVertex)) =
          (q.2.edges.map (fun e => (e.fromVertex, e.toVertex))).filter
            (fun ab => !decide (ab.2 = vertex)) := by
        rw [List.filter_map]; rfl
      rw [h1, hL.list_eq q hq'.1, List.filter_filter, List.filter_filter]
      apply List.filter_congr
      intro ab _
      by_cases h2 : ab.1 = q.1
      · have h3 : ¬ q.1 = vertex := hq'.2
        simp [h2, h3]
      · simp [h2]
    · intro ab hab
      rw [List.mem_filter] at hab
      have hends := hL.ends_mem ab hab.1
      have hne : ab.1 ≠ vertex ∧ ab.2 ≠ vertex := by simpa using hab.2
      have hv : (g.removeVertex vertex).2.vertices =
          g.vertices.filter (fun x => !decide (x = vertex)) := by
        rw [vertices_eq_keys, vertices_eq_keys, hadj,
          keys_map_edges _ (fun es => es.filter (fun e => !decide (e.toVertex = vertex)))]
        exact StdMap.keys_erase_eq_filter vertex hg.keys_sorted
      rw [hv]
      exact ⟨List.mem_filter.2 ⟨hends.1, by simp [hne.1]⟩,
        List.mem_filter.2 ⟨hends.2, by simp [hne.2]⟩⟩
  · have hsome : (g.mutationThrown (.removeVertex vertex)).isSome = true :=
      (removeVertex_fails_iff g vertex).2 h
    rw [applyMutation_of_thrown g _ hsome]
    have : log.filter (fun ab => !decide (ab.1 = vertex) && !decide (ab.2 = vertex)) = log := by
      apply List.filter_eq_self.2
      intro ab hab
      have hends := hL.ends_mem ab hab
      have h1 : ab.1 ≠ vertex := fun e => h (e ▸ hends.1)
      have h2 : ab.2 ≠ vertex := fun e => h (e ▸ hends.2)
      simp [h1, h2]
    rw [this]
    exact hL

theorem logInv_removeEdge {g : Digraph VertexInfo EdgeInfo} {log : List (Int × Int)}
    (hg : WellFormed g) (hL : LogInv g log) (u v : Int) :
    LogInv (g.applyMutation (.removeEdge u v))
      (insertionLogStep g log (.removeEdge u v)) := by
  simp only [insertionLogStep]
  by_cases h : (g.removeEdge u v).1 = none
  · simp only [applyMutation]
    obtain ⟨du, dv', h1, h2, hst⟩ := removeEdge_success h
    have hkeys : StdMap.keys (g.removeEdge u v).2.adjList = StdMap.keys g.adjList := by
      rw [hst]; exact StdMap.keys_modify _ _ _
    have hfrom := hg.from_eq (u, du) (StdMap.mem_of_find_eq_some h1)
    refine ⟨?_, ?_⟩
    · intro p hp
      rw [hst] at hp
      simp only at hp
      rcases (StdMap.mem_modify_iff _ hg.keys_sorted h1 p).1 hp with ⟨hp, hne⟩ | hp
      · rw [hL.list_eq p hp, List.filter_filter]
        apply List.filter_congr
        intro ab _
        by_cases h3 : ab.1 = p.1
        · have : ab ≠ (u, v) := fun e => hne (by rw [← h3, e])
          simp [h3, this]
        · simp [h3]
      · subst hp
        simp only
        have hB : (du.edges.filter (fun e => !decide (e.toVertex = v))).map
            (fun e => (e.fromVertex, e.toVertex)) =
            (du.edges.map (fun e => (e.fromVertex, e.toVertex))).filter
              (fun ab => decide (ab ≠ (u, v))) := by
          rw [List.filter_map]
          congr 1
          apply List.filter_congr
          intro e he
          have hfe : e.fromVertex = u := hfrom e he
          by_cases hev : e.toVertex = v
          · simp [hfe, hev]
          · simp [hfe, hev]
        rw [hB, hL.list_eq (u, du) (StdMap.mem_of_find_eq_some h1)]
        exact filter_filter_comm _ _ _
    · intro ab hab
      rw [vertices_eq_keys, hkeys]
      exact hL.ends_mem ab (List.mem_of_mem_filter hab)
  · have hsome : (g.removeEdge u v).1.isSome = true := by
      cases hx : (g.removeEdge u v).1 with
      | none => exact absurd hx h
      | some e => rfl
    have hsome' : (g.mutationThrown (.removeEdge u v)).isSome = true := hsome
    rw [applyMutation_of_thrown g _ hsome']
    have hnot : (u, v) ∉ log := by
      intro hin
      have hends := hL.ends_mem _ hin
      rcases (removeEdge_fails_iff hg u v).1 hsome with h1 | h1 | h1
      · exact h1 hends.1
      · exact h1 hends.2
      · exact h1 ((hL.mem_iff _).1 hin)
    have : log.filter (fun ab => decide (ab ≠ (u, v))) = log := by
      apply List.filter_eq_self.2
      intro ab hab
      have : ab ≠ (u, v) := fun e => hnot (e ▸ hab)
      simp [this]
    rw [this]
    exact hL

theorem logInv_applyMutations {g : Digraph VertexInfo EdgeInfo} {log : List (Int × Int)}
    (hg : WellFormed g) (hL : LogInv g log) (ms : List (Mutation VertexInfo EdgeInfo)) :
    LogInv (g.applyMutations ms) (insertionLog g log ms) := by
  induction ms generalizing g log with
  | nil => exact hL
  | cons m t ih =>
    show LogInv ((g.applyMutation m).applyMutations t)
      (insertionLog (g.applyMutation m) (insertionLogStep g log m) t)
    apply ih (wellFormed_applyMutation hg m)
    cases m with
    | addVertex vertex vinfo => exact logInv_addVertex hL vertex vinfo
    | addEdge u v einfo => exact logInv_addEdge hg hL u v einfo
    | removeVertex vertex => exact logInv_removeVertex hg hL vertex
    | removeEdge u v => exact logInv_removeEdge hg hL u v

theorem edges_eq_of_logInv {g : Digraph VertexInfo EdgeInfo} {log : List (Int × Int)}
    (hL : LogInv g log) :
    g.edges = g.vertices.flatMap (fun s => log.filter (fun ab => decide (ab.1 = s))) := by
  unfold edges vertices
  have hl := hL.list_eq
  generalize g.adjList = m at hl
  induction m with
  | nil => rfl
  | cons q t ih =>
    rw [List.flatMap_cons, List.map_cons, List.flatMap_cons, hl q (List.mem_cons_self _ _),
      ih (fun p hp => hl p (List.mem_cons_of_mem _ hp))]

theorem pairwise_fst_edges {g : Digraph VertexInfo EdgeInfo} (hg : WellFormed g) :
    (g.edges.map (fun ab => ab.1)).Pairwise (fun x y => x ≤ y) := by
  unfold edges
  have hs := hg.keys_sorted
  have hf := hg.from_eq
  generalize g.adjList = m at hs hf
  induction m with
  | nil => exact List.Pairwise.nil
  | cons q t ih =>
    simp only [StdMap.keys, List.map_cons, List.pairwise_cons] at hs
    rw [List.flatMap_cons, List.map_append, List.pairwise_append]
    have hq : ∀ x ∈ (q.2.edges.map (fun e => (e.fromVertex, e.toVertex))).map
        (fun ab => ab.1), x = q.1 := by
      intro x hx
      obtain ⟨ab, hab, rfl⟩ := List.mem_map.1 hx
      obtain ⟨e, he, rfl⟩ := List.mem_map.1 hab
      exact hf q (List.mem_cons_self _ _) e he
    refine ⟨?_, ih hs.2 (fun p hp => hf p (List.mem_cons_of_mem _ hp)), ?_⟩
    · apply List.pairwise_of_forall_mem_list
      intro a ha b hb
      rw [hq a ha, hq b hb]
    · intro a ha b hb
      rw [hq a ha]
      obtain ⟨ab, hab, rfl⟩ := List.mem_map.1 hb
      obtain ⟨p, hp, hab⟩ := List.mem_flatMap.1 hab
      obtain ⟨e, he, rfl⟩ := List.mem_map.1 hab
      show q.1 ≤ e.fromVertex
      rw [hf p (List.mem_cons_of_mem _ hp) e he]
      exact le_of_lt (hs.1 p.1 (List.mem_map.2 ⟨p, hp, rfl⟩))

theorem edges_split_fst {g : Digraph VertexInfo EdgeInfo} (hg : WellFormed g) {u : Int}
    {du : DigraphVertex VertexInfo EdgeInfo} (h1 : StdMap.find g.adjList u = some du) :
    ∃ A C : List (Int × Int),
      g.edges = A ++ (du.edges.map (fun e => (e.fromVertex, e.toVertex)) ++ C) ∧
      (∀ ab ∈ A, ab.1 ≠ u) ∧ (∀ ab ∈ C, ab.1 ≠ u) ∧
      (∀ ab ∈ du.edges.map (fun e => (e.fromVertex, e.toVertex)), ab.1 = u) := by
  obtain ⟨pre, post, hsplit, hpre⟩ := StdMap.find_split h1
  have hks := hg.keys_sorted
  rw [hsplit] at hks
  simp only [StdMap.keys, List.map_append, List.map_cons, List.pairwise_append,
    List.pairwise_cons] at hks
  have hfrom : ∀ q ∈ pre ++ (u, du) :: post, ∀ e ∈ q.2.edges, e.fromVertex = q.1 := by
    rw [← hsplit]; exact hg.from_eq
  refine ⟨_, _, edges_split hsplit, ?_, ?_, ?_⟩
  · intro ab hab
    obtain ⟨q, hq, hab⟩ := List.mem_flatMap.1 hab
    obtain ⟨e, he, rfl⟩ := List.mem_map.1 hab
    show e.fromVertex ≠ u
    rw [hfrom q (List.mem_append_left _ hq) e he]
    intro e'
    exact hpre (List.mem_map.2 ⟨q, hq, e'⟩)
  · intro ab hab
    obtain ⟨q, hq, hab⟩ := List.mem_flatMap.1 hab
    obtain ⟨e, he, rfl⟩ := List.mem_map.1 hab
    show e.fromVertex ≠ u
    rw [hfrom q (List.mem_append_right _ (List.mem_cons_of_mem _ hq)) e he]
    exact ne_of_gt (hks.2.1.1 q.1 (List.mem_map.2 ⟨q, hq, rfl⟩))
  · intro ab hab
    obtain ⟨e, he, rfl⟩ := List.mem_map.1 hab
    exact hfrom (u, du) (by simp) e he

theorem edgesOf_eq_filter {g : Digraph VertexInfo EdgeInfo} (hg : WellFormed g) {v : Int}
    (hv : v ∈ g.vertices) :
    g.edgesOf v = .ok (g.edges.filter (fun ab => decide (ab.1 = v))) := by
  rw [vertices_eq_keys, ← StdMap.find_isSome_iff] at hv
  obtain ⟨dv, h1⟩ := Option.isSome_iff_exists.1 hv
  obtain ⟨A, C, hE, hA, hC, hB⟩ := edges_split_fst hg h1
  have fA : A.filter (fun ab => decide (ab.1 = v)) = [] :=
    List.filter_eq_nil_iff.2 (fun ab hab => by simp [hA ab hab])
  have fC : C.filter (fun ab => decide (ab.1 = v)) = [] :=
    List.filter_eq_nil_iff.2 (fun ab hab => by simp [hC ab hab])
  have fB : (dv.edges.map (fun e => (e.fromVertex, e.toVertex))).filter
      (fun ab => decide (ab.1 = v)) = dv.edges.map (fun e => (e.fromVertex, e.toVertex)) :=
    List.filter_eq_self.2 (fun ab hab => by simp [hB ab hab])
  simp only [edgesOf, h1]
  rw [hE, List.filter_append, List.filter_append, fA, fB, fC]
  simp

theorem edgeInfo_eq_ok_iff (g : Digraph VertexInfo EdgeInfo) (u v : Int) (x : EdgeInfo) :
    g.edgeInfo u v = .ok x ↔
      ∃ du, StdMap.find g.adjList u = some du ∧ (StdMap.find g.adjList v).isSome = true ∧
        edgeInfoLoop du.edges v = some x := by
  unfold edgeInfo
  cases h1 : StdMap.find g.adjList u with
  | none => simp
  | some du =>
    cases h2 : StdMap.find g.adjList v with
    | none => simp
    | some dv =>
      simp only [Option.some.injEq, Option.isSome_some, true_and, exists_eq_left']
      cases h3 : edgeInfoLoop du.edges v with
      | none => simp
      | some y => simp

theorem addVertex_find {g : Digraph VertexInfo EdgeInfo} {vertex : Int} {vinfo : VertexInfo}
    (h : (g.addVertex vertex vinfo).1 = none) (y : Int) :
    StdMap.find (g.addVertex vertex vinfo).2.adjList y =
      if y = vertex then some { vinfo := vinfo, edges := [] } else StdMap.find g.adjList y := by
  rw [addVertex_adjList h]
  exact StdMap.find_set _ _ _ _

theorem addEdge_find {g : Digraph VertexInfo EdgeInfo} {u v : Int} {p : EdgeInfo}
    (h : (g.addEdge u v p).1 = none) :
    ∃ du, StdMap.find g.adjList u = some du ∧ (StdMap.find g.adjList v).isSome = true ∧
      hasEdge du.edges u v = false ∧
      ∀ x, StdMap.find (g.addEdge u v p).2.adjList x =
        if x = u then some { du with edges := du.edges ++ [⟨u, v, p⟩] }
        else StdMap.find g.adjList x := by
  obtain ⟨du, dv', h1, h2, h3, hst⟩ := addEdge_success h
  refine ⟨du, h1, by rw [h2]; rfl, h3, ?_⟩
  intro x
  rw [hst]
  simp only
  rw [StdMap.find_modify, h1]
  rfl

theorem removeEdge_find {g : Digraph VertexInfo EdgeInfo} {u v : Int}
    (h : (g.removeEdge u v).1 = none) :
    ∃ du, StdMap.find g.adjList u = some du ∧ (StdMap.find g.adjList v).isSome = true ∧
      ∀ x, StdMap.find (g.removeEdge u v).2.adjList x =
        if x = u then some { du with
          edges := du.edges.filter (fun e => !decide (e.toVertex = v)) }
        else StdMap.find g.adjList x := by
  obtain ⟨du, dv', h1, h2, hst⟩ := removeEdge_success h
  refine ⟨du, h1, by rw [h2]; rfl, ?_⟩
  intro x
  rw [hst]
  simp only
  rw [StdMap.find_modify, h1]
  rfl

theorem removeVertex_find {g : Digraph VertexInfo EdgeInfo} (hg : WellFormed g) {vertex : Int}
    (hv : vertex ∈ g.vertices) (x : Int) :
    StdMap.find (g.removeVertex vertex).2.adjList x =
      if x = vertex then none
      else (StdMap.find g.adjList x).map (fun dv => ({ dv with
        edges := dv.edges.filter (fun e => !decide (e.toVertex = vertex)) } :
          DigraphVertex VertexInfo EdgeInfo)) := by
  rw [removeVertex_adjList hg hv]
  split_ifs with hx
  · rw [StdMap.find_eq_none_iff, hx,
      keys_map_edges _ (fun es => es.filter (fun e => !decide (e.toVertex = vertex)))]
    exact StdMap.not_mem_keys_erase vertex hg.keys_sorted
  · rw [StdMap.find_map_snd (StdMap.erase g.adjList vertex)
      (fun dv => ({ dv with edges := dv.edges.filter (fun e => !decide (e.toVertex = vertex)) } :
          DigraphVertex VertexInfo EdgeInfo)) x, StdMap.find_erase_of_ne _ hx]

theorem isSome_of_thrown_ne_none {o : Option Thrown} (h : ¬ o = none) : o.isSome = true := by
  cases o with
  | none => exact absurd rfl h
  | some e => rfl

/-- A payload read by `edgeInfo` after one mutator call was either given to
that very call, a successful `addEdge` of the same pair, or was read by
`edgeInfo` before the call. -/
theorem edgeInfo_applyMutation {g : Digraph VertexInfo EdgeInfo} (hg : WellFormed g)
    (m : Mutation VertexInfo EdgeInfo) (u v : Int) (x : EdgeInfo)
    (h : (g.applyMutation m).edgeInfo u v = .ok x) :
    (m = .addEdge u v x ∧ (g.addEdge u v x).1 = none) ∨ g.edgeInfo u v = .ok x := by
  by_cases hthrown : g.mutationThrown m = none
  swap
  · rw [applyMutation_of_thrown g m (isSome_of_thrown_ne_none hthrown)] at h
    exact Or.inr h
  rw [edgeInfo_eq_ok_iff] at h
  obtain ⟨du', h1, h2, h3⟩ := h
  cases m with
  | addVertex vertex vinfo =>
    right
    simp only [mutationThrown] at hthrown
    simp only [applyMutation] at h1 h2
    have hk : vertex ∉ StdMap.keys g.adjList := by
      intro hin
      have := (addVertex_fails_iff g vertex vinfo).2 hin
      rw [hthrown] at this
      exact Bool.noConfusion this
    rw [addVertex_find hthrown] at h1 h2
    have hu : u ≠ vertex := by
      intro e
      rw [if_pos e] at h1
      have : du'.edges = [] := by rw [← Option.some.inj h1]
      rw [this] at h3
      simp [edgeInfoLoop] at h3
    rw [if_neg hu] at h1
    have hv : v ≠ vertex := by
      intro e
      obtain ⟨e', he', h4, -⟩ := edgeInfoLoop_eq_some h3
      have := hg.to_mem _ (StdMap.mem_of_find_eq_some h1) e' he'
      rw [h4, e] at this
      exact hk this
    rw [if_neg hv] at h2
    exact (edgeInfo_eq_ok_iff g u v x).2 ⟨du', h1, h2, h3⟩
  | addEdge a b p =>
    simp only [mutationThrown] at hthrown
    simp only [applyMutation] at h1 h2
    obtain ⟨da, ha1, ha2, ha3, hfind⟩ := addEdge_find hthrown
    have hv : (StdMap.find g.adjList v).isSome = true := by
      rw [hfind] at h2
      split_ifs at h2 with hva
      · rw [hva, ha1]; rfl
      · exact h2
    rw [hfind] at h1
    by_cases hua : u = a
    · rw [if_pos hua] at h1
      have hd : du'.edges = da.edges ++ [⟨a, b, p⟩] := by rw [← Option.some.inj h1]
      rw [hd, edgeInfoLoop_append] at h3
      cases h4 : edgeInfoLoop da.edges v with
      | some y =>
        rw [h4] at h3
        right
        exact (edgeInfo_eq_ok_iff g u v x).2 ⟨da, by rw [hua]; exact ha1, hv, by rw [h4]; exact h3⟩
      | none =>
        rw [h4] at h3
        simp only at h3
        split_ifs at h3 with hbv
        simp only [Option.some.injEq] at h3
        left
        refine ⟨?_, ?_⟩
        · rw [hua, ← hbv, ← h3]
        · rw [hua, ← hbv, ← h3]; exact hthrown
    · rw [if_neg hua] at h1
      right
      exact (edgeInfo_eq_ok_iff g u v x).2 ⟨du', h1, hv, h3⟩
  | removeVertex vertex =>
    right
    simp only [mutationThrown] at hthrown
    simp only [applyMutation] at h1 h2
    have hin : vertex ∈ g.vertices := by
      by_contra hn
      have := (removeVertex_fails_iff g vertex).2 hn
      rw [hthrown] at this
      exact Bool.noConfusion this
    rw [removeVertex_find hg hin] at h1 h2
    have hu : u ≠ vertex := by
      intro e; rw [if_pos e] at h1; cases h1
    have hv : v ≠ vertex := by
      intro e; rw [if_pos e] at h2; exact Bool.noConfusion h2
    rw [if_neg hu] at h1
    rw [if_neg hv] at h2
    cases hfu : StdMap.find g.adjList u with
    | none => rw [hfu] at h1; cases h1
    | some du =>
      rw [hfu] at h1
      have hd : du'.edges = du.edges.filter (fun e => !decide (e.toVertex = vertex)) := by
        rw [← Option.some.inj h1]
      rw [hd, edgeInfoLoop_filter du.edges hv] at h3
      refine (edgeInfo_eq_ok_iff g u v x).2 ⟨du, hfu, ?_, h3⟩
      cases hfv : StdMap.find g.adjList v with
      | none => rw [hfv] at h2; exact Bool.noConfusion h2
      | some dv => rfl
  | removeEdge a b =>
    right
    simp only [mutationThrown] at hthrown
    simp only [applyMutation] at h1 h2
    obtain ⟨da, ha1, ha2, hfind⟩ := removeEdge_find hthrown
    have hv : (StdMap.find g.adjList v).isSome = true := by
      rw [hfind] at h2
      split_ifs at h2 with hva
      · rw [hva, ha1]; rfl
      · exact h2
    rw [hfind] at h1
    by_cases hua : u = a
    · rw [if_pos hua] at h1
      have hd : du'.edges = da.edges.filter (fun e => !decide (e.toVertex = b)) := by
        rw [← Option.some.inj h1]
      rw [hd] at h3
      have hvb : v ≠ b := by
        intro e
        obtain ⟨e', he', h4, -⟩ := edgeInfoLoop_eq_some h3
        have := (List.mem_filter.1 he').2
        simp [h4, e] at this
      rw [edgeInfoLoop_filter da.edges hvb] at h3
      exact (edgeInfo_eq_ok_iff g u v x).2 ⟨da, by rw [hua]; exact ha1, hv, h3⟩
    · rw [if_neg hua] at h1
      exact (edgeInfo_eq_ok_iff g u v x).2 ⟨du', h1, hv, h3⟩

theorem applyMutations_snoc (g : Digraph VertexInfo EdgeInfo)
    (ms : List (Mutation VertexInfo EdgeInfo)) (m : Mutation VertexInfo EdgeInfo) :
    applyMutations g (ms ++ [m]) = (applyMutations g ms).applyMutation m := by
  unfold applyMutations
  rw [List.foldl_append]
  rfl

theorem find_isSome_iff_mem_vertices (g : Digraph VertexInfo EdgeInfo) (v : Int) :
    (StdMap.find g.adjList v).isSome = true ↔ v ∈ g.vertices := by
  rw [vertices_eq_keys, StdMap.find_isSome_iff]

theorem find_eq_none_iff_not_mem_vertices (g : Digraph VertexInfo EdgeInfo) (v : Int) :
    StdMap.find g.adjList v = none ↔ v ∉ g.vertices := by
  rw [vertices_eq_keys, StdMap.find_eq_none_iff]

theorem edgesOf_error_iff (g : Digraph VertexInfo EdgeInfo) (v : Int) :
    (∃ e, g.edgesOf v = .error e) ↔ v ∉ g.vertices := by
  rw [← find_eq_none_iff_not_mem_vertices]
  unfold edgesOf
  cases h : StdMap.find g.adjList v with
  | none => simp
  | some d => simp

theorem vertexInfo_error_iff (g : Digraph VertexInfo EdgeInfo) (v : Int) :
    (∃ e, g.vertexInfo v = .error e) ↔ v ∉ g.vertices := by
  rw [← find_eq_none_iff_not_mem_vertices]
  unfold vertexInfo
  cases h : StdMap.find g.adjList v with
  | none => simp
  | some d => simp

theorem edgeCountOf_error_iff (g : Digraph VertexInfo EdgeInfo) (v : Int) :
    (∃ e, g.edgeCountOf v = .error e) ↔ v ∉ g.vertices := by
  rw [← find_eq_none_iff_not_mem_vertices]
  unfold edgeCountOf
  cases h : StdMap.find g.adjList v with
  | none => simp
  | some d => simp

theorem edgeInfo_of_not_mem (g : Digraph VertexInfo EdgeInfo) (u v : Int)
    (h : u ∉ g.vertices ∨ v ∉ g.vertices) :
    g.edgeInfo u v =
      .error (.DigraphException "Digraph edgeInfo(): either of vertices does not exist.") := by
  rw [← find_eq_none_iff_not_mem_vertices, ← find_eq_none_iff_not_mem_vertices] at h
  unfold edgeInfo
  rcases h with h | h
  · rw [h]
  · rw [h]
    cases StdMap.find g.adjList u <;> rfl

theorem edgeInfo_of_not_mem_edges {g : Digraph VertexInfo EdgeInfo} (hg : WellFormed g)
    {u v : Int} (hu : u ∈ g.vertices) (hv : v ∈ g.vertices) (h : (u, v) ∉ g.edges) :
    g.edgeInfo u v =
      .error (.DigraphException "Digraph edgeInfo(): the edge does not exist.") := by
  rw [← find_isSome_iff_mem_vertices] at hu hv
  unfold edgeInfo
  cases h1 : StdMap.find g.adjList u with
  | none => rw [h1] at hu; exact Bool.noConfusion hu
  | some du =>
    cases h2 : StdMap.find g.adjList v with
    | none => rw [h2] at hv; exact Bool.noConfusion hv
    | some dv =>
      have : edgeInfoLoop du.edges v = none := by
        rw [edgeInfoLoop_eq_none_iff]
        intro hin
        exact h ((mem_edges_iff hg u v).2 ⟨du, h1, hin⟩)
      simp only [this]

theorem edgeInfo_of_mem_edges {g : Digraph VertexInfo EdgeInfo} (hg : WellFormed g)
    {u v : Int} (h : (u, v) ∈ g.edges) : ∃ x, g.edgeInfo u v = .ok x := by
  obtain ⟨du, h1, h2⟩ := (mem_edges_iff hg u v).1 h
  have hv : (StdMap.find g.adjList v).isSome = true := by
    rw [StdMap.find_isSome_iff]
    obtain ⟨e, he, hev⟩ := List.mem_map.1 h2
    have := hg.to_mem _ (StdMap.mem_of_find_eq_some h1) e he
    rw [hev] at this
    exact this
  cases h3 : edgeInfoLoop du.edges v with
  | none => exact absurd h2 ((edgeInfoLoop_eq_none_iff _ _).1 h3)
  | some x => exact ⟨x, (edgeInfo_eq_ok_iff g u v x).2 ⟨du, h1, hv, h3⟩⟩

theorem mem_edges_of_edgeInfo {g : Digraph VertexInfo EdgeInfo} (hg : WellFormed g)
    {u v : Int} {x : EdgeInfo} (h : g.edgeInfo u v = .ok x) : (u, v) ∈ g.edges := by
  obtain ⟨du, h1, -, h3⟩ := (edgeInfo_eq_ok_iff g u v x).1 h
  refine (mem_edges_iff hg u v).2 ⟨du, h1, ?_⟩
  by_contra hn
  rw [← edgeInfoLoop_eq_none_iff, h3] at hn
  cases hn

/-- Every payload read by `edgeInfo` on a graph built from the empty one was
given to a successful `addEdge` call of the history, and the edge has carried
that payload after every later call. -/
theorem edgeInfo_history (ms : List (Mutation VertexInfo EdgeInfo)) (u v : Int) (x : EdgeInfo)
    (h : (applyMutations (empty : Digraph VertexInfo EdgeInfo) ms).edgeInfo u v = .ok x) :
    ∃ pre post, ms = pre ++ Mutation.addEdge u v x :: post ∧
      ((applyMutations (empty : Digraph VertexInfo EdgeInfo) pre).addEdge u v x).1 = none ∧
      ∀ post1 post2, post = post1 ++ post2 →
        (applyMutations (empty : Digraph VertexInfo EdgeInfo)
          (pre ++ Mutation.addEdge u v x :: post1)).edgeInfo u v = .ok x := by
  induction ms using List.reverseRecOn with
  | nil =>
    exfalso
    have := (edgeInfo_eq_ok_iff _ u v x).1 h
    obtain ⟨du, h1, -⟩ := this
    simp [applyMutations, empty, StdMap.find] at h1
  | append_singleton ms m ih =>
    have hstep := h
    rw [applyMutations_snoc] at hstep
    rcases edgeInfo_applyMutation (Built.wellFormed ⟨ms, rfl⟩) m u v x hstep with ⟨hm, hs⟩ | hold
    · refine ⟨ms, [], by rw [hm], hs, ?_⟩
      intro post1 post2 hp
      have : post1 = [] := (List.append_eq_nil.1 hp.symm).1
      rw [this, ← hm]
      exact h
    · obtain ⟨pre, post, hms, hs, hall⟩ := ih hold
      refine ⟨pre, post ++ [m], by rw [hms]; simp, hs, ?_⟩
      intro post1 post2 hp
      rcases List.eq_nil_or_concat post2 with h2 | ⟨L, b, h2⟩
      · rw [h2, List.append_nil] at hp
        rw [← hp]
        have : pre ++ Mutation.addEdge u v x :: (post ++ [m]) = ms ++ [m] := by
          rw [hms]; simp
        rw [this]
        exact h
      · rw [h2, List.concat_eq_append, ← List.append_assoc] at hp
        have := List.append_inj_left' hp rfl
        exact hall post1 L this

theorem SameQueries.of_eq {g h : Digraph VertexInfo EdgeInfo} (e : g = h) : SameQueries g h := by
  subst e
  exact ⟨rfl, rfl, fun _ => rfl, fun _ => rfl, fun _ _ => rfl, rfl, rfl, fun _ => rfl⟩

theorem copyEntries_eq (m : List (Int × DigraphVertex VertexInfo EdgeInfo)) :
    ∀ tempList : List (Int × DigraphVertex VertexInfo EdgeInfo),
      (StdMap.keys (tempList ++ m)).Pairwise (fun a b => a < b) →
      copyEntries m tempList = tempList ++ m := by
  induction m with
  | nil => intro tempList _; simp [copyEntries]
  | cons q rest ih =>
    intro tempList h
    obtain ⟨num, vertex⟩ := q
    have hlt : ∀ x ∈ StdMap.keys tempList, x < num := by
      intro x hx
      simp only [StdMap.keys, List.map_append, List.map_cons, List.pairwise_append] at h
      exact h.2.2 x hx num (List.mem_cons_self _ _)
    simp only [copyEntries]
    rw [StdMap.set_eq_append vertex hlt, ih (tempList ++ [(num, vertex)]) (by simpa using h)]
    simp

theorem copyEntries_nil {g : Digraph VertexInfo EdgeInfo} (hg : WellFormed g) :
    copyEntries g.adjList [] = g.adjList := by
  rw [copyEntries_eq g.adjList [] (by simpa using hg.keys_sorted)]
  rfl

theorem copyConstruct_eq {d : Digraph VertexInfo EdgeInfo} (hd : WellFormed d) :
    copyConstruct d = (d, d) := by
  unfold copyConstruct
  rw [copyEntries_nil hd]

theorem copyAssign_eq (self : Digraph VertexInfo EdgeInfo) {d : Digraph VertexInfo EdgeInfo}
    (hd : WellFormed d) : copyAssign self d = (d, d) := by
  unfold copyAssign
  rw [copyEntries_nil hd]

theorem moveConstruct_eq (d : Digraph VertexInfo EdgeInfo) : moveConstruct d = (d, empty) := rfl

theorem applyCalls_eq (cs : List (Obj × Mutation VertexInfo EdgeInfo)) :
    ∀ p : Digraph VertexInfo EdgeInfo × Digraph VertexInfo EdgeInfo,
      applyCalls p cs =
        (applyMutations p.1 (callsOn .target cs), applyMutations p.2 (callsOn .source cs)) := by
  induction cs with
  | nil => intro p; rfl
  | cons c t ih =>
    intro p
    obtain ⟨o, m⟩ := c
    have h : applyCalls p ((o, m) :: t) = applyCalls (applyCall p (o, m)) t := rfl
    rw [h, ih]
    cases o <;> rfl

theorem callsOn_map_target (ms : List (Mutation VertexInfo EdgeInfo)) :
    callsOn .target (ms.map (fun m => (Obj.target, m))) = ms ∧
    callsOn .source (ms.map (fun m => (Obj.target, m))) = [] := by
  induction ms with
  | nil => exact ⟨rfl, rfl⟩
  | cons m t ih =>
    refine ⟨?_, ?_⟩
    · show m :: callsOn .target (t.map (fun m => (Obj.target, m))) = m :: t
      rw [ih.1]
    · exact ih.2

end Digraph

namespace Digraph

variable {VertexInfo EdgeInfo W : Type} [DoubleOps W]

theorem moveAssign_eq (self d : Digraph VertexInfo EdgeInfo) : moveAssign self d = (d, self) := rfl

theorem counts_of_wellFormed {g : Digraph VertexInfo EdgeInfo} (hg : WellFormed g) :
    g.vertexCount = (g.vertices.length : Int) ∧ g.edgeCount = (g.edges.length : Int) := by
  refine ⟨?_, ?_⟩
  · show g.vertexCount_ = _
    rw [hg.vertexCount_eq, vertices_eq_keys]
    simp [StdMap.keys]
  · show g.edgeCount_ = _
    rw [hg.edgeCount_eq, length_edges]

theorem relaxEdge_length_pq_ge (edgeWeightFunc : EdgeInfo → W) (vNum : Int)
    (st : ShortestPathsState W) (e : DigraphEdge EdgeInfo) :
    st.pq.length ≤ (relaxEdge edgeWeightFunc vNum st e).pq.length := by
  unfold relaxEdge
  simp only
  split_ifs
  · simp [StdHeap.length_push]
  · exact le_refl _

theorem foldl_relaxEdge_length_pq_ge (edgeWeightFunc : EdgeInfo → W) (vNum : Int)
    (es : List (DigraphEdge EdgeInfo)) (st : ShortestPathsState W) :
    st.pq.length ≤ (es.foldl (relaxEdge edgeWeightFunc vNum) st).pq.length := by
  induction es generalizing st with
  | nil => exact le_refl _
  | cons e t ih =>
    rw [List.foldl_cons]
    exact le_trans (relaxEdge_length_pq_ge edgeWeightFunc vNum st e) (ih _)

theorem shortestPathsStep_skip (g : Digraph VertexInfo EdgeInfo) (edgeWeightFunc : EdgeInfo → W)
    (st : ShortestPathsState W) (h : st.settled (StdHeap.top st.pq) = true) :
    shortestPathsStep g edgeWeightFunc st =
      .ok { st with pq := StdHeap.pop (compare st.d) st.pq } := by
  unfold ShortestPathsState.settled at h
  unfold shortestPathsStep
  simp [h]

theorem shortestPathsStep_length_pq {g : Digraph VertexInfo EdgeInfo}
    {edgeWeightFunc : EdgeInfo → W} {st st' : ShortestPathsState W} (hne : st.pq ≠ [])
    (h : shortestPathsStep g edgeWeightFunc st = .ok st') :
    st.pq.length ≤ st'.pq.length + 1 := by
  have hp := StdHeap.length_pop (compare st.d) st.pq hne
  rcases shortestPathsStep_cases h with ⟨-, h1⟩ | ⟨-, dv, -, h1⟩
  · rw [h1]
    simp only
    omega
  · rw [h1]
    have := foldl_relaxEdge_length_pq_ge edgeWeightFunc (StdHeap.top st.pq) dv.edges
      { st with
        pq := StdHeap.pop (compare st.d) st.pq
        k := StdMap.set st.k (StdHeap.top st.pq) true }
    simp only at this
    omega

theorem shortestPathsStep_settled {g : Digraph VertexInfo EdgeInfo}
    {edgeWeightFunc : EdgeInfo → W} {st st' : ShortestPathsState W}
    (h : shortestPathsStep g edgeWeightFunc st = .ok st') :
    st'.settled (StdHeap.top st.pq) = true ∧
      ∀ v, st.settled v = true → st'.settled v = true := by
  rcases shortestPathsStep_cases h with ⟨h0, h1⟩ | ⟨-, dv, -, h1⟩
  · rw [h1]
    exact ⟨h0, fun v hv => hv⟩
  · have hk : st'.k = StdMap.set st.k (StdHeap.top st.pq) true := by
      rw [h1, foldl_relaxEdge_k]
    unfold ShortestPathsState.settled
    rw [hk]
    refine ⟨?_, ?_⟩
    · rw [StdMap.get_set]; simp
    · intro v hv
      rw [StdMap.get_set]
      split_ifs
      · rfl
      · exact hv

theorem length_shortestPathsEvents_le (g : Digraph VertexInfo EdgeInfo)
    (edgeWeightFunc : EdgeInfo → W) (fuel : Nat) (st : ShortestPathsState W) :
    (shortestPathsEvents g edgeWeightFunc fuel st).length ≤ fuel := by
  induction fuel generalizing st with
  | zero => simp [shortestPathsEvents]
  | succ n ih =>
    unfold shortestPathsEvents
    split_ifs with h
    · simp
    · cases h1 : shortestPathsStep g edgeWeightFunc st with
      | error e => simp
      | ok st' =>
        simp only [List.length_cons]
        exact Nat.succ_le_succ (ih st')

theorem shortestPathsEvents_unskipped (g : Digraph VertexInfo EdgeInfo)
    (edgeWeightFunc : EdgeInfo → W) (fuel : Nat) (st : ShortestPathsState W) :
    (((shortestPathsEvents g edgeWeightFunc fuel st).filter (fun e => !e.skipped)).map
        (fun e => e.vertex)).Nodup ∧
      ∀ e ∈ shortestPathsEvents g edgeWeightFunc fuel st, e.skipped = false →
        st.settled e.vertex = false := by
  induction fuel generalizing st with
  | zero => simp [shortestPathsEvents]
  | succ n ih =>
    unfold shortestPathsEvents
    split_ifs with h
    · simp
    · cases h1 : shortestPathsStep g edgeWeightFunc st with
      | error e => simp
      | ok st' =>
        obtain ⟨ihn, ihs⟩ := ih st'
        obtain ⟨htop, hmono⟩ := shortestPathsStep_settled h1
        have hold : ∀ e ∈ shortestPathsEvents g edgeWeightFunc n st', e.skipped = false →
            st.settled e.vertex = false := by
          intro e he hsk
          cases hv : st.settled e.vertex with
          | false => rfl
          | true =>
            have := hmono _ hv
            rw [ihs e he hsk] at this
            exact Bool.noConfusion this
        simp only
        refine ⟨?_, ?_⟩
        · rw [List.filter_cons]
          split_ifs with hsk
          · rw [List.map_cons, List.nodup_cons]
            refine ⟨?_, ihn⟩
            intro hin
            obtain ⟨e, he, hev⟩ := List.mem_map.1 hin
            obtain ⟨he1, he2⟩ := List.mem_filter.1 he
            have h3 := ihs e he1 (by simpa using he2)
            simp only at hev
            rw [hev, htop] at h3
            exact Bool.noConfusion h3
          · exact ihn
        · intro e he hsk
          rcases List.mem_cons.1 he with rfl | he'
          · exact hsk
          · exact hold e he' hsk

theorem shortestPathsEvents_skipped (g : Digraph VertexInfo EdgeInfo)
    (edgeWeightFunc : EdgeInfo → W) (fuel : Nat) (st : ShortestPathsState W) :
    ∀ e ∈ shortestPathsEvents g edgeWeightFunc fuel st, e.skipped = true → e.pushed = 0 := by
  induction fuel generalizing st with
  | zero => simp [shortestPathsEvents]
  | succ n ih =>
    unfold shortestPathsEvents
    split_ifs with h
    · simp
    · cases h1 : shortestPathsStep g edgeWeightFunc st with
      | error e => simp
      | ok st' =>
        intro e he hsk
        rcases List.mem_cons.1 he with rfl | he'
        · simp only at hsk ⊢
          have h2 := shortestPathsStep_skip g edgeWeightFunc st hsk
          rw [h1] at h2
          rw [Except.ok.inj h2]
          have hp := StdHeap.length_pop (compare st.d) st.pq h
          simp only
          omega
        · exact ih st' e he' hsk

theorem shortestPathsEvents_run (g : Digraph VertexInfo EdgeInfo)
    (edgeWeightFunc : EdgeInfo → W) (fuel : Nat) (st r : ShortestPathsState W)
    (h : shortestPathsLoop g edgeWeightFunc fuel st = some (.ok r)) :
    st.pq.length + ((shortestPathsEvents g edgeWeightFunc fuel st).map (fun e => e.pushed)).sum
        = (shortestPathsEvents g edgeWeightFunc fuel st).length ∧
      shortestPathsAfter g edgeWeightFunc
        (shortestPathsEvents g edgeWeightFunc fuel st).length st = .ok r ∧
      r.pq = [] := by
  induction fuel generalizing st with
  | zero =>
    unfold shortestPathsLoop at h
    split_ifs at h with h0
    have hr : st = r := Except.ok.inj (Option.some.inj h)
    subst hr
    simp [shortestPathsEvents, shortestPathsAfter, h0]
  | succ n ih =>
    unfold shortestPathsLoop at h
    unfold shortestPathsEvents
    split_ifs at h ⊢ with h0
    · have hr : st = r := Except.ok.inj (Option.some.inj h)
      subst hr
      simp [shortestPathsAfter, h0]
    · cases h1 : shortestPathsStep g edgeWeightFunc st with
      | error e => rw [h1] at h; simp at h
      | ok st' =>
        rw [h1] at h
        simp only at h
        obtain ⟨i1, i2, i3⟩ := ih st' h
        have hl := shortestPathsStep_length_pq h0 h1
        simp only [List.map_cons, List.sum_cons, List.length_cons]
        refine ⟨by omega, ?_, i3⟩
        unfold shortestPathsAfter
        rw [if_neg h0, h1]
        exact i2

theorem shortestPathsLoop_entry {g : Digraph VertexInfo EdgeInfo} (hg : WellFormed g) {s : Int}
    (hs : s ∈ StdMap.keys g.adjList) (edgeWeightFunc : EdgeInfo → W) :
    ∃ r, shortestPathsLoop g edgeWeightFunc (1 + g.edges.length) (entryState g s)
        = some (.ok r) ∧
      findShortestPaths g s edgeWeightFunc = some (.ok r.result) ∧ PathsInv g s r := by
  have hfuel : (entryState g s : ShortestPathsState W).pq.length +
      pendingPushes g (entryState g s : ShortestPathsState W) ≤ 1 + g.edges.length := by
    rw [pendingPushes_entryState g s hg.keys_sorted, entryState_eq g s hg.keys_sorted]
    simp
  obtain ⟨r, h1, h2, -⟩ := shortestPathsLoop_total hg.keys_sorted edgeWeightFunc
    (fun st => PathsInv g s st) (fun st hst => hst.pq_mem)
    (fun st st' hst hne h => pathsInv_step hg hst hne h)
    (1 + g.edges.length) (entryState g s) (pathsInv_entryState hg hs) hfuel
  refine ⟨r, h1, ?_, h2⟩
  unfold findShortestPaths
  rw [findShortestPathsWithin_eq _ _ _ _ hs, h1]

theorem DFTrEdges_mono
    (rec1 rec2 : Int → TraversalState → Option (Except Thrown TraversalState))
    (h : ∀ num st r, rec1 num st = some r → rec2 num st = some r)
    (g : List (Int × DigraphVertex VertexInfo EdgeInfo)) (es : List (DigraphEdge EdgeInfo)) :
    ∀ st r, DFTrEdges rec1 g es st = some r → DFTrEdges rec2 g es st = some r := by
  induction es with
  | nil => intro st r hr; exact hr
  | cons e t ih =>
    intro st r hr
    unfold DFTrEdges at hr ⊢
    split_ifs at hr ⊢ with h1
    · exact ih st r hr
    · cases h2 : StdMap.find g e.toVertex with
      | none => rw [h2] at hr; exact hr
      | some dv =>
        rw [h2] at hr
        simp only at hr ⊢
        cases h3 : rec1 e.toVertex st with
        | none => rw [h3] at hr; cases hr
        | some x =>
          rw [h3] at hr
          rw [h e.toVertex st x h3]
          cases x with
          | error err => exact hr
          | ok st' => exact ih st' r hr

theorem DFTr_succ (g : List (Int × DigraphVertex VertexInfo EdgeInfo)) (depth : Nat) :
    ∀ num st r, DFTr g depth num st = some r → DFTr g (depth + 1) num st = some r := by
  induction depth with
  | zero => intro num st r hr; cases hr
  | succ n ih =>
    intro num st r hr
    unfold DFTr at hr ⊢
    cases h1 : StdMap.find g num with
    | none => rw [h1] at hr; exact hr
    | some dv =>
      rw [h1] at hr
      exact DFTrEdges_mono (DFTr g n) (DFTr g (n + 1)) ih g dv.edges _ r hr

theorem DFTr_mono (g : List (Int × DigraphVertex VertexInfo EdgeInfo)) {depth depth' : Nat}
    (hd : depth ≤ depth') {num : Int} {st : TraversalState}
    {r : Except Thrown TraversalState} (h : DFTr g depth num st = some r) :
    DFTr g depth' num st = some r := by
  induction hd with
  | refl => exact h
  | step _ ih => exact DFTr_succ g _ num st r ih

end Digraph

namespace Digraph

variable {VertexInfo EdgeInfo W : Type}

theorem sortPredocessorsLoop_chain (m : List (Int × Int)) (K : Int → Prop)
    (hK : ∀ a, K a → StdMap.find m a = some (StdMap.get 0 m a) ∧ K (StdMap.get 0 m a))
    (fuel : Nat) :
    ∀ (order : List Int) (current : Int) (out : List Int),
      sortPredocessorsLoop m fuel order current (StdMap.get 0 m current) = some out →
      order.getLast? = some current → K current →
      List.Chain' (fun a b => StdMap.find m a = some b ∧ b ≠ a) order →
      List.Chain' (fun a b => StdMap.find m a = some b ∧ b ≠ a) out := by
  induction fuel with
  | zero =>
    intro order current out h _ _ hc
    unfold sortPredocessorsLoop at h
    split_ifs at h
    rw [← Option.some.inj h]
    exact hc
  | succ n ih =>
    intro order current out h hl hk hc
    unfold sortPredocessorsLoop at h
    split_ifs at h with h1
    · rw [← Option.some.inj h]
      exact hc
    · refine ih (order ++ [StdMap.get 0 m current]) (StdMap.get 0 m current) out h (by simp)
        (hK current hk).2 ?_
      rw [List.chain'_append]
      refine ⟨hc, List.chain'_singleton _, ?_⟩
      intro x hx y hy
      rw [hl] at hx
      simp only [Option.mem_def, Option.some.injEq, List.head?_cons] at hx hy
      rw [← hx, ← hy]
      exact ⟨(hK current hk).1, fun e => h1 e.symm⟩

theorem routeLookups_ok (g : Digraph VertexInfo EdgeInfo) (l : List Int) :
    ∀ fromVertex,
      List.Chain (fun a b => ∃ x, g.edgeInfo a b = .ok x) fromVertex l →
      ∀ r ∈ routeLookups g fromVertex l, ∃ x, r = .ok x := by
  induction l with
  | nil => intro _ _ r hr; simp [routeLookups] at hr
  | cons t rest ih =>
    intro fromVertex hc r hr
    rw [List.chain_cons] at hc
    unfold routeLookups at hr
    rcases List.mem_cons.1 hr with rfl | hr'
    · exact hc.1
    · exact ih t hc.2 r hr'

theorem pathsInv_result_closed {g : Digraph VertexInfo EdgeInfo} {s : Int}
    {r : ShortestPathsState W} (hP : PathsInv g s r) (a : Int)
    (ha : a ∈ StdMap.keys g.adjList) :
    StdMap.find r.result a = some (StdMap.get 0 r.result a) ∧
      StdMap.get 0 r.result a ∈ StdMap.keys g.adjList := by
  rw [← hP.keys_result, ← StdMap.find_isSome_iff] at ha
  cases h : StdMap.find r.result a with
  | none => rw [h] at ha; exact Bool.noConfusion ha
  | some v =>
    have hv : StdMap.get 0 r.result a = v := by
      unfold StdMap.get
      rw [h]
      rfl
    rw [hv]
    exact ⟨rfl, hP.val_mem _ (StdMap.mem_of_find_eq_some h)⟩

theorem pathsInv_lookup {g : Digraph VertexInfo EdgeInfo} (hg : WellFormed g) {s : Int}
    {r : ShortestPathsState W} (hP : PathsInv g s r) {t u : Int}
    (h : StdMap.find r.result t = some u) (hne : u ≠ t) :
    (u, t) ∈ g.edges ∧ ∃ x, g.edgeInfo u t = .ok x :=
  ⟨(hP.pred_edge t u h hne).1, edgeInfo_of_mem_edges hg (hP.pred_edge t u h hne).1⟩

theorem eq_of_adjList_eq {g h : Digraph VertexInfo EdgeInfo} (hg : WellFormed g)
    (hh : WellFormed h) (e : g.adjList = h.adjList) : g = h := by
  have h1 : g.vertexCount_ = h.vertexCount_ := by
    rw [hg.vertexCount_eq, hh.vertexCount_eq, e]
  have h2 : g.edgeCount_ = h.edgeCount_ := by
    rw [hg.edgeCount_eq, hh.edgeCount_eq, e]
  cases g
  cases h
  simp only at e h1 h2
  subst e h1 h2
  rfl

theorem isNone_of_not_isSome {o : Option Thrown} (h : ¬ o.isSome = true) : o = none := by
  cases o with
  | none => rfl
  | some e => exact absurd rfl h

theorem addVertex_removeVertex {g : Digraph VertexInfo EdgeInfo} (hg : WellFormed g)
    {vertex : Int} (vinfo : VertexInfo) (h : vertex ∉ g.vertices) :
    (g.addVertex vertex vinfo).1 = none ∧
      ((g.addVertex vertex vinfo).2.removeVertex vertex).1 = none ∧
      ((g.addVertex vertex vinfo).2.removeVertex vertex).2 = g := by
  have h1 : (g.addVertex vertex vinfo).1 = none :=
    isNone_of_not_isSome (fun e => h ((addVertex_fails_iff g vertex vinfo).1 e))
  have hg1 := wellFormed_addVertex hg vertex vinfo
  have hadj : (g.addVertex vertex vinfo).2.adjList =
      StdMap.set g.adjList vertex { vinfo := vinfo, edges := [] } := by
    rw [addVertex_adjList h1]
  have hv : vertex ∈ (g.addVertex vertex vinfo).2.vertices := by
    rw [vertices_eq_keys, hadj, StdMap.mem_keys_set]
    exact Or.inl rfl
  have h2 : ((g.addVertex vertex vinfo).2.removeVertex vertex).1 = none :=
    isNone_of_not_isSome
      (fun e => (removeVertex_fails_iff (g.addVertex vertex vinfo).2 vertex).1 e hv)
  refine ⟨h1, h2, ?_⟩
  apply eq_of_adjList_eq (wellFormed_removeVertex hg1 vertex) hg
  rw [removeVertex_adjList hg1 hv, hadj, StdMap.erase_set_of_not_mem _ h]
  conv_rhs => rw [← List.map_id g.adjList]
  apply List.map_congr_left
  intro p hp
  have hf : p.2.edges.filter (fun e => !decide (e.toVertex = vertex)) = p.2.edges := by
    rw [List.filter_eq_self]
    intro e he
    have hne : ¬ e.toVertex = vertex := by
      intro e'
      have := hg.to_mem p hp e he
      rw [e'] at this
      exact h this
    simp [hne]
  rw [hf]
  rfl

theorem addEdge_removeEdge {g : Digraph VertexInfo EdgeInfo} (hg : WellFormed g)
    {u v : Int} (p : EdgeInfo) (hu : u ∈ g.vertices) (hv : v ∈ g.vertices)
    (h : (u, v) ∉ g.edges) :
    (g.addEdge u v p).1 = none ∧
      ((g.addEdge u v p).2.removeEdge u v).1 = none ∧
      ((g.addEdge u v p).2.removeEdge u v).2 = g := by
  have h1 : (g.addEdge u v p).1 = none := by
    apply isNone_of_not_isSome
    intro e
    rcases (addEdge_fails_iff hg u v p).1 e with e1 | e1 | e1
    · exact e1 hu
    · exact e1 hv
    · exact h e1
  have hg1 := wellFormed_addEdge hg u v p
  obtain ⟨du, hdu, hdv, hhas, hfind⟩ := addEdge_find h1
  have hfu : StdMap.find (g.addEdge u v p).2.adjList u =
      some { du with edges := du.edges ++ [⟨u, v, p⟩] } := by
    rw [hfind, if_pos rfl]
  have hu1 : u ∈ (g.addEdge u v p).2.vertices := by
    rw [← find_isSome_iff_mem_vertices, hfu]
    rfl
  have hv1 : v ∈ (g.addEdge u v p).2.vertices := by
    rw [← find_isSome_iff_mem_vertices, hfind]
    split_ifs with e
    · rfl
    · exact hdv
  have he1 : (u, v) ∈ (g.addEdge u v p).2.edges := by
    rw [mem_edges_iff hg1]
    exact ⟨_, hfu, by simp⟩
  have h2 : ((g.addEdge u v p).2.removeEdge u v).1 = none := by
    apply isNone_of_not_isSome
    intro e
    rcases (removeEdge_fails_iff hg1 u v).1 e with e1 | e1 | e1
    · exact e1 hu1
    · exact e1 hv1
    · exact e1 he1
  refine ⟨h1, h2, ?_⟩
  apply eq_of_adjList_eq (wellFormed_removeEdge hg1 u v) hg
  obtain ⟨du1, dv1, hdu1, -, hst⟩ := removeEdge_success h2
  rw [hfu] at hdu1
  obtain ⟨-, -, -, -, -, hst1⟩ := addEdge_success h1
  rw [hst]
  simp only
  rw [hst1]
  simp only
  rw [StdMap.modify_modify]
  apply StdMap.modify_eq_self _ hdu
  have hno : v ∉ du.edges.map (fun e => e.toVertex) :=
    not_mem_of_hasEdge_false (hg.from_eq _ (StdMap.mem_of_find_eq_some hdu)) hhas
  have hf : du.edges.filter (fun e => !decide (e.toVertex = v)) = du.edges := by
    rw [List.filter_eq_self]
    intro e he
    have hne : ¬ e.toVertex = v := fun e' => hno (List.mem_map.2 ⟨e, he, e'⟩)
    simp [hne]
  rw [← Option.some.inj hdu1]
  simp only [List.filter_append, hf]
  simp

end Digraph

/-! ## The claims -/

namespace Digraph

variable {VertexInfo EdgeInfo : Type}

/-- C1 (evaluation at the failing input).  On `staleKeyGraph`, built by the
mutators and weighted by its non-negative integer payloads,
`findShortestPaths(0)` returns a map with `P[5] = 2`.  The edge `2->5` weighs
5 and every walk from 0 to 2 weighs at least 6, yet the walk `0,4,2,1,5`
reaches 5 with weight 10: vertex 2 is not the predecessor of 5 on a shortest
path. -/
theorem findShortestPaths_not_shortest :
    Built staleKeyGraph ∧
    (∀ p ∈ staleKeyGraph.adjList, ∀ e ∈ p.2.edges, 0 ≤ e.einfo) ∧
    findShortestPaths staleKeyGraph 0 (fun x => Dist.fin x) =
      some (.ok [(0, 0), (1, 2), (2, 4), (3, 0), (4, 0), (5, 2)]) ∧
    staleKeyGraph.edgeInfo 2 5 = .ok 5 ∧
    WalkCost staleKeyGraph (fun x => x) 0 5 10 ∧
    ∀ c, WalkCost staleKeyGraph (fun x => x) 0 2 c → 10 < c + 5 := by
  refine ⟨⟨_, rfl⟩, by decide, by rfl, by rfl, ?_, ?_⟩
  · have h1 : WalkCost staleKeyGraph (fun x : Int => x) 0 4 (0 + 4) :=
      WalkCost.step (WalkCost.nil 0) (by rfl)
    have h2 : WalkCost staleKeyGraph (fun x : Int => x) 0 2 (0 + 4 + 2) :=
      WalkCost.step h1 (by rfl)
    have h3 : WalkCost staleKeyGraph (fun x : Int => x) 0 1 (0 + 4 + 2 + 2) :=
      WalkCost.step h2 (by rfl)
    have h4 : WalkCost staleKeyGraph (fun x : Int => x) 0 5 (0 + 4 + 2 + 2 + 2) :=
      WalkCost.step h3 (by rfl)
    exact h4
  · intro c hc
    have := WalkCost.potential_le staleKeyPotential (by decide) (by decide) hc
    have h6 : staleKeyPotential 2 = 6 := by decide
    omega

/-- C2.  On a graph built by the mutators, for a start vertex `s` of the graph
and weights that are non-negative on its edges, `findShortestPaths(s, w)`
returns a map `P` with `P[s] == s`. -/
theorem findShortestPaths_start {W : Type} [DoubleLaws W]
    (g : Digraph VertexInfo EdgeInfo) (hB : Built g) (s : Int)
    (hs : s ∈ g.vertices) (edgeWeightFunc : EdgeInfo → W)
    (hw : NonnegWeights g edgeWeightFunc) :
    ∃ P, findShortestPaths g s edgeWeightFunc = some (.ok P) ∧ StdMap.find P s = some s := by
  have hg := hB.wellFormed
  obtain ⟨r, h1, -, h3, -⟩ := findShortestPaths_total hg hs edgeWeightFunc (StartInv s)
    (startInv_entryState hg hs) (fun st st' _ hI _ h => startInv_step hw hI h)
  exact ⟨r.result, h1, h3.result_start⟩

theorem findShortestPaths_start_witness :
    Built sampleGraph ∧ (0 : Int) ∈ sampleGraph.vertices ∧
      NonnegWeights sampleGraph (fun x : Int => Dist.fin x) ∧
      ∃ P, findShortestPaths sampleGraph 0 (fun x : Int => Dist.fin x) = some (.ok P) ∧
        StdMap.find P 0 = some 0 :=
  ⟨⟨_, rfl⟩, by decide, nonnegWeights_sample,
    findShortestPaths_start sampleGraph ⟨_, rfl⟩ 0 (by decide) (fun x : Int => Dist.fin x)
      nonnegWeights_sample⟩

/-- C3.  On a graph built by the mutators, for a start vertex `s` of the graph
and any weight function, every vertex `t` of the graph that is not reachable
from `s` by directed edges has itself as predecessor in the returned map:
`P[t] == t`. -/
theorem findShortestPaths_unreachable {W : Type} [DoubleOps W]
    (g : Digraph VertexInfo EdgeInfo) (hB : Built g) (s : Int)
    (hs : s ∈ g.vertices) (edgeWeightFunc : EdgeInfo → W) (t : Int) (ht : t ∈ g.vertices)
    (hnr : ¬ Reachable g s t) :
    ∃ P, findShortestPaths g s edgeWeightFunc = some (.ok P) ∧ StdMap.find P t = some t := by
  have hg := hB.wellFormed
  obtain ⟨r, h1, h2, -, -⟩ := findShortestPaths_total hg hs edgeWeightFunc (fun _ => True)
    trivial (fun _ _ _ _ _ _ => trivial)
  refine ⟨r.result, h1, ?_⟩
  have hk : t ∈ StdMap.keys r.result := by rw [h2.keys_result]; exact ht
  cases hf : StdMap.find r.result t with
  | none => exact absurd hk ((StdMap.find_eq_none_iff _ _).1 hf)
  | some u =>
    by_cases hu : u = t
    · rw [hu]
    · exfalso
      obtain ⟨a1, a2⟩ := h2.pred_edge t u hf hu
      exact hnr (Relation.ReflTransGen.tail a2 a1)

theorem findShortestPaths_unreachable_witness :
    Built sampleGraph ∧ (2 : Int) ∈ sampleGraph.vertices ∧ (0 : Int) ∈ sampleGraph.vertices ∧
      ¬ Reachable sampleGraph 2 0 ∧
      ∃ P, findShortestPaths sampleGraph 2 (fun x : Int => Dist.fin x) = some (.ok P) ∧
        StdMap.find P 0 = some 0 :=
  have hnr : ¬ Reachable sampleGraph 2 0 := by
    intro h
    rcases Relation.ReflTransGen.cases_head h with h | ⟨c, h, -⟩
    · exact absurd h (by decide)
    · have : ((2 : Int), c) ∈ [((0 : Int), (1 : Int)), (0, 2), (1, 2), (1, 1)] := h
      simp at this
  ⟨⟨_, rfl⟩, by decide, by decide, hnr,
    findShortestPaths_unreachable sampleGraph ⟨_, rfl⟩ 2 (by decide) (fun x : Int => Dist.fin x) 0
      (by decide) hnr⟩

/-- C4.  On a graph built by the mutators, `findShortestPaths(s, w)` throws (a
`DigraphException`) exactly when `s` is not a vertex of the graph; when `s` is
a vertex it returns a map whose keys are the ids returned by `vertices()` and
whose values are all ids of vertices of the graph. -/
theorem findShortestPaths_domain {W : Type} [DoubleOps W]
    (g : Digraph VertexInfo EdgeInfo) (hB : Built g) (s : Int)
    (edgeWeightFunc : EdgeInfo → W) :
    ((∃ e, findShortestPaths g s edgeWeightFunc = some (.error e)) ↔ s ∉ g.vertices) ∧
    (s ∉ g.vertices → findShortestPaths g s edgeWeightFunc = some (.error
      (.DigraphException "Digraph findShortestPaths(): the startVertex is not valid."))) ∧
    (s ∈ g.vertices → ∃ P, findShortestPaths g s edgeWeightFunc = some (.ok P) ∧
      StdMap.keys P = g.vertices ∧ ∀ p ∈ P, p.2 ∈ g.vertices) := by
  have hg := hB.wellFormed
  have hok : s ∈ g.vertices → ∃ P, findShortestPaths g s edgeWeightFunc = some (.ok P) ∧
      StdMap.keys P = g.vertices ∧ ∀ p ∈ P, p.2 ∈ g.vertices := by
    intro hs
    obtain ⟨r, h1, h2, -, -⟩ := findShortestPaths_total hg hs edgeWeightFunc (fun _ => True)
      trivial (fun _ _ _ _ _ _ => trivial)
    exact ⟨r.result, h1, h2.keys_result, h2.val_mem⟩
  have herr : s ∉ g.vertices → findShortestPaths g s edgeWeightFunc = some (.error
      (.DigraphException "Digraph findShortestPaths(): the startVertex is not valid.")) := by
    intro hs
    have : StdMap.find g.adjList s = none := (StdMap.find_eq_none_iff _ _).2 hs
    unfold findShortestPaths findShortestPathsWithin
    rw [this]
  refine ⟨⟨?_, fun hs => ⟨_, herr hs⟩⟩, herr, hok⟩
  rintro ⟨e, he⟩ hs
  obtain ⟨P, hP, -⟩ := hok hs
  rw [hP] at he
  cases he

theorem findShortestPaths_domain_witness :
    Built sampleGraph ∧ (0 : Int) ∈ sampleGraph.vertices ∧
      ∃ P, findShortestPaths sampleGraph 0 (fun x : Int => Dist.fin x) = some (.ok P) ∧
        StdMap.keys P = sampleGraph.vertices ∧ ∀ p ∈ P, p.2 ∈ sampleGraph.vertices :=
  ⟨⟨_, rfl⟩, by decide,
    (findShortestPaths_domain sampleGraph ⟨_, rfl⟩ 0 (fun x : Int => Dist.fin x)).2.2 (by decide)⟩

/-- C5 (counterexample).  On `sampleGraph` with every edge weighing `+infinity`
(a weight that is not negative), `findShortestPaths(0)` leaves every vertex
its own predecessor, since `d[v] > d[0] + infinity` is never true.  The chain
from vertex 2 is `[2]` and its last vertex is not 0, although 2 is reachable
from 0. -/
theorem predecessor_chain_infinite_weight :
    Built sampleGraph ∧ (0 : Int) ∈ sampleGraph.vertices ∧ (2 : Int) ∈ sampleGraph.vertices ∧
    NonnegWeights sampleGraph (fun _ : Int => (Dist.inf : Dist Int)) ∧
    findShortestPaths sampleGraph 0 (fun _ : Int => (Dist.inf : Dist Int)) =
      some (.ok [(0, 0), (1, 1), (2, 2)]) ∧
    sortPredocessors (sampleGraph.vertexCount - 1).toNat ⟨0, 2, .Time⟩
      [(0, [(0, 0), (1, 1), (2, 2)])] = some [2] ∧
    Reachable sampleGraph 0 2 ∧
    ¬ (([2] : List Int).getLast? = some 0 ↔ Reachable sampleGraph 0 2) := by
  have hr : Reachable sampleGraph 0 2 :=
    Relation.ReflTransGen.single (show ((0 : Int), (2 : Int)) ∈ sampleGraph.edges by decide)
  refine ⟨⟨_, rfl⟩, by decide, by decide, fun _ _ _ _ => trivial, rfl, rfl, hr, ?_⟩
  intro h
  have := h.2 hr
  exact absurd this (by decide)

/-- C5 (amended).  On a graph built by the mutators, with weights that are not
negative, let `P = findShortestPaths(s, w)` and `t` a vertex.  The loop of
`sortPredocessors` from `t` ends within `vertexCount() - 1` iterations; the
sequence it returns starts at `t` and meets no vertex twice; its last vertex
is `s` only if `t` is reachable from `s`, and exactly when `t` is reachable
from `s` provided that adding an edge weight to a finite distance never gives
`+infinity`; and it is `[t]` when `t` is not reachable. -/
theorem predecessor_chain {W : Type} [DoubleLaws W]
    (g : Digraph VertexInfo EdgeInfo) (hB : Built g) (s : Int)
    (hs : s ∈ g.vertices) (edgeWeightFunc : EdgeInfo → W)
    (hw : NonnegWeights g edgeWeightFunc) (t : Int) (ht : t ∈ g.vertices)
    (metric : TripMetric) :
    ∃ P order, findShortestPaths g s edgeWeightFunc = some (.ok P) ∧
      sortPredocessors (g.vertexCount - 1).toNat ⟨s, t, metric⟩ [(s, P)] = some order ∧
      order.Nodup ∧ order.head? = some t ∧
      (order.getLast? = some s → Reachable g s t) ∧
      (FiniteSums g edgeWeightFunc → (order.getLast? = some s ↔ Reachable g s t)) ∧
      (¬ Reachable g s t → order = [t]) := by
  have hg := hB.wellFormed
  obtain ⟨r, h1, hP, ⟨hS, hR, hC⟩, hpq⟩ := findShortestPaths_total hg hs edgeWeightFunc
    (fun st => StartInv s st ∧ RankInv st ∧
      (FiniteSums g edgeWeightFunc → ChainInv g s 0 [] st))
    ⟨startInv_entryState hg hs, rankInv_entryState hg s, fun _ => chainInv_entryState hg hs 0⟩
    (fun st st' _ hI hne h => ⟨startInv_step hw hI.1 h, rankInv_step hw hI.1 hI.2.1 h,
      fun hF => chainInv_step hw hF hI.1 (hI.2.2 hF) hne h⟩)
  obtain ⟨l, hl⟩ := hR.rank
  have hcount : (g.vertexCount - 1).toNat = (StdMap.keys g.adjList).length - 1 := by
    simp only [vertexCount, hg.vertexCount_eq, StdMap.keys, List.length_map]
    omega
  have hpos : 0 < (StdMap.keys g.adjList).length := List.length_pos_of_mem ht
  obtain ⟨out, z, a1, a2, ⟨tl, a3⟩, a4, a5, a6⟩ := sortPredocessorsLoop_spec hP
    hS.dist_nonneg l hl
    ((StdMap.keys g.adjList).length - 1) [t] t rfl (List.nodup_singleton t)
    (fun x hx => by rw [List.mem_singleton] at hx; rw [hx]; exact ht)
    (fun x hx hne => by rw [List.mem_singleton] at hx; exact absurd hx hne)
    (by simp only [List.length_singleton]; omega)
  have hcache : StdMap.get [] [(s, r.result)] s = r.result := by
    simp [StdMap.get, StdMap.find]
  have hrun : sortPredocessors (g.vertexCount - 1).toNat ⟨s, t, metric⟩ [(s, r.result)]
      = some out := by
    unfold sortPredocessors
    simp only [hcache, hcount]
    exact a1
  have hunreach : ¬ Reachable g s t → out = [t] := by
    intro hnr
    have hk : t ∈ StdMap.keys r.result := by rw [hP.keys_result]; exact ht
    have hf : StdMap.find r.result t = some t := by
      cases hf : StdMap.find r.result t with
      | none => exact absurd hk ((StdMap.find_eq_none_iff _ _).1 hf)
      | some u =>
        by_cases hu : u = t
        · rw [hu]
        · exfalso
          obtain ⟨b1, b2⟩ := hP.pred_edge t u hf hu
          exact hnr (Relation.ReflTransGen.tail b2 b1)
    have hget : StdMap.get 0 r.result t = t := by unfold StdMap.get; rw [hf]; rfl
    rw [hget] at a1
    cases hn : (StdMap.keys g.adjList).length - 1 with
    | zero =>
      rw [hn] at a1
      simp only [sortPredocessorsLoop, if_true, Option.some.injEq] at a1
      exact a1.symm
    | succ n =>
      rw [hn] at a1
      simp only [sortPredocessorsLoop, if_true, Option.some.injEq] at a1
      exact a1.symm
  have honly : out.getLast? = some s → Reachable g s t := by
    intro hlast
    by_contra hnr
    have := hunreach hnr
    rw [this] at hlast
    simp only [List.getLast?_singleton, Option.some.injEq] at hlast
    rw [hlast] at hnr
    exact hnr Relation.ReflTransGen.refl
  refine ⟨r.result, out, h1, hrun, a2, by rw [a3]; rfl, honly, ?_, hunreach⟩
  intro hF
  refine ⟨honly, ?_⟩
  intro hreach
  have hz := a6 (isFin_of_reachable hg hS (hC hF) hpq hreach)
  have hzk : z ∈ StdMap.keys g.adjList := by
    rw [← hP.keys_result]
    exact (StdMap.find_isSome_iff _ _).1 (by rw [a5]; rfl)
  by_cases hzs : z = s
  · rw [a4, hzs]
  · exfalso
    obtain ⟨u, b1, b2⟩ := (hC hF).fin_pred z hzk hzs hz
    rw [a5] at b1
    exact b2 (Option.some.inj b1).symm

theorem predecessor_chain_witness :
    Built sampleGraph ∧ (0 : Int) ∈ sampleGraph.vertices ∧
      NonnegWeights sampleGraph (fun x : Int => Dist.fin x) ∧ (2 : Int) ∈ sampleGraph.vertices ∧
      FiniteSums sampleGraph (fun x : Int => Dist.fin x) ∧
      ∃ P order, findShortestPaths sampleGraph 0 (fun x : Int => Dist.fin x) = some (.ok P) ∧
        sortPredocessors (sampleGraph.vertexCount - 1).toNat ⟨0, 2, .Distance⟩ [(0, P)]
          = some order ∧
        order.Nodup ∧ order.head? = some 2 ∧
        (order.getLast? = some 0 ↔ Reachable sampleGraph 0 2) ∧
        (¬ Reachable sampleGraph 0 2 → order = [2]) :=
  ⟨⟨_, rfl⟩, by decide, nonnegWeights_sample, by decide, finiteSums_fin _ _,
    (predecessor_chain sampleGraph ⟨_, rfl⟩ 0 (by decide) (fun x : Int => Dist.fin x)
      nonnegWeights_sample 2 (by decide) .Distance).imp
      (fun _ h => h.imp (fun _ h' =>
        ⟨h'.1, h'.2.1, h'.2.2.1, h'.2.2.2.1, h'.2.2.2.2.2.1 (finiteSums_fin _ _),
          h'.2.2.2.2.2.2⟩))⟩

/-- C6.  On a graph built by the mutators, `isStronglyConnected()` returns, and
it returns true exactly when every vertex of the graph is reachable from every
vertex of the graph by a directed path; in particular it returns true when the
graph has no vertex or a single one. -/
theorem isStronglyConnected_iff (g : Digraph VertexInfo EdgeInfo) (hB : Built g) :
    ∃ b, isStronglyConnected g = some (.ok b) ∧
      (b = true ↔ ∀ u ∈ g.vertices, ∀ v ∈ g.vertices, Reachable g u v) ∧
      (g.vertices.length ≤ 1 → b = true) := by
  have hg := hB.wellFormed
  obtain ⟨b, h1, h2⟩ := isStronglyConnectedLoop_spec hg g.adjList
    (fun p hp => List.mem_map.2 ⟨p, hp, rfl⟩)
  have hiff : b = true ↔ ∀ u ∈ g.vertices, ∀ v ∈ g.vertices, Reachable g u v := by
    rw [h2]
    constructor
    · intro h u hu v hv
      obtain ⟨p, hp, rfl⟩ := List.mem_map.1 hu
      exact h p hp v hv
    · intro h p hp t ht
      exact h p.1 (List.mem_map.2 ⟨p, hp, rfl⟩) t ht
  refine ⟨b, h1, hiff, ?_⟩
  intro hlen
  rw [hiff]
  intro u hu v hv
  have : u = v := by
    cases hvs : g.vertices with
    | nil => rw [hvs] at hu; simp at hu
    | cons a t =>
      rw [hvs] at hu hv hlen
      cases t with
      | nil =>
        rw [List.mem_singleton] at hu hv
        rw [hu, hv]
      | cons b t' => simp at hlen
  rw [this]
  exact Relation.ReflTransGen.refl

theorem isStronglyConnected_iff_witness :
    Built sampleGraph ∧
      ∃ b, isStronglyConnected sampleGraph = some (.ok b) ∧
        (b = true ↔ ∀ u ∈ sampleGraph.vertices, ∀ v ∈ sampleGraph.vertices,
          Reachable sampleGraph u v) ∧
        (sampleGraph.vertices.length ≤ 1 → b = true) :=
  ⟨⟨_, rfl⟩, isStronglyConnected_iff sampleGraph ⟨_, rfl⟩⟩

/-- C7 (count invariant).  After any sequence of mutator calls on the empty
graph, successful or failing, `vertexCount()` is the number of ids returned by
`vertices()`, every `edgeCount(v)` for `v` in `vertices()` succeeds, and
`edgeCount()` is both the sum of these out-degrees and the length of
`edges()`. -/
theorem count_invariant (ms : List (Mutation VertexInfo EdgeInfo)) :
    (applyMutations empty ms).vertexCount = ((applyMutations empty ms).vertices.length : Int) ∧
    ∃ counts : List Int,
      (applyMutations empty ms).vertices.map (applyMutations empty ms).edgeCountOf
        = counts.map Except.ok ∧
      (applyMutations empty ms).edgeCount = counts.sum ∧
      (applyMutations empty ms).edgeCount = ((applyMutations empty ms).edges.length : Int) := by
  have hg : WellFormed (applyMutations empty ms) := Built.wellFormed ⟨ms, rfl⟩
  generalize applyMutations empty ms = g at hg
  refine ⟨?_, g.adjList.map (fun p => (p.2.edges.length : Int)), ?_, ?_, ?_⟩
  · simp [vertexCount, vertices, hg.vertexCount_eq]
  · simp only [vertices, List.map_map]
    apply List.map_congr_left
    intro p hp
    exact edgeCountOf_of_mem hg hp
  · simp only [edgeCount, hg.edgeCount_eq, Nat.cast_list_sum, List.map_map]
    rfl
  · simp only [edgeCount, hg.edgeCount_eq, length_edges]

/-- C8 (endpoint invariant).  After any sequence of mutator calls on the empty
graph, every edge record `e` stored in the list of a vertex `u` has
`fromVertex == u`, and both `fromVertex` and `toVertex` are ids returned by
`vertices()`. -/
theorem endpoint_invariant (ms : List (Mutation VertexInfo EdgeInfo)) (u : Int)
    (dv : DigraphVertex VertexInfo EdgeInfo) (e : DigraphEdge EdgeInfo)
    (hu : (u, dv) ∈ (applyMutations empty ms).adjList) (he : e ∈ dv.edges) :
    e.fromVertex = u ∧ e.fromVertex ∈ (applyMutations empty ms).vertices ∧
      e.toVertex ∈ (applyMutations empty ms).vertices := by
  have hg : WellFormed (applyMutations empty ms) := Built.wellFormed ⟨ms, rfl⟩
  have h1 := hg.from_eq _ hu e he
  refine ⟨h1, ?_, hg.to_mem _ hu e he⟩
  rw [h1]
  exact List.mem_map.2 ⟨(u, dv), hu, rfl⟩

theorem endpoint_invariant_witness :
    ((0 : Int), (⟨(), [⟨0, 2, 7⟩]⟩ : DigraphVertex Unit Int)) ∈
        (applyMutations (empty : Digraph Unit Int) sampleMutations).adjList ∧
      (0 : Int) ∈ (applyMutations (empty : Digraph Unit Int) sampleMutations).vertices ∧
      (2 : Int) ∈ (applyMutations (empty : Digraph Unit Int) sampleMutations).vertices :=
  ⟨by decide,
    (endpoint_invariant sampleMutations 0 ⟨(), [⟨0, 2, 7⟩]⟩ ⟨0, 2, 7⟩ (by decide) (by decide)).2⟩

/-- C9 (uniqueness invariant).  After any sequence of mutator calls on the
empty graph, `edges()` contains no ordered pair more than once. -/
theorem uniqueness_invariant (ms : List (Mutation VertexInfo EdgeInfo)) :
    (applyMutations empty ms).edges.Nodup :=
  nodup_edges (Built.wellFormed ⟨ms, rfl⟩)

/-- C10.  `removeVertex(v)` throws exactly when `v` is absent.  On a graph built
by the mutators that contains `v`, the call leaves `edges()` equal to the
previous `edges()` without the pairs having `v` as source or target (order
kept), `vertices()` equal to the previous one without `v`, `vertexCount()`
smaller by 1, `edgeCount()` smaller by the number of removed pairs, and the
payloads of the remaining vertices and edges as they were. -/
theorem removeVertex_spec (g : Digraph VertexInfo EdgeInfo) (hB : Built g) (v : Int) :
    ((g.removeVertex v).1.isSome = true ↔ v ∉ g.vertices) ∧
    (v ∈ g.vertices →
      (g.removeVertex v).2.edges =
          g.edges.filter (fun ab => !decide (ab.1 = v) && !decide (ab.2 = v)) ∧
        (g.removeVertex v).2.vertices = g.vertices.filter (fun x => !decide (x = v)) ∧
        (g.removeVertex v).2.vertexCount = g.vertexCount - 1 ∧
        (g.removeVertex v).2.edgeCount = g.edgeCount -
          ((g.edges.filter (fun ab => decide (ab.1 = v) || decide (ab.2 = v))).length : Int) ∧
        (∀ u, u ≠ v → (g.removeVertex v).2.vertexInfo u = g.vertexInfo u) ∧
        (∀ a b, a ≠ v → b ≠ v → (g.removeVertex v).2.edgeInfo a b = g.edgeInfo a b)) := by
  refine ⟨removeVertex_fails_iff g v, ?_⟩
  intro hv
  have hg := hB.wellFormed
  have hg' : WellFormed (g.removeVertex v).2 := wellFormed_removeVertex hg v
  have hadj := removeVertex_adjList hg hv
  have hedges : (g.removeVertex v).2.edges =
      g.edges.filter (fun ab => !decide (ab.1 = v) && !decide (ab.2 = v)) := by
    unfold edges
    rw [hadj]
    exact edges_erase_filter g.adjList v hg.keys_sorted hg.from_eq
  have hfind : ∀ u, u ≠ v → StdMap.find (g.removeVertex v).2.adjList u =
      (StdMap.find g.adjList u).map (fun dv => ({ dv with
        edges := dv.edges.filter (fun e => !decide (e.toVertex = v)) } :
          DigraphVertex VertexInfo EdgeInfo)) := by
    intro u hu
    rw [hadj, StdMap.find_map_snd (StdMap.erase g.adjList v)
      (fun dv => ({ dv with edges := dv.edges.filter (fun e => !decide (e.toVertex = v)) } :
          DigraphVertex VertexInfo EdgeInfo)) u, StdMap.find_erase_of_ne _ hu]
  refine ⟨hedges, ?_, ?_, ?_, ?_, ?_⟩
  · rw [vertices_eq_keys, vertices_eq_keys, hadj,
      keys_map_edges _ (fun es => es.filter (fun e => !decide (e.toVertex = v)))]
    exact StdMap.keys_erase_eq_filter v hg.keys_sorted
  · have hl := congrArg List.length hadj
    simp only [List.length_map] at hl
    simp only [vertexCount, hg'.vertexCount_eq, hg.vertexCount_eq, hl]
    exact StdMap.length_erase_of_mem (by rw [← vertices_eq_keys]; exact hv)
  · have e1 : (g.removeVertex v).2.edgeCount_ = ((g.removeVertex v).2.edges.length : Int) := by
      rw [hg'.edgeCount_eq, length_edges]
    have e2 : g.edgeCount_ = (g.edges.length : Int) := by
      rw [hg.edgeCount_eq, length_edges]
    have e3 := length_filter_add_length_filter_not g.edges
      (fun ab => decide (ab.1 = v) || decide (ab.2 = v))
    have e4 : g.edges.filter (fun ab => !decide (ab.1 = v) && !decide (ab.2 = v)) =
        g.edges.filter (fun ab => !(decide (ab.1 = v) || decide (ab.2 = v))) := by
      apply List.filter_congr
      intro ab _
      simp
    simp only [edgeCount, e1, e2, hedges, e4]
    omega
  · intro u hu
    unfold vertexInfo
    rw [hfind u hu]
    cases StdMap.find g.adjList u <;> rfl
  · intro a b ha hb
    unfold edgeInfo
    rw [hfind a ha, hfind b hb]
    cases h1 : StdMap.find g.adjList a with
    | none => rfl
    | some da =>
      cases h2 : StdMap.find g.adjList b with
      | none => rfl
      | some db =>
        simp only [Option.map_some']
        rw [edgeInfoLoop_filter da.edges hb]

theorem removeVertex_spec_witness :
    Built sampleGraph ∧ (1 : Int) ∈ sampleGraph.vertices ∧
      (sampleGraph.removeVertex 1).2.edges =
        sampleGraph.edges.filter (fun ab => !decide (ab.1 = 1) && !decide (ab.2 = 1)) :=
  ⟨⟨_, rfl⟩, by decide, ((removeVertex_spec sampleGraph ⟨_, rfl⟩ 1).2 (by decide)).1⟩

end Digraph

namespace Digraph

variable {VertexInfo EdgeInfo : Type}

/-- C11.  On a graph built by the mutators, `addEdge(u, v, p)` throws exactly
when `u` is absent, or `v` is absent, or `(u, v)` is already an edge.  When it
does not throw, `edges(u)` is the previous `edges(u)` followed by `(u, v)`,
`edgeInfo(u, v)` is `p`, `(u, v)` occurs exactly once in `edges()`,
`edgeCount()` has grown by 1, and the vertices, their payloads, the outgoing
lists of the other vertices and the other edges with their payloads are as
before. -/
theorem addEdge_spec (g : Digraph VertexInfo EdgeInfo) (hB : Built g) (u v : Int)
    (p : EdgeInfo) :
    ((g.addEdge u v p).1.isSome = true ↔
      u ∉ g.vertices ∨ v ∉ g.vertices ∨ (u, v) ∈ g.edges) ∧
    ((g.addEdge u v p).1 = none →
      (∃ l, g.edgesOf u = .ok l ∧ (g.addEdge u v p).2.edgesOf u = .ok (l ++ [(u, v)])) ∧
      (g.addEdge u v p).2.edgeInfo u v = .ok p ∧
      ((g.addEdge u v p).2.edges.filter (fun ab => decide (ab = (u, v)))).length = 1 ∧
      (g.addEdge u v p).2.edgeCount = g.edgeCount + 1 ∧
      (g.addEdge u v p).2.vertices = g.vertices ∧
      (g.addEdge u v p).2.vertexCount = g.vertexCount ∧
      (∀ x, (g.addEdge u v p).2.vertexInfo x = g.vertexInfo x) ∧
      (∀ x, x ≠ u → (g.addEdge u v p).2.edgesOf x = g.edgesOf x) ∧
      (∀ a b, (a, b) ≠ (u, v) → (g.addEdge u v p).2.edgeInfo a b = g.edgeInfo a b) ∧
      (g.addEdge u v p).2.edges.filter (fun ab => decide (ab ≠ (u, v))) = g.edges) := by
  have hg := hB.wellFormed
  refine ⟨addEdge_fails_iff hg u v p, ?_⟩
  intro hok
  have hg' : WellFormed (g.addEdge u v p).2 := wellFormed_addEdge hg u v p
  have hnot : (u, v) ∉ g.edges := by
    intro hin
    have := (addEdge_fails_iff hg u v p).2 (Or.inr (Or.inr hin))
    rw [hok] at this
    exact Bool.noConfusion this
  obtain ⟨du, dv', h1, h2, h3, hst⟩ := addEdge_success hok
  have hfind : ∀ x, StdMap.find (g.addEdge u v p).2.adjList x =
      if x = u then some { du with edges := du.edges ++ [⟨u, v, p⟩] }
      else StdMap.find g.adjList x := by
    intro x
    rw [hst]
    simp only
    rw [StdMap.find_modify, h1]
    rfl
  have hvnot : v ∉ du.edges.map (fun e => e.toVertex) :=
    not_mem_of_hasEdge_false (hg.from_eq _ (StdMap.mem_of_find_eq_some h1)) h3
  have hloop : edgeInfoLoop du.edges v = none := (edgeInfoLoop_eq_none_iff _ _).2 hvnot
  have hfv : ∀ b, (StdMap.find (g.addEdge u v p).2.adjList b).isSome =
      (StdMap.find g.adjList b).isSome := by
    intro b
    rw [hfind]
    split_ifs with hb
    · rw [hb, h1]; rfl
    · rfl
  have hin' : (u, v) ∈ (g.addEdge u v p).2.edges := by
    rw [mem_edges_iff hg']
    refine ⟨_, (hfind u).trans (if_pos rfl), ?_⟩
    simp
  refine ⟨⟨du.edges.map (fun e => (e.fromVertex, e.toVertex)), ?_, ?_⟩, ?_, ?_, ?_, ?_, ?_,
    ?_, ?_, ?_, ?_⟩
  · simp only [edgesOf, h1]
  · simp only [edgesOf, hfind, if_true]
    simp
  · have hv' : ∃ d, StdMap.find (g.addEdge u v p).2.adjList v = some d := by
      have := hfv v
      rw [h2] at this
      exact Option.isSome_iff_exists.1 this
    obtain ⟨d, hd⟩ := hv'
    simp only [edgeInfo, hfind u, if_true, hd, edgeInfoLoop_append, hloop]
  · exact length_filter_eq_of_nodup (nodup_edges hg') hin'
  · rw [hst]; rfl
  · rw [vertices_eq_keys, vertices_eq_keys, hst]
    exact StdMap.keys_modify _ _ _
  · rw [hst]; rfl
  · intro x
    simp only [vertexInfo, hfind]
    split_ifs with hx
    · rw [hx, h1]
    · rfl
  · intro x hx
    simp only [edgesOf, hfind, if_neg hx]
  · intro a b hab
    have hb := hfv b
    by_cases ha : a = u
    · subst ha
      have hbv : b ≠ v := fun e => hab (by rw [e])
      simp only [edgeInfo, hfind a, if_true, h1]
      cases hb1 : StdMap.find g.adjList b with
      | none =>
        rw [hb1] at hb
        have : StdMap.find (g.addEdge a v p).2.adjList b = none := by
          cases hx : StdMap.find (g.addEdge a v p).2.adjList b with
          | none => rfl
          | some d => rw [hx] at hb; exact Bool.noConfusion hb
        rw [this]
      | some d =>
        rw [hb1] at hb
        obtain ⟨d', hd'⟩ := Option.isSome_iff_exists.1 hb
        rw [hd']
        simp only [edgeInfoLoop_append]
        cases edgeInfoLoop du.edges b with
        | none =>
          have hvb : ¬ v = b := fun e => hbv e.symm
          simp [hvb]
        | some x => rfl
    · simp only [edgeInfo, hfind a, if_neg ha]
      cases ha1 : StdMap.find g.adjList a with
      | none => rfl
      | some d1 =>
        cases hb1 : StdMap.find g.adjList b with
        | none =>
          rw [hb1] at hb
          have : StdMap.find (g.addEdge u v p).2.adjList b = none := by
            cases hx : StdMap.find (g.addEdge u v p).2.adjList b with
            | none => rfl
            | some d => rw [hx] at hb; exact Bool.noConfusion hb
          rw [this]
        | some d =>
          rw [hb1] at hb
          obtain ⟨d', hd'⟩ := Option.isSome_iff_exists.1 hb
          rw [hd']
  · obtain ⟨pre, post, hsplit, hpre⟩ := StdMap.find_split h1
    have hadj' : (g.addEdge u v p).2.adjList =
        pre ++ (u, { du with edges := du.edges ++ [⟨u, v, p⟩] }) :: post := by
      rw [hst]
      simp only
      rw [hsplit, StdMap.modify_split pre post du _ hpre]
    rw [edges_split hadj', edges_split hsplit] at *
    simp only [List.map_append, List.map_cons, List.map_nil]
    exact filter_ne_append_singleton _ _ _ _ hnot

theorem addEdge_spec_witness :
    Built sampleGraph ∧ (sampleGraph.addEdge 2 0 9).1 = none ∧
      (sampleGraph.addEdge 2 0 9).2.edgeInfo 2 0 = .ok 9 ∧
      ((sampleGraph.addEdge 2 0 9).2.edges.filter
        (fun ab => decide (ab = ((2 : Int), (0 : Int))))).length = 1 :=
  ⟨⟨_, rfl⟩, by decide, ((addEdge_spec sampleGraph ⟨_, rfl⟩ 2 0 9).2 (by decide)).2.1,
    ((addEdge_spec sampleGraph ⟨_, rfl⟩ 2 0 9).2 (by decide)).2.2.1⟩

/-- C12.  On a graph built by the mutators, `removeEdge(u, v)` throws exactly
when `u` is absent, or `v` is absent, or `(u, v)` is not an edge.  When it does
not throw, `edges()` is the previous `edges()` without the pair `(u, v)`, one
pair shorter and otherwise in the same order, `edgeCount()` has dropped by 1,
`vertices()`, `vertexCount()` and the vertex payloads are as before, and so are
the payloads of the other edges. -/
theorem removeEdge_spec (g : Digraph VertexInfo EdgeInfo) (hB : Built g) (u v : Int) :
    ((g.removeEdge u v).1.isSome = true ↔
      u ∉ g.vertices ∨ v ∉ g.vertices ∨ (u, v) ∉ g.edges) ∧
    ((g.removeEdge u v).1 = none →
      (g.removeEdge u v).2.edges = g.edges.filter (fun ab => decide (ab ≠ (u, v))) ∧
      (g.removeEdge u v).2.edges.length + 1 = g.edges.length ∧
      (g.removeEdge u v).2.edgeCount = g.edgeCount - 1 ∧
      (g.removeEdge u v).2.vertices = g.vertices ∧
      (g.removeEdge u v).2.vertexCount = g.vertexCount ∧
      (∀ x, (g.removeEdge u v).2.vertexInfo x = g.vertexInfo x) ∧
      (∀ a b, (a, b) ≠ (u, v) → (g.removeEdge u v).2.edgeInfo a b = g.edgeInfo a b)) := by
  have hg := hB.wellFormed
  refine ⟨removeEdge_fails_iff hg u v, ?_⟩
  intro hok
  have hg' : WellFormed (g.removeEdge u v).2 := wellFormed_removeEdge hg u v
  obtain ⟨du, dv', h1, h2, hst⟩ := removeEdge_success hok
  have hfind : ∀ x, StdMap.find (g.removeEdge u v).2.adjList x =
      if x = u then some { du with
        edges := du.edges.filter (fun e => !decide (e.toVertex = v)) }
      else StdMap.find g.adjList x := by
    intro x
    rw [hst]
    simp only
    rw [StdMap.find_modify, h1]
    rfl
  have hfv : ∀ b, (StdMap.find (g.removeEdge u v).2.adjList b).isSome =
      (StdMap.find g.adjList b).isSome := by
    intro b
    rw [hfind]
    split_ifs with hb
    · rw [hb, h1]; rfl
    · rfl
  have hedges : (g.removeEdge u v).2.edges =
      g.edges.filter (fun ab => decide (ab ≠ (u, v))) := by
    obtain ⟨pre, post, hsplit, hpre⟩ := StdMap.find_split h1
    have hadj' : (g.removeEdge u v).2.adjList = pre ++ (u, { du with
        edges := du.edges.filter (fun e => !decide (e.toVertex = v)) }) :: post := by
      rw [hst]
      simp only
      rw [hsplit, StdMap.modify_split pre post du _ hpre]
    have hks := hg.keys_sorted
    rw [hsplit] at hks
    simp only [StdMap.keys, List.map_append, List.map_cons, List.pairwise_append,
      List.pairwise_cons] at hks
    have hfrom : ∀ q ∈ pre ++ (u, du) :: post, ∀ e ∈ q.2.edges, e.fromVertex = q.1 := by
      rw [← hsplit]; exact hg.from_eq
    have hA : ∀ ab ∈ pre.flatMap
        (fun q => q.2.edges.map (fun e => (e.fromVertex, e.toVertex))), ab.1 ≠ u := by
      intro ab hab
      obtain ⟨q, hq, hab⟩ := List.mem_flatMap.1 hab
      obtain ⟨e, he, rfl⟩ := List.mem_map.1 hab
      show e.fromVertex ≠ u
      rw [hfrom q (List.mem_append_left _ hq) e he]
      intro e'
      exact hpre (List.mem_map.2 ⟨q, hq, e'⟩)
    have hC : ∀ ab ∈ post.flatMap
        (fun q => q.2.edges.map (fun e => (e.fromVertex, e.toVertex))), ab.1 ≠ u := by
      intro ab hab
      obtain ⟨q, hq, hab⟩ := List.mem_flatMap.1 hab
      obtain ⟨e, he, rfl⟩ := List.mem_map.1 hab
      show e.fromVertex ≠ u
      rw [hfrom q (List.mem_append_right _ (List.mem_cons_of_mem _ hq)) e he]
      exact ne_of_gt (hks.2.1.1 q.1 (List.mem_map.2 ⟨q, hq, rfl⟩))
    have hBm : (du.edges.map (fun e => (e.fromVertex, e.toVertex))).filter
        (fun ab => decide (ab ≠ (u, v))) =
        (du.edges.filter (fun e => !decide (e.toVertex = v))).map
          (fun e => (e.fromVertex, e.toVertex)) := by
      rw [List.filter_map]
      congr 1
      apply List.filter_congr
      intro e he
      have hfe : e.fromVertex = u := hfrom (u, du) (by simp) e he
      by_cases hev : e.toVertex = v
      · simp [hfe, hev]
      · simp [hfe, hev]
    rw [edges_split hadj', edges_split hsplit, List.filter_append, List.filter_append,
      filter_eq_self_of_fst_ne _ u v hA, filter_eq_self_of_fst_ne _ u v hC, hBm]
  have hlenE : (g.removeEdge u v).2.edges.length + 1 = g.edges.length := by
    have e1 := hg'.edgeCount_eq
    have e2 := hg.edgeCount_eq
    rw [← length_edges] at e1 e2
    have e3 : (g.removeEdge u v).2.edgeCount_ = g.edgeCount_ - 1 := by rw [hst]
    omega
  refine ⟨hedges, hlenE, ?_, ?_, ?_, ?_, ?_⟩
  · rw [hst]; rfl
  · rw [vertices_eq_keys, vertices_eq_keys, hst]
    exact StdMap.keys_modify _ _ _
  · rw [hst]; rfl
  · intro x
    simp only [vertexInfo, hfind]
    split_ifs with hx
    · rw [hx, h1]
    · rfl
  · intro a b hab
    have hb := hfv b
    by_cases ha : a = u
    · subst ha
      have hbv : b ≠ v := fun e => hab (by rw [e])
      simp only [edgeInfo, hfind a, if_true, h1]
      cases hb1 : StdMap.find g.adjList b with
      | none =>
        rw [hb1] at hb
        have : StdMap.find (g.removeEdge a v).2.adjList b = none := by
          cases hx : StdMap.find (g.removeEdge a v).2.adjList b with
          | none => rfl
          | some d => rw [hx] at hb; exact Bool.noConfusion hb
        rw [this]
      | some d =>
        rw [hb1] at hb
        obtain ⟨d', hd'⟩ := Option.isSome_iff_exists.1 hb
        rw [hd']
        simp only [edgeInfoLoop_filter du.edges hbv]
    · simp only [edgeInfo, hfind a, if_neg ha]
      cases ha1 : StdMap.find g.adjList a with
      | none => rfl
      | some d1 =>
        cases hb1 : StdMap.find g.adjList b with
        | none =>
          rw [hb1] at hb
          have : StdMap.find (g.removeEdge u v).2.adjList b = none := by
            cases hx : StdMap.find (g.removeEdge u v).2.adjList b with
            | none => rfl
            | some d => rw [hx] at hb; exact Bool.noConfusion hb
          rw [this]
        | some d =>
          rw [hb1] at hb
          obtain ⟨d', hd'⟩ := Option.isSome_iff_exists.1 hb
          rw [hd']

theorem removeEdge_spec_witness :
    Built sampleGraph ∧ (sampleGraph.removeEdge 1 1).1 = none ∧
      (sampleGraph.removeEdge 1 1).2.edges =
        sampleGraph.edges.filter (fun ab => decide (ab ≠ ((1 : Int), (1 : Int)))) :=
  ⟨⟨_, rfl⟩, by decide, ((removeEdge_spec sampleGraph ⟨_, rfl⟩ 1 1).2 (by decide)).1⟩

/-- C13.  `addVertex(id, payload)` throws exactly when `id` is already a vertex
of the graph, for every integer `id`.  When it does not throw, `vertexInfo(id)`
is the payload, `edges(id)` is empty, `vertexCount()` has grown by 1,
`edgeCount()` is unchanged, and every other vertex keeps its record: its
payload and its list of outgoing edges. -/
theorem addVertex_spec (g : Digraph VertexInfo EdgeInfo) (id : Int) (payload : VertexInfo) :
    ((g.addVertex id payload).1.isSome = true ↔ id ∈ g.vertices) ∧
    ((g.addVertex id payload).1 = none →
      (g.addVertex id payload).2.vertexInfo id = .ok payload ∧
      (g.addVertex id payload).2.edgesOf id = .ok [] ∧
      (g.addVertex id payload).2.edgeCountOf id = .ok 0 ∧
      (g.addVertex id payload).2.vertexCount = g.vertexCount + 1 ∧
      (g.addVertex id payload).2.edgeCount = g.edgeCount ∧
      (∀ x, x ∈ (g.addVertex id payload).2.vertices ↔ x = id ∨ x ∈ g.vertices) ∧
      (∀ y, y ≠ id →
        StdMap.find (g.addVertex id payload).2.adjList y = StdMap.find g.adjList y ∧
        (g.addVertex id payload).2.vertexInfo y = g.vertexInfo y ∧
        (g.addVertex id payload).2.edgesOf y = g.edgesOf y ∧
        (g.addVertex id payload).2.edgeCountOf y = g.edgeCountOf y)) := by
  refine ⟨addVertex_fails_iff g id payload, ?_⟩
  intro h
  rw [addVertex_adjList h]
  have hfind : ∀ y, StdMap.find (StdMap.set g.adjList id
      ({ vinfo := payload, edges := [] } : DigraphVertex VertexInfo EdgeInfo)) y =
      if y = id then some { vinfo := payload, edges := [] } else StdMap.find g.adjList y :=
    fun y => StdMap.find_set _ _ _ _
  refine ⟨?_, ?_, ?_, rfl, rfl, ?_, ?_⟩
  · simp [vertexInfo, hfind]
  · simp [edgesOf, hfind]
  · simp [edgeCountOf, hfind]
  · intro x
    exact StdMap.mem_keys_set _ _ _ _
  · intro y hy
    have := hfind y
    rw [if_neg hy] at this
    refine ⟨this, ?_, ?_, ?_⟩
    · simp only [vertexInfo, this]
    · simp only [edgesOf, this]
    · simp only [edgeCountOf, this]

theorem addVertex_spec_witness :
    (sampleGraph.addVertex (-7) ()).1 = none ∧
      (sampleGraph.addVertex (-7) ()).2.vertexInfo (-7) = .ok () ∧
      (sampleGraph.addVertex (-7) ()).2.edgesOf (-7) = .ok [] :=
  ⟨by decide, ((addVertex_spec sampleGraph (-7) ()).2 (by decide)).1,
    ((addVertex_spec sampleGraph (-7) ()).2 (by decide)).2.1⟩

/-- C14 (failure atomicity).  Whenever a call of `addVertex`, `addEdge`,
`removeVertex` or `removeEdge` throws, the object is left in the state it had
before the call, so every query (`vertices()`, `edges()`, `vertexInfo`,
`edgeInfo`, `vertexCount()`, `edgeCount()`) answers as before; in particular no
vertex has been created. -/
theorem failure_atomicity (g : Digraph VertexInfo EdgeInfo)
    (m : Mutation VertexInfo EdgeInfo) (h : (g.mutationThrown m).isSome = true) :
    g.applyMutation m = g ∧
      (g.applyMutation m).vertices = g.vertices ∧ (g.applyMutation m).edges = g.edges ∧
      (∀ v, (g.applyMutation m).vertexInfo v = g.vertexInfo v) ∧
      (∀ u v, (g.applyMutation m).edgeInfo u v = g.edgeInfo u v) ∧
      (g.applyMutation m).vertexCount = g.vertexCount ∧
      (g.applyMutation m).edgeCount = g.edgeCount := by
  have hstate : g.applyMutation m = g := applyMutation_of_thrown g m h
  rw [hstate]
  exact ⟨rfl, rfl, rfl, fun _ => rfl, fun _ _ => rfl, rfl, rfl⟩

theorem failure_atomicity_witness :
    (sampleGraph.mutationThrown (.removeEdge 2 0)).isSome = true ∧
      sampleGraph.applyMutation (.removeEdge 2 0) = sampleGraph :=
  ⟨by decide, (failure_atomicity sampleGraph (.removeEdge 2 0) (by decide)).1⟩

/-- C15.  After any sequence of mutator calls on the empty graph, `edges()`
lists the edges by ascending source id (the integer order, negative ids
first): it is the concatenation, over the vertices in ascending order, of the
pairs with that source taken from the insertion log, oldest first.  For every
vertex `v` present, `edges(v)` is the part of the log with source `v`, and it
is the sub-sequence of `edges()` with source `v`. -/
theorem edges_order (ms : List (Mutation VertexInfo EdgeInfo)) :
    (applyMutations empty ms).vertices.Pairwise (fun x y => x < y) ∧
    ((applyMutations empty ms).edges.map (fun ab => ab.1)).Pairwise (fun x y => x ≤ y) ∧
    (applyMutations empty ms).edges =
      (applyMutations empty ms).vertices.flatMap
        (fun s => (insertionLog empty [] ms).filter (fun ab => decide (ab.1 = s))) ∧
    (∀ v ∈ (applyMutations empty ms).vertices,
      (applyMutations empty ms).edgesOf v =
        .ok ((insertionLog empty [] ms).filter (fun ab => decide (ab.1 = v)))) ∧
    (∀ v ∈ (applyMutations empty ms).vertices,
      (applyMutations empty ms).edgesOf v =
        .ok ((applyMutations empty ms).edges.filter (fun ab => decide (ab.1 = v)))) := by
  have hg : WellFormed (applyMutations (empty : Digraph VertexInfo EdgeInfo) ms) :=
    Built.wellFormed ⟨ms, rfl⟩
  have hL : LogInv (applyMutations (empty : Digraph VertexInfo EdgeInfo) ms)
      (insertionLog empty [] ms) :=
    logInv_applyMutations wellFormed_empty logInv_empty ms
  refine ⟨hg.keys_sorted, pairwise_fst_edges hg, edges_eq_of_logInv hL, ?_,
    fun v hv => edgesOf_eq_filter hg hv⟩
  intro v hv
  have hv' := hv
  rw [vertices_eq_keys, ← StdMap.find_isSome_iff] at hv'
  obtain ⟨dv, h1⟩ := Option.isSome_iff_exists.1 hv'
  simp only [edgesOf, h1]
  rw [hL.list_eq (v, dv) (StdMap.mem_of_find_eq_some h1)]

theorem edges_order_witness :
    (0 : Int) ∈ (applyMutations (empty : Digraph Unit Int) sampleMutations).vertices ∧
      (applyMutations (empty : Digraph Unit Int) sampleMutations).edgesOf 0 =
        .ok ((insertionLog empty [] sampleMutations).filter
          (fun ab => decide (ab.1 = (0 : Int)))) :=
  ⟨by decide, (edges_order sampleMutations).2.2.2.1 0 (by decide)⟩

/-- C16.  After any sequence of mutator calls on the empty graph, `vertices()`
is in strictly ascending order, holds no id twice, and holds exactly the ids
currently present: those added and not removed since, which are also those
for which `vertexInfo` succeeds.  Adding 0, 1, -1 in this order yields
`[-1, 0, 1]`, and the empty graph yields the empty sequence. -/
theorem vertices_spec (ms : List (Mutation VertexInfo EdgeInfo)) (a b c : VertexInfo) :
    (applyMutations empty ms).vertices.Pairwise (fun x y => x < y) ∧
    (applyMutations empty ms).vertices.Nodup ∧
    (∀ x, x ∈ (applyMutations empty ms).vertices ↔ specPresent x ms false = true) ∧
    (∀ x, x ∈ (applyMutations empty ms).vertices ↔
      ∃ p, (applyMutations empty ms).vertexInfo x = .ok p) ∧
    (applyMutations (empty : Digraph VertexInfo EdgeInfo)
      [.addVertex 0 a, .addVertex 1 b, .addVertex (-1) c]).vertices = [-1, 0, 1] ∧
    (empty : Digraph VertexInfo EdgeInfo).vertices = [] := by
  have hg : WellFormed (applyMutations (empty : Digraph VertexInfo EdgeInfo) ms) :=
    Built.wellFormed ⟨ms, rfl⟩
  refine ⟨hg.keys_sorted, hg.keys_sorted.imp (fun h => ne_of_lt h), ?_, ?_, rfl, rfl⟩
  · intro x
    exact specPresent_applyMutations wellFormed_empty ms x false (by simp [empty, vertices])
  · intro x
    exact (vertexInfo_ok_iff _ x).symm

/-- C17.  On a graph built by any sequence of mutator calls, `edges(v)`,
`vertexInfo(v)` and `edgeCount(v)` throw exactly when `v` is not a vertex;
`edgeInfo(u, v)` throws the exception "either of vertices does not exist" when
`u` or `v` is not a vertex, throws the different exception "the edge does not
exist" when both are vertices and `(u, v)` is not an edge, and otherwise
returns a payload `x` that a successful call `addEdge(u, v, x)` of the history
stored, the edge having kept that payload after every later call. -/
theorem lookup_failures (ms : List (Mutation VertexInfo EdgeInfo))
    (g : Digraph VertexInfo EdgeInfo) (hg : g = applyMutations empty ms) :
    (∀ v, (∃ e, g.edgesOf v = .error e) ↔ v ∉ g.vertices) ∧
    (∀ v, (∃ e, g.vertexInfo v = .error e) ↔ v ∉ g.vertices) ∧
    (∀ v, (∃ e, g.edgeCountOf v = .error e) ↔ v ∉ g.vertices) ∧
    (∀ u v, u ∉ g.vertices ∨ v ∉ g.vertices → g.edgeInfo u v =
      .error (.DigraphException "Digraph edgeInfo(): either of vertices does not exist.")) ∧
    (∀ u v, u ∈ g.vertices → v ∈ g.vertices → (u, v) ∉ g.edges → g.edgeInfo u v =
      .error (.DigraphException "Digraph edgeInfo(): the edge does not exist.")) ∧
    Thrown.DigraphException "Digraph edgeInfo(): either of vertices does not exist." ≠
      Thrown.DigraphException "Digraph edgeInfo(): the edge does not exist." ∧
    (∀ u v, (u, v) ∈ g.edges → u ∈ g.vertices ∧ v ∈ g.vertices ∧
      ∃ x pre post, g.edgeInfo u v = .ok x ∧
        ms = pre ++ Mutation.addEdge u v x :: post ∧
        ((applyMutations (empty : Digraph VertexInfo EdgeInfo) pre).addEdge u v x).1 = none ∧
        ∀ post1 post2, post = post1 ++ post2 →
          (u, v) ∈ (applyMutations (empty : Digraph VertexInfo EdgeInfo)
            (pre ++ Mutation.addEdge u v x :: post1)).edges ∧
          (applyMutations (empty : Digraph VertexInfo EdgeInfo)
            (pre ++ Mutation.addEdge u v x :: post1)).edgeInfo u v = .ok x) := by
  have hwf : WellFormed g := Built.wellFormed ⟨ms, hg⟩
  refine ⟨edgesOf_error_iff g, vertexInfo_error_iff g, edgeCountOf_error_iff g,
    edgeInfo_of_not_mem g, fun u v hu hv h => edgeInfo_of_not_mem_edges hwf hu hv h,
    by decide, ?_⟩
  intro u v huv
  obtain ⟨x, hx⟩ := edgeInfo_of_mem_edges hwf huv
  obtain ⟨du, h1, h2, -⟩ := (edgeInfo_eq_ok_iff g u v x).1 hx
  refine ⟨(find_isSome_iff_mem_vertices g u).1 (by rw [h1]; rfl),
    (find_isSome_iff_mem_vertices g v).1 h2, x, ?_⟩
  have hx' := hx
  rw [hg] at hx'
  obtain ⟨pre, post, hms, hs, hall⟩ := edgeInfo_history ms u v x hx'
  refine ⟨pre, post, hx, hms, hs, ?_⟩
  intro post1 post2 hp
  exact ⟨mem_edges_of_edgeInfo (Built.wellFormed ⟨_, rfl⟩) (hall post1 post2 hp),
    hall post1 post2 hp⟩

theorem lookup_failures_witness :
    (applyMutations (empty : Digraph Unit Int) sampleMutations).edgeInfo 0 2 = .ok 7 ∧
    (applyMutations (empty : Digraph Unit Int) sampleMutations).edgeInfo 0 1 =
      .error (.DigraphException "Digraph edgeInfo(): either of vertices does not exist.") ∧
    (applyMutations (empty : Digraph Unit Int) sampleMutations).edgeInfo 2 0 =
      .error (.DigraphException "Digraph edgeInfo(): the edge does not exist.") :=
  ⟨rfl,
    (lookup_failures sampleMutations _ rfl).2.2.2.1 0 1 (Or.inr (by decide)),
    (lookup_failures sampleMutations _ rfl).2.2.2.2.1 2 0 (by decide) (by decide) (by decide)⟩

/-- C18.  For a graph `d` built by the mutators, the copy constructor and the
copy assignment (on any target `self`, whatever it held) give an object equal
to `d`, hence one answering every query as `d` does: same `vertices()`, same
`edges()` in the same order, same `vertexInfo`, `edgeInfo`, `vertexCount()`,
`edgeCount()`; the argument `d` is left as it was, and self-assignment changes
nothing. -/
theorem copy_equal (self d : Digraph VertexInfo EdgeInfo) (hd : Built d) :
    (copyConstruct d).1 = d ∧ SameQueries (copyConstruct d).1 d ∧ (copyConstruct d).2 = d ∧
    (copyAssign self d).1 = d ∧ SameQueries (copyAssign self d).1 d ∧
    (copyAssign self d).2 = d ∧
    copyAssignSelf d = d := by
  have h1 := copyConstruct_eq (Built.wellFormed hd)
  have h2 := copyAssign_eq self (Built.wellFormed hd)
  rw [h1, h2]
  exact ⟨rfl, SameQueries.of_eq rfl, rfl, rfl, SameQueries.of_eq rfl, rfl, rfl⟩

theorem copy_equal_witness :
    Built sampleGraph ∧
    (copyAssign staleKeyGraph sampleGraph).1.edges = [(0, 1), (0, 2), (1, 2), (1, 1)] ∧
    (copyAssign staleKeyGraph sampleGraph).1 = sampleGraph :=
  ⟨⟨_, rfl⟩, by decide, (copy_equal staleKeyGraph sampleGraph ⟨_, rfl⟩).2.2.2.1⟩

/-- C20.  The move constructor gives the new object exactly the state of its
argument `d`, so it answers every query as `d` did, and leaves `d` equal to
the empty graph: `vertexCount()` and `edgeCount()` are 0, `vertices()` and
`edges()` are empty, and the representation invariant holds.  Mutator calls
made afterwards on the new object leave `d` empty. -/
theorem move_construct (d : Digraph VertexInfo EdgeInfo)
    (ms : List (Mutation VertexInfo EdgeInfo)) :
    (moveConstruct d).1 = d ∧ SameQueries (moveConstruct d).1 d ∧
    (moveConstruct d).2 = empty ∧
    (moveConstruct d).2.vertexCount = 0 ∧ (moveConstruct d).2.edgeCount = 0 ∧
    (moveConstruct d).2.vertices = [] ∧ (moveConstruct d).2.edges = [] ∧
    WellFormed (moveConstruct d).2 ∧
    (applyCalls (moveConstruct d) (ms.map (fun m => (Obj.target, m)))).1 = applyMutations d ms ∧
    (applyCalls (moveConstruct d) (ms.map (fun m => (Obj.target, m)))).2 = empty ∧
    (applyCalls (moveConstruct d) (ms.map (fun m => (Obj.target, m)))).2.vertices = [] ∧
    (applyCalls (moveConstruct d) (ms.map (fun m => (Obj.target, m)))).2.edges = [] ∧
    (applyCalls (moveConstruct d) (ms.map (fun m => (Obj.target, m)))).2.vertexCount = 0 ∧
    (applyCalls (moveConstruct d) (ms.map (fun m => (Obj.target, m)))).2.edgeCount = 0 := by
  simp only [applyCalls_eq, moveConstruct_eq, (callsOn_map_target ms).1,
    (callsOn_map_target ms).2]
  and_intros <;> first | trivial | rfl | exact SameQueries.of_eq rfl | exact wellFormed_empty

end Digraph

namespace Digraph

variable {VertexInfo EdgeInfo W : Type} [DoubleOps W]

/-- C21 (counterexample).  In the test `moveAssignmentOperator`, after
`d2 = std::move(d)` the moved-from graph `d` is not empty: it holds the two
vertices 10, 20 and the two edges that `d2` held before. -/
theorem move_assign_source_not_empty :
    (moveAssign moveTestTarget moveTestSource).2.vertexCount = 2 ∧
    (moveAssign moveTestTarget moveTestSource).2.edgeCount = 2 ∧
    (moveAssign moveTestTarget moveTestSource).2.vertices = [10, 20] ∧
    (moveAssign moveTestTarget moveTestSource).2.edges = [(10, 20), (20, 10)] ∧
    ¬ ((moveAssign moveTestTarget moveTestSource).2.vertexCount = 0 ∧
      (moveAssign moveTestTarget moveTestSource).2.edgeCount = 0) := by
  refine ⟨by decide, by decide, by decide, by decide, by decide⟩

/-- C21 (amended).  After `target = std::move(source)` on two distinct objects
the target has the former state of the source, and the source has the former
state of the target: a graph satisfying the representation invariant when the
target was built by the mutators.  The moved-from graph has zero vertices
exactly when the target was empty before the assignment, and then it is the
empty graph, with zero vertices and zero edges. -/
theorem move_assign_source (target source : Digraph VertexInfo EdgeInfo)
    (hT : Built target) :
    (moveAssign target source).1 = source ∧
    SameQueries (moveAssign target source).1 source ∧
    (moveAssign target source).2 = target ∧
    SameQueries (moveAssign target source).2 target ∧
    WellFormed (moveAssign target source).2 ∧
    ((moveAssign target source).2.vertexCount = 0 ↔ target = empty) ∧
    ((moveAssign target source).2 = empty ↔ target = empty) ∧
    (target = empty →
      (moveAssign target source).2.vertexCount = 0 ∧
      (moveAssign target source).2.edgeCount = 0 ∧
      (moveAssign target source).2.vertices = [] ∧
      (moveAssign target source).2.edges = []) := by
  have hwf := Built.wellFormed hT
  rw [moveAssign_eq]
  refine ⟨rfl, SameQueries.of_eq rfl, rfl, SameQueries.of_eq rfl, hwf, ?_, Iff.rfl, ?_⟩
  · constructor
    · intro h0
      have h1 : target.vertexCount_ = 0 := h0
      rw [hwf.vertexCount_eq] at h1
      have h2 : target.adjList = [] := List.length_eq_zero.1 (by exact_mod_cast h1)
      exact eq_of_adjList_eq hwf wellFormed_empty h2
    · intro h
      rw [h]
      rfl
  · intro h
    show target.vertexCount = 0 ∧ target.edgeCount = 0 ∧ target.vertices = [] ∧ target.edges = []
    rw [h]
    exact ⟨rfl, rfl, rfl, rfl⟩

theorem move_assign_source_witness :
    Built (empty : Digraph String Int) ∧
    (moveAssign (empty : Digraph String Int) moveTestSource).1 = moveTestSource ∧
    (moveAssign (empty : Digraph String Int) moveTestSource).2.vertices = [] :=
  ⟨⟨[], rfl⟩, (move_assign_source empty moveTestSource ⟨[], rfl⟩).1,
    ((move_assign_source empty moveTestSource ⟨[], rfl⟩).2.2.2.2.2.2.2 rfl).2.2.1⟩

/-- C22.  After `d2 = std::move(d)` on two distinct graphs built by the
mutators, `d2` answers every query as `d` did before and `d` answers every
query as `d2` did before; for both, `vertexCount()` is the number of vertices
and `edgeCount()` the number of edges.  On the graphs of the test
`moveAssignmentOperator`, `d2` then reports 4 vertices and 4 edges and `d`
reports 2 vertices and 2 edges, and after `d2.removeEdge(2, 3)` they report 3
and 2 edges. -/
theorem move_assign_exchanges (d2 d : Digraph VertexInfo EdgeInfo) (h2 : Built d2)
    (h : Built d) :
    (moveAssign d2 d).1 = d ∧ (moveAssign d2 d).2 = d2 ∧
    SameQueries (moveAssign d2 d).1 d ∧ SameQueries (moveAssign d2 d).2 d2 ∧
    (moveAssign d2 d).1.vertexCount = ((moveAssign d2 d).1.vertices.length : Int) ∧
    (moveAssign d2 d).1.edgeCount = ((moveAssign d2 d).1.edges.length : Int) ∧
    (moveAssign d2 d).2.vertexCount = ((moveAssign d2 d).2.vertices.length : Int) ∧
    (moveAssign d2 d).2.edgeCount = ((moveAssign d2 d).2.edges.length : Int) ∧
    (moveAssign moveTestTarget moveTestSource).1.vertexCount = 4 ∧
    (moveAssign moveTestTarget moveTestSource).1.edgeCount = 4 ∧
    (moveAssign moveTestTarget moveTestSource).2.vertexCount = 2 ∧
    (moveAssign moveTestTarget moveTestSource).2.edgeCount = 2 ∧
    (applyCalls (moveAssign moveTestTarget moveTestSource)
      [(Obj.target, Mutation.removeEdge 2 3)]).1.edgeCount = 3 ∧
    (applyCalls (moveAssign moveTestTarget moveTestSource)
      [(Obj.target, Mutation.removeEdge 2 3)]).2.edgeCount = 2 := by
  have c := counts_of_wellFormed (Built.wellFormed h)
  have c2 := counts_of_wellFormed (Built.wellFormed h2)
  rw [moveAssign_eq]
  exact ⟨rfl, rfl, SameQueries.of_eq rfl, SameQueries.of_eq rfl, c.1, c.2, c2.1, c2.2,
    by decide, by decide, by decide, by decide, by decide, by decide⟩

theorem move_assign_exchanges_witness :
    Built moveTestTarget ∧ Built moveTestSource ∧
    (moveAssign moveTestTarget moveTestSource).1 = moveTestSource ∧
    (moveAssign moveTestTarget moveTestSource).2 = moveTestTarget :=
  ⟨⟨_, rfl⟩, ⟨_, rfl⟩,
    (move_assign_exchanges moveTestTarget moveTestSource ⟨_, rfl⟩ ⟨_, rfl⟩).1,
    (move_assign_exchanges moveTestTarget moveTestSource ⟨_, rfl⟩ ⟨_, rfl⟩).2.1⟩

/-- C23.  On the graph of the test `findShortestPathsInDAG` (vertices 0..6, the
ten weighted edges inserted in the order of the test), with the weight
function returning the payload, `findShortestPaths(0)` returns exactly the map
`0:0, 1:0, 2:0, 3:1, 4:2, 5:3, 6:5` and `isStronglyConnected()` returns false;
`vertexCount()` is 7 and `edgeCount()` is 10. -/
theorem findShortestPaths_dag :
    dagGraph.vertices = [0, 1, 2, 3, 4, 5, 6] ∧
    dagGraph.edges =
      [(0, 1), (0, 2), (1, 3), (2, 3), (2, 4), (3, 4), (3, 5), (4, 5), (4, 6), (5, 6)] ∧
    dagGraph.edges.map (fun ab => dagGraph.edgeInfo ab.1 ab.2) =
      [.ok 8, .ok 6, .ok 10, .ok 15, .ok 9, .ok 14, .ok 4, .ok 13, .ok 17, .ok 7] ∧
    dagGraph.vertexCount = 7 ∧ dagGraph.edgeCount = 10 ∧
    findShortestPaths dagGraph 0 (fun x => Dist.fin x) =
      some (.ok [(0, 0), (1, 0), (2, 0), (3, 1), (4, 2), (5, 3), (6, 5)]) ∧
    isStronglyConnected dagGraph = some (.ok false) := by
  refine ⟨by decide, by decide, rfl, by decide, by decide, rfl, rfl⟩

/-- C24 (evaluation at the failing input).  On `staleKeyGraph`, built by the
mutators and weighted by its non-negative payloads, the state of
`findShortestPaths(0)` after two iterations has the queue container
`[1, 2, 3, 2]`: `pq.top()` is vertex 1, not settled, with tentative distance
10, while vertex 2, also in the queue and not settled, has tentative distance
6.  The third iteration takes vertex 1 from the queue and settles it. -/
theorem queue_top_not_smallest :
    Built staleKeyGraph ∧
    NonnegWeights staleKeyGraph (fun x : Int => Dist.fin x) ∧
    ∃ st st', shortestPathsAfter staleKeyGraph (fun x : Int => Dist.fin x) 2 (entryState staleKeyGraph 0)
        = .ok st ∧
      shortestPathsStep staleKeyGraph (fun x : Int => Dist.fin x) st = .ok st' ∧
      st.pq = [1, 2, 3, 2] ∧ StdHeap.top st.pq = 1 ∧
      st.settled 1 = false ∧ st'.settled 1 = true ∧
      (2 : Int) ∈ st.pq ∧ st.settled 2 = false ∧
      st.dist 1 = Dist.fin 10 ∧ st.dist 2 = Dist.fin 6 ∧
      Dist.gt (st.dist 1) (st.dist 2) = true := by
  refine ⟨⟨_, rfl⟩, nonnegWeights_staleKey, ?_⟩
  refine ⟨{ result := [(0, 0), (1, 0), (2, 4), (3, 0), (4, 0), (5, 5)]
            k := [(0, true), (1, false), (2, false), (3, false), (4, true), (5, false)]
            d := [(0, .fin 0), (1, .fin 10), (2, .fin 6), (3, .fin 12), (4, .fin 4), (5, .inf)]
            pq := [1, 2, 3, 2] },
          { result := [(0, 0), (1, 0), (2, 4), (3, 0), (4, 0), (5, 1)]
            k := [(0, true), (1, true), (2, false), (3, false), (4, true), (5, false)]
            d := [(0, .fin 0), (1, .fin 10), (2, .fin 6), (3, .fin 12), (4, .fin 4),
              (5, .fin 12)]
            pq := [2, 2, 3, 5] }, rfl, rfl, rfl, rfl, rfl, rfl, by decide, rfl, rfl, rfl, rfl⟩

/-- C25 (evaluation at the failing input).  On `staleKeyGraph`, with its
non-negative payloads as weights, vertex 1 is settled after three iterations
of `findShortestPaths(0)` with tentative distance 10 and predecessor 0; the
fourth iteration relaxes the edge `2->1` and changes them to 8 and 2.  The
map returned by the code has `P[1] = 2`, the map of the loop that relaxes only
edges to unsettled neighbours has `P[1] = 0`. -/
theorem settled_entry_changes :
    Built staleKeyGraph ∧
    NonnegWeights staleKeyGraph (fun x : Int => Dist.fin x) ∧
    (∃ st st', shortestPathsAfter staleKeyGraph (fun x : Int => Dist.fin x) 3 (entryState staleKeyGraph 0)
        = .ok st ∧
      shortestPathsAfter staleKeyGraph (fun x : Int => Dist.fin x) 4 (entryState staleKeyGraph 0)
        = .ok st' ∧
      st.settled 1 = true ∧ st.dist 1 = Dist.fin 10 ∧ StdMap.find st.result 1 = some 0 ∧
      st'.settled 1 = true ∧ st'.dist 1 = Dist.fin 8 ∧ StdMap.find st'.result 1 = some 2) ∧
    findShortestPaths staleKeyGraph 0 (fun x : Int => Dist.fin x) =
      some (.ok [(0, 0), (1, 2), (2, 4), (3, 0), (4, 0), (5, 2)]) ∧
    specFindShortestPaths staleKeyGraph 0 (fun x : Int => Dist.fin x) =
      some (.ok [(0, 0), (1, 0), (2, 4), (3, 0), (4, 0), (5, 2)]) ∧
    findShortestPaths staleKeyGraph 0 (fun x : Int => Dist.fin x) ≠
      specFindShortestPaths staleKeyGraph 0 (fun x : Int => Dist.fin x) := by
  have h1 : findShortestPaths staleKeyGraph 0 (fun x : Int => Dist.fin x) =
      some (.ok [(0, 0), (1, 2), (2, 4), (3, 0), (4, 0), (5, 2)]) := rfl
  have h2 : specFindShortestPaths staleKeyGraph 0 (fun x : Int => Dist.fin x) =
      some (.ok [(0, 0), (1, 0), (2, 4), (3, 0), (4, 0), (5, 2)]) := rfl
  refine ⟨⟨_, rfl⟩, nonnegWeights_staleKey, ?_, h1, h2, ?_⟩
  · exact ⟨{ result := [(0, 0), (1, 0), (2, 4), (3, 0), (4, 0), (5, 1)]
             k := [(0, true), (1, true), (2, false), (3, false), (4, true), (5, false)]
             d := [(0, .fin 0), (1, .fin 10), (2, .fin 6), (3, .fin 12), (4, .fin 4),
               (5, .fin 12)]
             pq := [2, 2, 3, 5] },
           { result := [(0, 0), (1, 2), (2, 4), (3, 0), (4, 0), (5, 2)]
             k := [(0, true), (1, true), (2, true), (3, false), (4, true), (5, false)]
             d := [(0, .fin 0), (1, .fin 8), (2, .fin 6), (3, .fin 12), (4, .fin 4),
               (5, .fin 11)]
             pq := [2, 1, 3, 5, 5] }, rfl, rfl, rfl, rfl, rfl, rfl, rfl, rfl⟩
  · rw [h1, h2]
    intro h
    have h3 := Except.ok.inj (Option.some.inj h)
    exact absurd h3 (by decide)

/-- C26.  On a graph built by the mutators, for every start vertex of the graph
and every weight function, `findShortestPaths` returns: the loop ends with an
empty queue after at most `1 + edgeCount()` iterations.  Among these
iterations no vertex is settled (and has its edges scanned) twice, an
iteration that pops an already settled vertex only pops, and the pushes of all
iterations together with the push of the start vertex are as many as the
iterations, hence at most `1 + edgeCount()`. -/
theorem findShortestPaths_terminates (g : Digraph VertexInfo EdgeInfo) (hB : Built g) (s : Int)
    (hs : s ∈ g.vertices) (edgeWeightFunc : EdgeInfo → W) :
    ∃ r : ShortestPathsState W,
      findShortestPaths g s edgeWeightFunc = some (.ok r.result) ∧
      shortestPathsAfter g edgeWeightFunc
        (shortestPathsEvents g edgeWeightFunc (1 + g.edges.length) (entryState g s)).length
        (entryState g s) = .ok r ∧
      r.pq = [] ∧
      ((shortestPathsEvents g edgeWeightFunc (1 + g.edges.length) (entryState g s)).length : Int)
        ≤ 1 + g.edgeCount ∧
      (((shortestPathsEvents g edgeWeightFunc (1 + g.edges.length) (entryState g s)).filter
        (fun e => !e.skipped)).map (fun e => e.vertex)).Nodup ∧
      (∀ e ∈ shortestPathsEvents g edgeWeightFunc (1 + g.edges.length) (entryState g s),
        e.skipped = true → e.pushed = 0) ∧
      (∀ st : ShortestPathsState W, st.settled (StdHeap.top st.pq) = true →
        shortestPathsStep g edgeWeightFunc st =
          .ok { st with pq := StdHeap.pop (compare st.d) st.pq }) ∧
      1 + ((shortestPathsEvents g edgeWeightFunc (1 + g.edges.length) (entryState g s)).map
        (fun e => e.pushed)).sum =
        (shortestPathsEvents g edgeWeightFunc (1 + g.edges.length) (entryState g s)).length ∧
      ((1 + ((shortestPathsEvents g edgeWeightFunc (1 + g.edges.length) (entryState g s)).map
        (fun e => e.pushed)).sum : Nat) : Int) ≤ 1 + g.edgeCount := by
  have hg := Built.wellFormed hB
  obtain ⟨r, h1, h2, -⟩ := shortestPathsLoop_entry hg hs edgeWeightFunc
  obtain ⟨e1, e2, e3⟩ := shortestPathsEvents_run g edgeWeightFunc _ _ r h1
  have hlen := length_shortestPathsEvents_le g edgeWeightFunc (1 + g.edges.length)
    (entryState g s)
  have hentry : (entryState g s : ShortestPathsState W).pq.length = 1 := by
    rw [entryState_eq g s hg.keys_sorted]
    rfl
  rw [hentry] at e1
  have hc := (counts_of_wellFormed hg).2
  refine ⟨r, h2, e2, e3, ?_, (shortestPathsEvents_unskipped g edgeWeightFunc _ _).1,
    shortestPathsEvents_skipped g edgeWeightFunc _ _,
    shortestPathsStep_skip g edgeWeightFunc, e1, ?_⟩
  · rw [hc]
    exact_mod_cast hlen
  · rw [e1, hc]
    exact_mod_cast hlen

theorem findShortestPaths_terminates_witness :
    Built staleKeyGraph ∧ (0 : Int) ∈ staleKeyGraph.vertices ∧
    shortestPathsEvents staleKeyGraph (fun x : Int => Dist.fin (0 - x)) (1 + staleKeyGraph.edges.length)
      (entryState staleKeyGraph 0) =
      [⟨0, false, 4⟩, ⟨2, false, 2⟩, ⟨5, false, 0⟩, ⟨3, false, 0⟩, ⟨1, false, 0⟩,
        ⟨1, true, 0⟩, ⟨4, false, 0⟩] ∧
    ∃ r : ShortestPathsState (Dist Int),
      findShortestPaths staleKeyGraph 0 (fun x : Int => Dist.fin (0 - x)) = some (.ok r.result) ∧
      shortestPathsAfter staleKeyGraph (fun x : Int => Dist.fin (0 - x))
        (shortestPathsEvents staleKeyGraph (fun x : Int => Dist.fin (0 - x))
          (1 + staleKeyGraph.edges.length) (entryState staleKeyGraph 0)).length
        (entryState staleKeyGraph 0) = .ok r ∧
      r.pq = [] :=
  ⟨⟨_, rfl⟩, by decide, by decide,
    (findShortestPaths_terminates staleKeyGraph ⟨_, rfl⟩ 0 (by decide)
      (fun x : Int => Dist.fin (0 - x))).imp (fun _ h => ⟨h.1, h.2.1, h.2.2.1⟩)⟩

/-- C27.  On a graph built by the mutators, for a vertex `s` of the graph, the
call of `DFTr` for `s` with an empty `visited` and `find == 0` returns (nested
calls never go deeper than the number of vertices, and any larger bound gives
the same result) without a failed lookup `g.at(..)`.  It leaves in `visited`
exactly the vertices reachable from `s`, `s` among them, each once, and in
`find` their number. -/
theorem DFTr_reachable (g : Digraph VertexInfo EdgeInfo) (hB : Built g) (s : Int)
    (hs : s ∈ g.vertices) :
    ∃ visited : List Int,
      DFTr g.adjList g.adjList.length s ([], 0) = some (.ok (visited, (visited.length : Int))) ∧
      (∀ depth, g.adjList.length ≤ depth →
        DFTr g.adjList depth s ([], 0) = some (.ok (visited, (visited.length : Int)))) ∧
      visited.Nodup ∧ s ∈ visited ∧
      (∀ x, x ∈ visited ↔ Reachable g s x) ∧
      (∀ x ∈ visited, x ∈ g.vertices) ∧
      visited.length ≤ g.vertices.length := by
  obtain ⟨new, h1, h2, h3, h4⟩ := DFTr_top (Built.wellFormed hB) hs
  refine ⟨new, h1, fun depth hd => DFTr_mono g.adjList hd h1, h2,
    (h3 s).2 Relation.ReflTransGen.refl, h3, h4, ?_⟩
  exact length_le_of_nodup_subset h2 h4

theorem DFTr_reachable_witness :
    Built sampleGraph ∧ (1 : Int) ∈ sampleGraph.vertices ∧
    DFTr sampleGraph.adjList sampleGraph.adjList.length 1 ([], 0) = some (.ok ([1, 2], 2)) ∧
    ∃ visited : List Int,
      DFTr sampleGraph.adjList sampleGraph.adjList.length 1 ([], 0) =
        some (.ok (visited, (visited.length : Int))) ∧
      ∀ x, x ∈ visited ↔ Reachable sampleGraph 1 x :=
  ⟨⟨_, rfl⟩, by decide, rfl,
    (DFTr_reachable sampleGraph ⟨_, rfl⟩ 1 (by decide)).imp
      (fun _ h => ⟨h.1, h.2.2.2.2.1⟩)⟩

/-- C28.  On a graph built by the mutators, for a start vertex `s` of the graph
and any weight function, `findShortestPaths(s, w)` returns a map `P` in which
every entry `P[t] == u` with `u != t` is an edge `(u, t)` of `edges()`, so
`edgeInfo(u, t)` returns a payload.  Hence in every sequence that
`sortPredocessors` returns for a vertex `t` each vertex is joined to the one
before it by an edge, and when the sequence ends at `s` none of the
`edgeInfo` lookups of the route printing loop throws. -/
theorem predecessor_is_edge (g : Digraph VertexInfo EdgeInfo) (hB : Built g) (s : Int)
    (hs : s ∈ g.vertices) (edgeWeightFunc : EdgeInfo → W) :
    ∃ P, findShortestPaths g s edgeWeightFunc = some (.ok P) ∧
      (∀ t u, StdMap.find P t = some u → u ≠ t →
        (u, t) ∈ g.edges ∧ ∃ x, g.edgeInfo u t = .ok x) ∧
      (∀ (fuel : Nat) (t : Int) (metric : TripMetric) (order : List Int), t ∈ g.vertices →
        sortPredocessors fuel ⟨s, t, metric⟩ [(s, P)] = some order →
        List.Chain' (fun a b => (b, a) ∈ g.edges ∧ ∃ x, g.edgeInfo b a = .ok x) order ∧
        (order.getLast? = some s →
          ∀ r ∈ routeLookups g s order.dropLast.reverse, ∃ x, r = .ok x)) := by
  have hg := Built.wellFormed hB
  obtain ⟨r, -, h2, hP⟩ := shortestPathsLoop_entry hg hs edgeWeightFunc
  refine ⟨r.result, h2, fun t u h hne => pathsInv_lookup hg hP h hne, ?_⟩
  intro fuel t metric order ht hso
  have hget : StdMap.get [] [(s, r.result)] s = r.result := by
    simp [StdMap.get, StdMap.find]
  unfold sortPredocessors at hso
  simp only [hget] at hso
  have hc := sortPredocessorsLoop_chain r.result (fun a => a ∈ StdMap.keys g.adjList)
    (fun a ha => pathsInv_result_closed hP a ha) fuel [t] t order hso rfl ht
    (List.chain'_singleton _)
  have hc' : List.Chain' (fun a b => (b, a) ∈ g.edges ∧ ∃ x, g.edgeInfo b a = .ok x) order :=
    hc.imp (fun {a b} hab => pathsInv_lookup hg hP hab.1 hab.2)
  refine ⟨hc', ?_⟩
  intro hlast
  have hsplit : order.dropLast ++ [s] = order := List.dropLast_append_getLast? s hlast
  have hrev : List.Chain' (fun a b => ∃ x, g.edgeInfo a b = .ok x) order.reverse := by
    rw [List.chain'_reverse]
    exact hc'.imp (fun {a b} hab => hab.2)
  rw [← hsplit, List.reverse_append] at hrev
  exact routeLookups_ok g _ s hrev

theorem predecessor_is_edge_witness :
    Built sampleGraph ∧ (0 : Int) ∈ sampleGraph.vertices ∧
    routeLookups sampleGraph 0 [1, 2] = [.ok 5, .ok 6] ∧
    ∃ P, findShortestPaths sampleGraph 0 (fun x : Int => Dist.fin x) = some (.ok P) ∧
      (∀ t u, StdMap.find P t = some u → u ≠ t →
        (u, t) ∈ sampleGraph.edges ∧ ∃ x, sampleGraph.edgeInfo u t = .ok x) :=
  ⟨⟨_, rfl⟩, by decide, rfl,
    (predecessor_is_edge sampleGraph ⟨_, rfl⟩ 0 (by decide) (fun x : Int => Dist.fin x)).imp
      (fun _ h => ⟨h.1, h.2.1⟩)⟩

/-- C29.  On a graph built by the mutators: if `id` is not a vertex,
`addVertex(id, x)` followed by `removeVertex(id)` throws nothing and leaves
the object in the state it had before; if `u` and `v` are vertices and
`(u, v)` is not an edge, `addEdge(u, v, p)` followed by `removeEdge(u, v)`
throws nothing and leaves the object in the state it had before.  In both
cases every query (vertices, edges in their order, payloads, counts) answers
as before. -/
theorem add_remove_round_trip (g : Digraph VertexInfo EdgeInfo) (hB : Built g) (id : Int)
    (x : VertexInfo) (u v : Int) (p : EdgeInfo) :
    (id ∉ g.vertices →
      (g.addVertex id x).1 = none ∧ ((g.addVertex id x).2.removeVertex id).1 = none ∧
      ((g.addVertex id x).2.removeVertex id).2 = g ∧
      applyMutations g [.addVertex id x, .removeVertex id] = g ∧
      SameQueries ((g.addVertex id x).2.removeVertex id).2 g) ∧
    (u ∈ g.vertices → v ∈ g.vertices → (u, v) ∉ g.edges →
      (g.addEdge u v p).1 = none ∧ ((g.addEdge u v p).2.removeEdge u v).1 = none ∧
      ((g.addEdge u v p).2.removeEdge u v).2 = g ∧
      applyMutations g [.addEdge u v p, .removeEdge u v] = g ∧
      SameQueries ((g.addEdge u v p).2.removeEdge u v).2 g) := by
  have hg := Built.wellFormed hB
  refine ⟨?_, ?_⟩
  · intro h
    obtain ⟨h1, h2, h3⟩ := addVertex_removeVertex hg x h
    exact ⟨h1, h2, h3, h3, SameQueries.of_eq h3⟩
  · intro hu hv h
    obtain ⟨h1, h2, h3⟩ := addEdge_removeEdge hg p hu hv h
    exact ⟨h1, h2, h3, h3, SameQueries.of_eq h3⟩

theorem add_remove_round_trip_witness :
    Built sampleGraph ∧ (-3 : Int) ∉ sampleGraph.vertices ∧
    (2 : Int) ∈ sampleGraph.vertices ∧ (0 : Int) ∈ sampleGraph.vertices ∧
    ((2 : Int), (0 : Int)) ∉ sampleGraph.edges ∧
    ((sampleGraph.addVertex (-3) ()).2.removeVertex (-3)).2 = sampleGraph ∧
    ((sampleGraph.addEdge 2 0 9).2.removeEdge 2 0).2 = sampleGraph :=
  ⟨⟨_, rfl⟩, by decide, by decide, by decide, by decide,
    ((add_remove_round_trip sampleGraph ⟨_, rfl⟩ (-3) () 2 0 9).1 (by decide)).2.2.1,
    ((add_remove_round_trip sampleGraph ⟨_, rfl⟩ (-3) () 2 0 9).2 (by decide) (by decide)
      (by decide)).2.2.1⟩

end Digraph

end Core
